import Mathlib

/-!
# BlockSimilarityFinder: block fingerprints and duplicate counting

A shallow embedding of the three C programs of the repository
(`main.c`, `pattern_matching_phtread.c`, `pattern_matching_mpi.c`) and the
properties of their fingerprinting and duplicate-counting engine.

Conventions of the embedding.

* `uint64_t` fingerprints are natural numbers.
* The C type `int` (node counts, return values, `pairCount`) is `Int`.  Every
  place where the C code stores the result of `int` arithmetic goes through a
  function `int : Int → Int`, the first argument of the embedded functions:
  `exactInt` keeps the mathematical integer, `int32` wraps to two's-complement
  32 bits.
* The bucket array `HashNode *hashTable[HASH_SIZE]` is a function from bucket
  index to chain, a chain (`next` pointers) is a list of nodes.
* The voxel buffer is a list of bytes; a read outside the buffer has no result.
-/

namespace BlockSimilarityFinder

/-! ## Constants shared by the three programs -/

/-- `#define CUBE_SIZE 4`. -/
def CUBE_SIZE : Nat := 4

/-- `#define HASH_SIZE 10007`. -/
def HASH_SIZE : Nat := 10007

/-! ## Readings of the C type `int` -/

/-- The `int` arithmetic read over the mathematical integers. -/
def exactInt (x : Int) : Int := x

/-- The `int` arithmetic read as two's-complement 32-bit, overflow wrapping modulo `2^32`. -/
def int32 (x : Int) : Int := (x + 2147483648) % 4294967296 - 2147483648

/-- What the proofs need of a reading of `int`: it is compatible with addition and fixes 0 and 1. -/
structure IntReading (int : Int → Int) : Prop where
  add_left : ∀ a b, int (int a + b) = int (a + b)
  add_right : ∀ a b, int (a + int b) = int (a + b)
  zero : int 0 = 0
  one : int 1 = 1

/-! ## The hash table (`HashNode`, `createNode`, `hashFunction`, `insertOrUpdate`) -/

/-- `struct HashNode` without its `next` pointer, which is the tail of the chain. -/
structure HashNode where
  blockValue : Nat
  count : Int
  deriving DecidableEq, Repr

/-- The bucket array: bucket index to chain. -/
abbrev HashTable := Nat → List HashNode

/-- `HashNode *hashTable[HASH_SIZE] = {0}`: every bucket empty. -/
def emptyTable : HashTable := fun _ => []

/-- `createNode`: a node with count 1. -/
def createNode (blockValue : Nat) : HashNode :=
  { blockValue := blockValue, count := 1 }

/-- `hashFunction`: `value % HASH_SIZE`. -/
def hashFunction (value : Nat) : Nat := value % HASH_SIZE

/-- The `while (current)` loop of `insertOrUpdate` over one chain: on the first node whose
`blockValue` matches, `count++` and return `count - 1`; `none` when the chain has no match. -/
def scanChain (int : Int → Int) (blockValue : Nat) : List HashNode → Option (List HashNode × Int)
  | [] => none
  | current :: next =>
    if current.blockValue = blockValue then
      some ({ current with count := int (current.count + 1) } :: next,
            int (int (current.count + 1) - 1))
    else
      match scanChain int blockValue next with
      | some (next', r) => some (current :: next', r)
      | none => none

/-- `insertOrUpdate`: the table after the call and the returned value. -/
def insertOrUpdate (int : Int → Int) (hashTable : HashTable) (blockValue : Nat) :
    HashTable × Int :=
  let hashIndex := hashFunction blockValue
  match scanChain int blockValue (hashTable hashIndex) with
  | some (chain, r) => (Function.update hashTable hashIndex chain, r)
  | none =>
    (Function.update hashTable hashIndex (createNode blockValue :: hashTable hashIndex), 0)

/-- A sequence of calls of `insertOrUpdate`, one per fingerprint, on the same table: the final
table and the values returned, in call order. -/
def callSequence (int : Int → Int) : HashTable → List Nat → HashTable × List Int
  | hashTable, [] => (hashTable, [])
  | hashTable, fp :: rest =>
    let r := insertOrUpdate int hashTable fp
    let q := callSequence int r.1 rest
    (q.1, r.2 :: q.2)

/-- The counting loop of `main` (`for (i = 0; i < blockIndex; i++) pairCount +=
insertOrUpdate(hashTable, blocks[i])`): the final table and `pairCount`. -/
def countLoop (int : Int → Int) (hashTable : HashTable) (pairCount : Int) (blocks : List Nat) :
    HashTable × Int :=
  blocks.foldl
    (fun s b => let r := insertOrUpdate int s.1 b; (r.1, int (s.2 + r.2)))
    (hashTable, pairCount)

/-- The total the sequential program reports for a list of fingerprints: `pairCount` after the
counting loop, started at 0 on an empty table. -/
def sequentialTotal (int : Int → Int) (blocks : List Nat) : Int :=
  (countLoop int emptyTable 0 blocks).2

/-! ## Abstraction of a table: the count stored for a fingerprint -/

/-- The count of the first node of a chain with the given `blockValue`, 0 when there is none. -/
def chainCount (blockValue : Nat) : List HashNode → Int
  | [] => 0
  | node :: rest => if node.blockValue = blockValue then node.count else chainCount blockValue rest

/-- The count the table stores for a fingerprint (0 when it has no node). -/
def countOf (hashTable : HashTable) (blockValue : Nat) : Int :=
  chainCount blockValue (hashTable (hashFunction blockValue))

/-! ## The block fingerprinter (`extract_block`) -/

/-- The body of the innermost loop of `extract_block` on the state `(block, bit)`:
`if (data[offset]) block |= (1ULL << bit); bit++`.  A read outside the buffer gives no state. -/
def packVoxel (data : List Nat) (s : Option (Nat × Nat)) (offset : Nat) : Option (Nat × Nat) :=
  match s with
  | none => none
  | some (block, bit) =>
    match data[offset]? with
    | none => none
    | some voxel => some (if voxel ≠ 0 then block ||| (1 <<< bit) else block, bit + 1)

/-- `extract_block`: the three nested loops `z`, `y`, `x` over `[0, CUBE_SIZE)` from
`block = 0`, `bit = 0`, with `offset = start + x + y * WIDTH + z * WIDTH * HEIGHT`.
`WIDTH` and `HEIGHT` are the macros of the program at hand. -/
def extract_block (WIDTH HEIGHT : Nat) (data : List Nat) (start : Nat) : Option Nat :=
  ((List.range CUBE_SIZE).foldl (fun s z =>
    (List.range CUBE_SIZE).foldl (fun s y =>
      (List.range CUBE_SIZE).foldl (fun s x =>
        packVoxel data s (start + x + y * WIDTH + z * WIDTH * HEIGHT)) s) s)
    (some (0, 0))).map Prod.fst

/-- The offset of the `i`-th position of the traversal of a block: `x = i mod 4`,
`y = (i / 4) mod 4`, `z = i / 16`. -/
def voxelOffset (WIDTH HEIGHT start i : Nat) : Nat :=
  start + i % 4 + (i / 4 % 4) * WIDTH + (i / 16) * WIDTH * HEIGHT

/-- A block start offset is in bounds when the last voxel of the block is inside the buffer. -/
def blockInBounds (WIDTH HEIGHT : Nat) (data : List Nat) (start : Nat) : Prop :=
  start + 3 + 3 * WIDTH + 3 * WIDTH * HEIGHT < data.length

instance (WIDTH HEIGHT : Nat) (data : List Nat) (start : Nat) :
    Decidable (blockInBounds WIDTH HEIGHT data start) := by
  unfold blockInBounds; infer_instance

/-- A one-block grid (`WIDTH = HEIGHT = DEPTH = 4`) whose voxels at odd offsets are set. -/
def oddVoxelsGrid : List Nat := (List.range 64).map (fun i => i % 2)

/-- A grid with `WIDTH = 8`, `HEIGHT = DEPTH = 4` (two blocks side by side) whose voxels depend
on the row only, so that both blocks hold the same pattern. -/
def twoBlockGrid : List Nat := (List.range 128).map (fun i => (i / 8) % 2)

/-! ## The partition of the threaded driver (`pattern_matching_phtread.c`, `main`) -/

/-- `int blockPerThread = BLOCK_COUNT / NUM_THREADS`. -/
def blockPerThread (BLOCK_COUNT NUM_THREADS : Nat) : Nat := BLOCK_COUNT / NUM_THREADS

/-- `threadData[i].startIndex = i * blockPerThread`. -/
def startIndex (BLOCK_COUNT NUM_THREADS i : Nat) : Nat :=
  i * blockPerThread BLOCK_COUNT NUM_THREADS

/-- `threadData[i].endIndex = (i == NUM_THREADS - 1) ? BLOCK_COUNT : (i + 1) * blockPerThread`. -/
def endIndex (BLOCK_COUNT NUM_THREADS i : Nat) : Nat :=
  if i = NUM_THREADS - 1 then BLOCK_COUNT else (i + 1) * blockPerThread BLOCK_COUNT NUM_THREADS

/-- Block index `k` lies in the range of thread `i`. -/
def inRange (BLOCK_COUNT NUM_THREADS i k : Nat) : Prop :=
  startIndex BLOCK_COUNT NUM_THREADS i ≤ k ∧ k < endIndex BLOCK_COUNT NUM_THREADS i

instance (BLOCK_COUNT NUM_THREADS i k : Nat) : Decidable (inRange BLOCK_COUNT NUM_THREADS i k) := by
  unfold inRange; infer_instance

/-! ## The threaded run (`processBlocks` under `hashMutex`) -/

/-- The state the worker threads act on: the shared table, the shared `pairCount`, and the loop
variable `i` of `processBlocks` for each thread. -/
structure ThreadState where
  hashTable : HashTable
  pairCount : Int
  i : Nat → Nat

/-- The state when the threads are created: empty table, `pairCount = 0`, thread `t` at
`threadData[t].startIndex`. -/
def initThreads (BLOCK_COUNT NUM_THREADS : Nat) : ThreadState :=
  { hashTable := emptyTable, pairCount := 0, i := startIndex BLOCK_COUNT NUM_THREADS }

/-- One iteration of the loop of `processBlocks` run by thread `t`, atomic under the mutex:
`*data->pairCount += insertOrUpdate(data->hashTable, data->blocks[i])`, then `i++`.  No result
when `t` is not a thread, when its loop condition `i < endIndex` fails, or on a read outside
`blocks`.  `BLOCK_COUNT` is the length of `blocks`. -/
def processBlocksStep (int : Int → Int) (blocks : List Nat) (NUM_THREADS t : Nat)
    (s : ThreadState) : Option ThreadState :=
  if t < NUM_THREADS ∧ s.i t < endIndex blocks.length NUM_THREADS t then
    match blocks[s.i t]? with
    | none => none
    | some b =>
      let r := insertOrUpdate int s.hashTable b
      some { hashTable := r.1, pairCount := int (s.pairCount + r.2),
             i := Function.update s.i t (s.i t + 1) }
  else none

/-- An interleaving: the threads take their steps in the order given by the list of thread
numbers. -/
def runInterleaving (int : Int → Int) (blocks : List Nat) (NUM_THREADS : Nat) :
    ThreadState → List Nat → Option ThreadState
  | s, [] => some s
  | s, t :: rest =>
    match processBlocksStep int blocks NUM_THREADS t s with
    | none => none
    | some s' => runInterleaving int blocks NUM_THREADS s' rest

/-- Every thread has left its loop (`pthread_join` returns for all of them). -/
def allJoined (blocks : List Nat) (NUM_THREADS : Nat) (s : ThreadState) : Prop :=
  ∀ t, t < NUM_THREADS → ¬ s.i t < endIndex blocks.length NUM_THREADS t

instance (blocks : List Nat) (NUM_THREADS : Nat) (s : ThreadState) :
    Decidable (allJoined blocks NUM_THREADS s) := by
  unfold allJoined; infer_instance

/-- The threaded program on a fingerprint array reports `total` whatever the interleaving: some
interleaving runs every thread to the end of its loop, and every interleaving that does so
ends with `pairCount = total`. -/
def threadedTotalIs (int : Int → Int) (blocks : List Nat) (NUM_THREADS : Nat) (total : Int) :
    Prop :=
  (∃ sched s, runInterleaving int blocks NUM_THREADS (initThreads blocks.length NUM_THREADS)
      sched = some s ∧ allJoined blocks NUM_THREADS s) ∧
  ∀ sched s, runInterleaving int blocks NUM_THREADS (initThreads blocks.length NUM_THREADS)
      sched = some s → allJoined blocks NUM_THREADS s → s.pairCount = total

/-- Invariant of a threaded run: the shared table and `pairCount` are those of the counting
loop on the list `hist` of fingerprints handled so far, no thread is past the end of its
range, and `hist` holds, with multiplicity, the blocks between each thread's `startIndex` and
its loop variable. -/
def ThreadInv (int : Int → Int) (blocks : List Nat) (NUM_THREADS : Nat) (s : ThreadState)
    (hist : List Nat) : Prop :=
  s.hashTable = (countLoop int emptyTable 0 hist).1 ∧
  s.pairCount = (countLoop int emptyTable 0 hist).2 ∧
  (∀ t, t < NUM_THREADS → s.i t ≤ endIndex blocks.length NUM_THREADS t) ∧
  ∀ v, ((hist.count v : Nat) : Int) =
    (Finset.range NUM_THREADS).sum (fun t =>
      (((blocks.take (s.i t)).count v : Nat) : Int) -
        ((blocks.take (startIndex blocks.length NUM_THREADS t)).count v : Nat))

/-- A fingerprint array of 8 blocks for the threaded run: fingerprint 5 five times, 7 twice. -/
def sampleBlocks : List Nat := [5, 7, 5, 5, 7, 5, 9, 5]

/-- An interleaving of two threads over `sampleBlocks` (four steps each). -/
def sampleSchedule : List Nat := [1, 0, 0, 1, 1, 0, 1, 0]

/-- The state `sampleSchedule` leads to (the initial state if the run had no result). -/
def sampleFinal : ThreadState :=
  (runInterleaving exactInt sampleBlocks 2 (initThreads sampleBlocks.length 2)
    sampleSchedule).getD (initThreads sampleBlocks.length 2)

/-! ## The distributed run (`pattern_matching_mpi.c`) -/

/-- The total the distributed program reports when rank `r` holds the fingerprints `parts[r]`:
each rank runs the counting loop on its own fresh table, and `MPI_Reduce` with `MPI_SUM`
adds the local `pairCount`s. -/
def distributedTotal (int : Int → Int) (parts : List (List Nat)) : Int :=
  (parts.map (sequentialTotal int)).foldl (fun globalPairCount pairCount =>
    int (globalPairCount + pairCount)) 0

/-- The number of pairs made of one fingerprint of `a` and an equal fingerprint of `b`. -/
def crossPairs (a b : List Nat) : Nat := (b.map (fun x => a.count x)).sum

/-! ## The extraction loops and the sequential program (`main.c`, `main`) -/

/-- `#define BLOCK_COUNT ((WIDTH / CUBE_SIZE) * (HEIGHT / CUBE_SIZE) * (DEPTH / CUBE_SIZE))`. -/
def BLOCK_COUNT (WIDTH HEIGHT DEPTH : Nat) : Nat :=
  (WIDTH / CUBE_SIZE) * (HEIGHT / CUBE_SIZE) * (DEPTH / CUBE_SIZE)

/-- The loop header `for (p = ...; p <= DIM - CUBE_SIZE; p += CUBE_SIZE)` from the value `p` of
the loop variable: the values the body runs with, in order.  The comparison is the `int` one;
`fuel` bounds the number of iterations. -/
def originLoop (DIM : Nat) : Nat → Nat → List Nat
  | 0, _ => []
  | fuel + 1, p =>
    if (p : Int) ≤ (DIM : Int) - (CUBE_SIZE : Int) then
      p :: originLoop DIM fuel (p + CUBE_SIZE)
    else []

/-- The block origins along an axis of `DIM` voxels: the loop started at `p = 0`.  `DIM`
iterations are enough fuel (see `origins_eq`). -/
def origins (DIM : Nat) : List Nat := originLoop DIM DIM 0

/-- The body of the extraction loops, `start = px + py * WIDTH + pz * WIDTH * HEIGHT;
blocks[blockIndex++] = extract_block(metadata, start)`, on the list of the fingerprints stored
so far (`blockIndex` is its length).  No result on a read outside `metadata` or a write outside
the `BLOCK_COUNT` entries of `blocks`.  The block start is taken in the naturals: for the
origins of these loops it is the `int` value of the C code whenever the volume has fewer than
`2^31` voxels (`storeBlock_eq_rankStoreBlock`), as in both programs that run them; the loop of
the distributed program, whose `pz` leaves that range, has its own body `rankStoreBlock`. -/
def storeBlock (WIDTH HEIGHT DEPTH : Nat) (metadata : List Nat) (pz py : Nat)
    (s : Option (List Nat)) (px : Nat) : Option (List Nat) :=
  match s with
  | none => none
  | some blocks =>
    if blocks.length < BLOCK_COUNT WIDTH HEIGHT DEPTH then
      match extract_block WIDTH HEIGHT metadata (px + py * WIDTH + pz * WIDTH * HEIGHT) with
      | none => none
      | some block => some (blocks ++ [block])
    else none

/-- The extraction loops of the sequential and the threaded `main`: `pz`, `py`, `px` over the
block origins, `px` innermost. -/
def extractBlocks (WIDTH HEIGHT DEPTH : Nat) (metadata : List Nat) : Option (List Nat) :=
  (origins DEPTH).foldl (fun s pz =>
    (origins HEIGHT).foldl (fun s py =>
      (origins WIDTH).foldl (fun s px =>
        storeBlock WIDTH HEIGHT DEPTH metadata pz py s px) s) s) (some [])

/-- The pair count the sequential program prints for a binarized grid: extraction, then the
counting loop. -/
def sequentialMain (int : Int → Int) (WIDTH HEIGHT DEPTH : Nat) (metadata : List Nat) :
    Option Int :=
  (extractBlocks WIDTH HEIGHT DEPTH metadata).map (sequentialTotal int)

/-- The all-zero binarized grid of a given number of voxels. -/
def zeroGrid (size : Nat) : List Nat := List.replicate size 0

/-! ## The dimensions compiled into the programs -/

/-- `main.c`: `#define WIDTH 64`. -/
def Sequential.WIDTH : Nat := 64

/-- `main.c`: `#define HEIGHT 64`. -/
def Sequential.HEIGHT : Nat := 64

/-- `main.c`: `#define DEPTH 64`. -/
def Sequential.DEPTH : Nat := 64

/-- `pattern_matching_phtread.c`: `#define WIDTH 1024`. -/
def Threaded.WIDTH : Nat := 1024

/-- `pattern_matching_phtread.c`: `#define HEIGHT 1024`. -/
def Threaded.HEIGHT : Nat := 1024

/-- `pattern_matching_phtread.c`: `#define DEPTH 314`. -/
def Threaded.DEPTH : Nat := 314

/-- `pattern_matching_phtread.c`: `#define NUM_THREADS 4`. -/
def Threaded.NUM_THREADS : Nat := 4

/-- The number of block indices in the range of thread `i`: `endIndex - startIndex`. -/
def rangeLength (BLOCK_COUNT NUM_THREADS i : Nat) : Nat :=
  endIndex BLOCK_COUNT NUM_THREADS i - startIndex BLOCK_COUNT NUM_THREADS i

/-! ## The iteration space of the extraction loops -/

/-- The fingerprint of the block that starts at offset `start` (0 when `extract_block` has no
result). -/
def fingerprintAt (WIDTH HEIGHT : Nat) (data : List Nat) (start : Nat) : Nat :=
  (extract_block WIDTH HEIGHT data start).getD 0

/-- The origins `(px, py, pz)` visited by three nested loops, `pz` over `zs` outermost, `py`
over `ys`, `px` over `xs` innermost, in the order of the visits. -/
def loopOrigins (zs ys xs : List Nat) : List (Nat × Nat × Nat) :=
  zs.flatMap (fun pz => ys.flatMap (fun py => xs.map (fun px => (px, py, pz))))

/-- The origins visited by the extraction loops of the sequential and the threaded `main`. -/
def blockOrigins (WIDTH HEIGHT DEPTH : Nat) : List (Nat × Nat × Nat) :=
  loopOrigins (origins DEPTH) (origins HEIGHT) (origins WIDTH)

/-- `start = px + py * WIDTH + pz * WIDTH * HEIGHT` for the origin `(px, py, pz)`. -/
def blockStart (WIDTH HEIGHT : Nat) (o : Nat × Nat × Nat) : Nat :=
  o.1 + o.2.1 * WIDTH + o.2.2 * WIDTH * HEIGHT

/-- The linear block index of the origin `(px, py, pz)`:
`px / 4 + (py / 4) * (WIDTH / 4) + (pz / 4) * (WIDTH / 4) * (HEIGHT / 4)`. -/
def linearIndex (WIDTH HEIGHT : Nat) (o : Nat × Nat × Nat) : Nat :=
  o.1 / 4 + (o.2.1 / 4) * (WIDTH / 4) + (o.2.2 / 4) * (WIDTH / 4) * (HEIGHT / 4)

/-- The origin whose linear block index is `i`, `px` varying fastest, then `py`, then `pz`. -/
def originOfIndex (WIDTH HEIGHT : Nat) (i : Nat) : Nat × Nat × Nat :=
  (4 * (i % (WIDTH / 4)), 4 * (i / (WIDTH / 4) % (HEIGHT / 4)),
    4 * (i / ((WIDTH / 4) * (HEIGHT / 4))))

/-- A binarized 1024x1024x314 grid whose first 312 layers are 0 and whose last two layers, the
ones beyond the last whole block, are 1. -/
def trailingOnesGrid : List Nat :=
  List.replicate (Threaded.WIDTH * Threaded.HEIGHT * 312) 0 ++
    List.replicate (Threaded.WIDTH * Threaded.HEIGHT * 2) 1

/-- A binarized 4x4x6 grid (one whole block and two trailing layers) with every voxel 0. -/
def smallZeroGrid : List Nat := List.replicate 96 0

/-- A binarized 4x4x6 grid whose whole block is 0 and whose two trailing layers are 1. -/
def smallTrailingGrid : List Nat := List.replicate 64 0 ++ List.replicate 32 1

/-! ## The extraction of one rank of the distributed program (`pattern_matching_mpi.c`) -/

/-- `pattern_matching_mpi.c`: `#define WIDTH 1024`. -/
def Distributed.WIDTH : Nat := 1024

/-- `pattern_matching_mpi.c`: `#define HEIGHT 1024`. -/
def Distributed.HEIGHT : Nat := 1024

/-- `pattern_matching_mpi.c`: `#define DEPTH 314`. -/
def Distributed.DEPTH : Nat := 314

/-- `int blocksPerProcess = BLOCK_COUNT / sizeMPI`. -/
def blocksPerProcess (BLOCK_COUNT sizeMPI : Nat) : Nat := BLOCK_COUNT / sizeMPI

/-- `int startBlock = rank * blocksPerProcess`. -/
def startBlock (BLOCK_COUNT sizeMPI rank : Nat) : Nat :=
  rank * blocksPerProcess BLOCK_COUNT sizeMPI

/-- `int endBlock = (rank == sizeMPI - 1) ? BLOCK_COUNT : startBlock + blocksPerProcess`. -/
def endBlock (BLOCK_COUNT sizeMPI rank : Nat) : Nat :=
  if rank = sizeMPI - 1 then BLOCK_COUNT
  else startBlock BLOCK_COUNT sizeMPI rank + blocksPerProcess BLOCK_COUNT sizeMPI

/-- The values of `pz` in `for (int pz = startBlock; pz < endBlock; pz++)`. -/
def rankLayers (BLOCK_COUNT sizeMPI rank : Nat) : List Nat :=
  List.range' (startBlock BLOCK_COUNT sizeMPI rank)
    (endBlock BLOCK_COUNT sizeMPI rank - startBlock BLOCK_COUNT sizeMPI rank)

/-- The conversion of an `int` to the 64-bit `size_t`: a negative value `v` becomes
`2^64 + v`. -/
def toSizeT (v : Int) : Nat := (v % 18446744073709551616).toNat

/-- `size_t start = px + py * WIDTH + pz * WIDTH * HEIGHT` for the values of `pz` of the
distributed `main`: the right-hand side is `int` arithmetic on `int` operands, 32 bits wrapping
modulo `2^32`, and the result is converted to `size_t`. -/
def rankBlockStart (WIDTH HEIGHT px py pz : Nat) : Nat :=
  toSizeT (int32 ((px : Int) + (py : Int) * (WIDTH : Int) + (pz : Int) * (WIDTH : Int) * (HEIGHT : Int)))

/-- The body of the extraction loops of the distributed `main`, on the list of the fingerprints
stored so far: `blocks[blockIndex++] = extract_block(metadata, start)` with `start` computed
in `int`.  No result on a read outside `metadata` or a write outside the `BLOCK_COUNT` entries
of `blocks`.  (`extract_block` reads `start` first, so that its offsets, below `2^31 + 2^23` or
from `2^64 - 2^31` on, need no reduction modulo `2^64` to tell whether the block is read inside
the buffer.) -/
def rankStoreBlock (WIDTH HEIGHT DEPTH : Nat) (metadata : List Nat) (pz py : Nat)
    (s : Option (List Nat)) (px : Nat) : Option (List Nat) :=
  match s with
  | none => none
  | some blocks =>
    if blocks.length < BLOCK_COUNT WIDTH HEIGHT DEPTH then
      match extract_block WIDTH HEIGHT metadata (rankBlockStart WIDTH HEIGHT px py pz) with
      | none => none
      | some block => some (blocks ++ [block])
    else none

/-- The extraction loops of one rank of the distributed `main`: `pz` over
`[startBlock, endBlock)` in steps of 1, `py` and `px` over the block origins. -/
def rankExtractBlocks (WIDTH HEIGHT DEPTH sizeMPI rank : Nat) (metadata : List Nat) :
    Option (List Nat) :=
  (rankLayers (BLOCK_COUNT WIDTH HEIGHT DEPTH) sizeMPI rank).foldl (fun s pz =>
    (origins HEIGHT).foldl (fun s py =>
      (origins WIDTH).foldl (fun s px =>
        rankStoreBlock WIDTH HEIGHT DEPTH metadata pz py s px) s) s) (some [])

/-- The origins `(px, py, pz)` one rank hands to `extract_block`, in order. -/
def rankOrigins (WIDTH HEIGHT DEPTH sizeMPI rank : Nat) : List (Nat × Nat × Nat) :=
  loopOrigins (rankLayers (BLOCK_COUNT WIDTH HEIGHT DEPTH) sizeMPI rank)
    (origins HEIGHT) (origins WIDTH)

/-! ## The entries of a table -/

/-- The fingerprints stored in a chain, in chain order. -/
def chainKeys (chain : List HashNode) : List Nat := chain.map (fun node => node.blockValue)

/-- The fingerprint has an entry: a node of the chain of its bucket holds it. -/
def present (hashTable : HashTable) (blockValue : Nat) : Prop :=
  blockValue ∈ chainKeys (hashTable (hashFunction blockValue))

instance (hashTable : HashTable) (blockValue : Nat) : Decidable (present hashTable blockValue) := by
  unfold present; infer_instance

/-- The number of nodes in the `HASH_SIZE` chains of the table. -/
def entryCount (hashTable : HashTable) : Nat :=
  (Finset.range HASH_SIZE).sum (fun h => (hashTable h).length)

/-- The number of nodes, over the `HASH_SIZE` chains, that hold the given fingerprint. -/
def nodesWith (hashTable : HashTable) (blockValue : Nat) : Nat :=
  (Finset.range HASH_SIZE).sum (fun h => (chainKeys (hashTable h)).count blockValue)

/-- The sum of the counts of all the nodes of the table. -/
def totalCount (hashTable : HashTable) : Int :=
  (Finset.range HASH_SIZE).sum (fun h => ((hashTable h).map (fun node => node.count)).sum)

/-- The table after the calls for the fingerprints 5 and 7, from the empty table. -/
def sampleTable : HashTable := (callSequence exactInt emptyTable [5, 7]).1

/-- The table after feeding the fingerprints one by one to `insertOrUpdate`, from the empty
table. -/
def ledgerAfter (fps : List Nat) : HashTable := (callSequence exactInt emptyTable fps).1

/-! ## Duplicate pairs, in the words of the specification -/

/-- The number of unordered index pairs `i < j` with `blocks[i] = blocks[j]`. -/
def duplicatePairs (blocks : List Nat) : Nat :=
  ((Finset.range blocks.length ×ˢ Finset.range blocks.length).filter
    (fun p => p.1 < p.2 ∧ blocks[p.1]? = blocks[p.2]?)).card

/-- The sum, over the distinct fingerprints, of `n (n - 1) / 2` for a fingerprint of
multiplicity `n`. -/
def pairsByMultiplicity (blocks : List Nat) : Nat :=
  blocks.toFinset.sum (fun v => blocks.count v * (blocks.count v - 1) / 2)

/-! ## Basic facts on the readings of `int` -/

theorem exactInt_reading : IntReading exactInt :=
  ⟨fun _ _ => rfl, fun _ _ => rfl, rfl, rfl⟩

theorem int32_reading : IntReading int32 := by
  refine ⟨?_, ?_, ?_, ?_⟩
  · intro a b; unfold int32; omega
  · intro a b; unfold int32; omega
  · decide
  · decide

theorem int32_of_range {x : Int} (h1 : -2147483648 ≤ x) (h2 : x < 2147483648) : int32 x = x := by
  unfold int32; omega

theorem IntReading.idem {int : Int → Int} (h : IntReading int) (a : Int) : int (int a) = int a := by
  have := h.add_left a 0
  simpa using this

theorem IntReading.sub_one {int : Int → Int} (h : IntReading int) (a : Int) :
    int (int (a + 1) - 1) = int a := by
  have := h.add_left (a + 1) (-1)
  simpa [sub_eq_add_neg] using this

/-! ## `insertOrUpdate` against the abstraction -/

theorem scanChain_none {int : Int → Int} {bv : Nat} {chain : List HashNode}
    (h : scanChain int bv chain = none) : chainCount bv chain = 0 := by
  induction chain with
  | nil => rfl
  | cons c rest ih =>
    unfold scanChain at h
    by_cases hc : c.blockValue = bv
    · simp [hc] at h
    · simp only [hc, if_false] at h
      cases hs : scanChain int bv rest with
      | none => simp [chainCount, hc, ih hs]
      | some p => rw [hs] at h; simp at h

theorem scanChain_some {int : Int → Int} (hint : IntReading int) {bv : Nat} {chain chain' : List HashNode}
    {r : Int} (h : scanChain int bv chain = some (chain', r)) :
    r = int (chainCount bv chain) ∧
    ∀ v, chainCount v chain' =
      if v = bv then int (chainCount bv chain + 1) else chainCount v chain := by
  induction chain generalizing chain' r with
  | nil => simp [scanChain] at h
  | cons c rest ih =>
    unfold scanChain at h
    by_cases hc : c.blockValue = bv
    · simp only [hc, if_true, Option.some.injEq, Prod.mk.injEq] at h
      obtain ⟨h1, h2⟩ := h
      subst h1 h2
      refine ⟨?_, ?_⟩
      · simp [chainCount, hc, hint.sub_one]
      · intro v
        by_cases hv : v = bv
        · simp [chainCount, hc, hv]
        · have hv' : ¬ bv = v := fun e => hv e.symm
          simp [chainCount, hc, hv, hv']
    · simp only [hc, if_false] at h
      cases hs : scanChain int bv rest with
      | none => rw [hs] at h; simp at h
      | some p =>
        obtain ⟨n', r'⟩ := p
        rw [hs] at h
        simp only [Option.some.injEq, Prod.mk.injEq] at h
        obtain ⟨h1, h2⟩ := h
        subst h1 h2
        obtain ⟨ih1, ih2⟩ := ih hs
        refine ⟨?_, ?_⟩
        · simp [chainCount, hc, ih1]
        · intro v
          by_cases hv : v = bv
          · subst hv
            simp [chainCount, hc, ih2]
          · by_cases hcv : c.blockValue = v
            · simp [chainCount, hcv, hv]
            · simp [chainCount, hcv, hv, ih2]

theorem insertOrUpdate_of_none {int : Int → Int} {t : HashTable} {fp : Nat}
    (hs : scanChain int fp (t (hashFunction fp)) = none) :
    insertOrUpdate int t fp =
      (Function.update t (hashFunction fp) (createNode fp :: t (hashFunction fp)), 0) := by
  simp only [insertOrUpdate, hs]

theorem insertOrUpdate_of_some {int : Int → Int} {t : HashTable} {fp : Nat}
    {c : List HashNode} {r : Int} (hs : scanChain int fp (t (hashFunction fp)) = some (c, r)) :
    insertOrUpdate int t fp = (Function.update t (hashFunction fp) c, r) := by
  simp only [insertOrUpdate, hs]

theorem insertOrUpdate_ret {int : Int → Int} (hint : IntReading int) (t : HashTable) (fp : Nat) :
    (insertOrUpdate int t fp).2 = int (countOf t fp) := by
  cases hs : scanChain int fp (t (hashFunction fp)) with
  | none => simp [insertOrUpdate_of_none hs, countOf, scanChain_none hs, hint.zero]
  | some p =>
    obtain ⟨c, r⟩ := p
    simpa [insertOrUpdate_of_some hs, countOf] using (scanChain_some hint hs).1

theorem countOf_insertOrUpdate {int : Int → Int} (hint : IntReading int) (t : HashTable)
    (fp v : Nat) :
    countOf (insertOrUpdate int t fp).1 v =
      if v = fp then int (countOf t fp + 1) else countOf t v := by
  by_cases hb : hashFunction v = hashFunction fp
  · cases hs : scanChain int fp (t (hashFunction fp)) with
    | none =>
      rw [insertOrUpdate_of_none hs]
      by_cases hv : v = fp
      · subst hv
        simp [countOf, chainCount, createNode, scanChain_none hs, hint.one]
      · have hv' : ¬ fp = v := fun e => hv e.symm
        simp only [countOf]
        rw [hb, Function.update_same]
        simp [chainCount, createNode, hv, hv']
    | some p =>
      obtain ⟨c, r⟩ := p
      rw [insertOrUpdate_of_some hs]
      simp only [countOf]
      rw [hb, Function.update_same]
      exact (scanChain_some hint hs).2 v
  · have hv : ¬ v = fp := fun e => hb (by rw [e])
    cases hs : scanChain int fp (t (hashFunction fp)) with
    | none => rw [insertOrUpdate_of_none hs]; simp [countOf, Function.update_noteq hb, hv]
    | some p =>
      obtain ⟨c, r⟩ := p
      rw [insertOrUpdate_of_some hs]; simp [countOf, Function.update_noteq hb, hv]

theorem countOf_emptyTable (v : Nat) : countOf emptyTable v = 0 := rfl

/-! ## Sequences of calls -/

theorem callSequence_append (int : Int → Int) (t : HashTable) (l₁ l₂ : List Nat) :
    callSequence int t (l₁ ++ l₂) =
      ((callSequence int (callSequence int t l₁).1 l₂).1,
        (callSequence int t l₁).2 ++ (callSequence int (callSequence int t l₁).1 l₂).2) := by
  induction l₁ generalizing t with
  | nil => simp [callSequence]
  | cons a l ih => simp [callSequence, ih]

theorem callSequence_length (int : Int → Int) (t : HashTable) (l : List Nat) :
    (callSequence int t l).2.length = l.length := by
  induction l generalizing t with
  | nil => rfl
  | cons a l ih => simp [callSequence, ih]

theorem countOf_callSequence {int : Int → Int} (hint : IntReading int) (t : HashTable)
    (l : List Nat) (v : Nat) :
    int (countOf (callSequence int t l).1 v) = int (countOf t v + (l.count v : Int)) := by
  induction l generalizing t with
  | nil => simp [callSequence]
  | cons a l ih =>
    simp only [callSequence]
    rw [ih, countOf_insertOrUpdate hint]
    by_cases hv : v = a
    · subst hv
      simp only [if_true, List.count_cons_self, Nat.cast_add, Nat.cast_one]
      rw [hint.add_left]
      congr 1; ring
    · have hv' : ¬ a = v := fun e => hv e.symm
      simp [hv, List.count_cons, hv']

theorem callSequence_ret {int : Int → Int} (hint : IntReading int) (t : HashTable)
    (fps : List Nat) (k : Nat) (hk : k < fps.length) :
    (callSequence int t fps).2[k]? =
      some (int (countOf t fps[k] + ((fps.take k).count fps[k] : Nat))) := by
  have hsplit : fps = fps.take k ++ fps[k] :: fps.drop (k + 1) := by
    rw [List.getElem_cons_drop, List.take_append_drop]
  have hlen : (callSequence int t (fps.take k)).2.length = k := by
    rw [callSequence_length, List.length_take]; omega
  conv_lhs => rw [hsplit]
  rw [callSequence_append]
  simp only [callSequence]
  rw [List.getElem?_append_right (by omega)]
  simp only [hlen, Nat.sub_self, List.getElem?_cons_zero]
  rw [insertOrUpdate_ret hint, countOf_callSequence hint]

/-! ## C1: the value returned by `insertOrUpdate` -/

/-- C1: feed any sequence of fingerprints one by one to `insertOrUpdate`, starting from the
empty table; the value returned by the `k`-th call is the number of earlier calls of the
sequence with the same fingerprint (0 for a new fingerprint). -/
theorem insertOrUpdate_returns_prior_count (fps : List Nat) (k : Nat) (hk : k < fps.length) :
    (callSequence exactInt emptyTable fps).2[k]? =
      some (((fps.take k).count fps[k] : Nat) : Int) := by
  rw [callSequence_ret exactInt_reading emptyTable fps k hk, countOf_emptyTable]
  simp [exactInt]

theorem insertOrUpdate_returns_prior_count_witness :
    (3 : Nat) < [5, 7, 5, 5, 7].length ∧
    (callSequence exactInt emptyTable [5, 7, 5, 5, 7]).2[3]? = some 2 ∧
    (callSequence exactInt emptyTable [5, 7, 5, 5, 7]).2 = [0, 0, 1, 2, 1] :=
  ⟨by decide, insertOrUpdate_returns_prior_count [5, 7, 5, 5, 7] 3 (by decide), by decide⟩

/-! ## The counting loop -/

theorem countLoop_snoc (int : Int → Int) (t : HashTable) (p : Int) (l : List Nat) (x : Nat) :
    countLoop int t p (l ++ [x]) =
      ((insertOrUpdate int (countLoop int t p l).1 x).1,
        int ((countLoop int t p l).2 + (insertOrUpdate int (countLoop int t p l).1 x).2)) := by
  simp [countLoop, List.foldl_append]

theorem countLoop_table (int : Int → Int) (t : HashTable) (p : Int) (l : List Nat) :
    (countLoop int t p l).1 = (callSequence int t l).1 := by
  induction l using List.reverseRecOn with
  | nil => rfl
  | append_singleton l x ih =>
    rw [countLoop_snoc, callSequence_append, ih]
    simp [callSequence]

theorem countOf_countLoop {int : Int → Int} (hint : IntReading int) (p : Int) (l : List Nat)
    (v : Nat) : int (countOf (countLoop int emptyTable p l).1 v) = int (l.count v : Nat) := by
  rw [countLoop_table, countOf_callSequence hint, countOf_emptyTable, zero_add]

/-! ## Counting duplicate pairs -/

theorem count_eq_sum_range (l : List Nat) (x : Nat) :
    l.count x = (Finset.range l.length).sum (fun i => if l[i]? = some x then 1 else 0) := by
  induction l using List.reverseRecOn with
  | nil => simp
  | append_singleton l y ih =>
    rw [List.count_append, List.length_append, List.length_singleton, Finset.sum_range_succ, ih]
    congr 1
    · apply Finset.sum_congr rfl
      intro i hi
      rw [List.getElem?_append_left (Finset.mem_range.mp hi)]
    · by_cases h : y = x
      · simp [h]
      · simp [h, List.count_cons]

theorem duplicatePairs_nil : duplicatePairs [] = 0 := by
  simp [duplicatePairs]

theorem duplicatePairs_snoc (l : List Nat) (x : Nat) :
    duplicatePairs (l ++ [x]) = duplicatePairs l + l.count x := by
  unfold duplicatePairs
  rw [Finset.card_filter, Finset.card_filter, Finset.sum_product, Finset.sum_product,
    List.length_append, List.length_singleton, Finset.sum_range_succ, count_eq_sum_range l x,
    ← Finset.sum_add_distrib]
  have hlast : ((Finset.range (l.length + 1)).sum fun j =>
      if l.length < j ∧ (l ++ [x])[l.length]? = (l ++ [x])[j]? then 1 else 0) = 0 := by
    apply Finset.sum_eq_zero
    intro j hj
    have : ¬ l.length < j := by have := Finset.mem_range.mp hj; omega
    simp [this]
  rw [hlast, add_zero]
  apply Finset.sum_congr rfl
  intro i hi
  have hi' := Finset.mem_range.mp hi
  rw [Finset.sum_range_succ]
  congr 1
  · apply Finset.sum_congr rfl
    intro j hj
    rw [List.getElem?_append_left hi', List.getElem?_append_left (Finset.mem_range.mp hj)]
  · rw [List.getElem?_append_left hi']
    simp [hi']

theorem sequentialTotal_eq {int : Int → Int} (hint : IntReading int) (l : List Nat) :
    sequentialTotal int l = int (duplicatePairs l : Nat) := by
  unfold sequentialTotal
  induction l using List.reverseRecOn with
  | nil => simp [countLoop, duplicatePairs_nil, hint.zero]
  | append_singleton l x ih =>
    rw [countLoop_snoc, insertOrUpdate_ret hint, hint.add_right, ih, hint.add_left,
      ← hint.add_right, countOf_countLoop hint, hint.add_right, duplicatePairs_snoc]
    simp

/-- The multiplicity sum taken over any set of fingerprints. -/
theorem choose_sum_snoc (S : Finset Nat) (l : List Nat) (x : Nat) (hx : x ∈ S) :
    S.sum (fun v => ((l ++ [x]).count v).choose 2) =
      S.sum (fun v => (l.count v).choose 2) + l.count x := by
  have h : ∀ v ∈ S, ((l ++ [x]).count v).choose 2 =
      (l.count v).choose 2 + (if v = x then l.count x else 0) := by
    intro v _
    by_cases hv : v = x
    · subst hv
      simp [List.count_append, Nat.choose_succ_succ, Nat.add_comm]
    · have hv' : ¬ x = v := fun e => hv e.symm
      simp [List.count_append, List.count_cons, hv, hv']
  rw [Finset.sum_congr rfl h, Finset.sum_add_distrib, Finset.sum_ite_eq' S x]
  simp [hx]

theorem choose_sum_superset (S : Finset Nat) (l : List Nat) (hS : l.toFinset ⊆ S) :
    S.sum (fun v => (l.count v).choose 2) = l.toFinset.sum (fun v => (l.count v).choose 2) := by
  symm
  apply Finset.sum_subset hS
  intro v _ hv
  have : l.count v = 0 := List.count_eq_zero.mpr (fun h => hv (List.mem_toFinset.mpr h))
  simp [this]

theorem duplicatePairs_eq_choose_sum (l : List Nat) :
    duplicatePairs l = l.toFinset.sum (fun v => (l.count v).choose 2) := by
  induction l using List.reverseRecOn with
  | nil => simp [duplicatePairs_nil]
  | append_singleton l x ih =>
    have hsub : l.toFinset ⊆ (l ++ [x]).toFinset := by
      intro v hv
      simp only [List.mem_toFinset] at hv ⊢
      exact List.mem_append_left _ hv
    have hx : x ∈ (l ++ [x]).toFinset := by simp
    rw [duplicatePairs_snoc, choose_sum_snoc _ l x hx, choose_sum_superset _ l hsub, ih]

theorem duplicatePairs_eq_pairsByMultiplicity (l : List Nat) :
    duplicatePairs l = pairsByMultiplicity l := by
  rw [duplicatePairs_eq_choose_sum]
  unfold pairsByMultiplicity
  apply Finset.sum_congr rfl
  intro v _
  exact Nat.choose_two_right _

theorem duplicatePairs_single_class (l : List Nat) (v : Nat)
    (huniq : ∀ w ∈ l, w ≠ v → l.count w = 1) :
    duplicatePairs l = l.count v * (l.count v - 1) / 2 := by
  rw [duplicatePairs_eq_choose_sum, ← Nat.choose_two_right]
  by_cases hv : v ∈ l
  · apply Finset.sum_eq_single v
    · intro w hw hwv
      rw [huniq w (List.mem_toFinset.mp hw) hwv]
      rfl
    · intro h
      exact absurd (List.mem_toFinset.mpr hv) h
  · rw [List.count_eq_zero.mpr hv]
    apply Finset.sum_eq_zero
    intro w hw
    have hwv : w ≠ v := fun e => hv (e ▸ List.mem_toFinset.mp hw)
    rw [huniq w (List.mem_toFinset.mp hw) hwv]
    rfl

/-! ## C2: the sequential total is the number of duplicate pairs -/

/-- C2: on unbounded integers the sequential total of any list of fingerprints is the number
of unordered index pairs `i < j` with `blocks[i] = blocks[j]`, which is the sum over the
distinct fingerprints of `n (n - 1) / 2` for multiplicity `n`; when `k` blocks share one
fingerprint and every other block is unique, the total is `k (k - 1) / 2`. -/
theorem sequentialTotal_counts_duplicate_pairs (blocks : List Nat) :
    sequentialTotal exactInt blocks = (duplicatePairs blocks : Nat) ∧
    sequentialTotal exactInt blocks = (pairsByMultiplicity blocks : Nat) ∧
    ∀ v k : Nat, blocks.count v = k → (∀ w ∈ blocks, w ≠ v → blocks.count w = 1) →
      sequentialTotal exactInt blocks = ((k * (k - 1) / 2 : Nat) : Int) := by
  have h := sequentialTotal_eq exactInt_reading blocks
  simp only [exactInt] at h
  refine ⟨h, ?_, ?_⟩
  · rw [h, duplicatePairs_eq_pairsByMultiplicity]
  · intro v k hk huniq
    rw [h, duplicatePairs_single_class blocks v huniq, hk]

theorem sequentialTotal_counts_duplicate_pairs_witness :
    [10, 1, 2, 10, 3, 10, 4, 5].count 10 = 3 ∧
    (∀ w ∈ [10, 1, 2, 10, 3, 10, 4, 5], w ≠ 10 → [10, 1, 2, 10, 3, 10, 4, 5].count w = 1) ∧
    sequentialTotal exactInt [10, 1, 2, 10, 3, 10, 4, 5] = 3 :=
  ⟨by decide, by decide,
    (sequentialTotal_counts_duplicate_pairs [10, 1, 2, 10, 3, 10, 4, 5]).2.2 10 3
      (by decide) (by decide)⟩

/-! ## The fingerprint, bit by bit -/

theorem extract_block_flat (WIDTH HEIGHT : Nat) (data : List Nat) (start : Nat) :
    extract_block WIDTH HEIGHT data start =
      (((List.range 64).map (voxelOffset WIDTH HEIGHT start)).foldl (packVoxel data)
        (some (0, 0))).map Prod.fst := rfl

theorem packVoxel_fold (data : List Nat) (offs : List Nat) (hin : ∀ o ∈ offs, o < data.length) :
    ∃ block, offs.foldl (packVoxel data) (some (0, 0)) = some (block, offs.length) ∧
      ∀ i, block.testBit i = true ↔ ∃ o, offs[i]? = some o ∧ data.getD o 0 ≠ 0 := by
  induction offs using List.reverseRecOn with
  | nil => exact ⟨0, rfl, by simp⟩
  | append_singleton offs o ih =>
    obtain ⟨b, hb, hbits⟩ := ih (fun o' ho' => hin o' (List.mem_append_left _ ho'))
    have ho : o < data.length := hin o (by simp)
    obtain ⟨v, hv⟩ : ∃ v, data[o]? = some v := ⟨data[o], List.getElem?_eq_getElem ho⟩
    have hgetD : data.getD o 0 = v := by
      rw [List.getD_eq_getElem?_getD, hv]; rfl
    have hfalse : ∀ i, offs.length ≤ i → b.testBit i = false := by
      intro i hi
      cases hc : b.testBit i with
      | false => rfl
      | true =>
        obtain ⟨o', h1, _⟩ := (hbits i).mp hc
        rw [List.getElem?_eq_none hi] at h1
        cases h1
    have hbit : ∀ i, (1 <<< offs.length).testBit i = decide (offs.length = i) := by
      intro i
      rw [Nat.one_shiftLeft, Nat.testBit_two_pow]
    refine ⟨if v ≠ 0 then b ||| (1 <<< offs.length) else b, ?_, ?_⟩
    · rw [List.foldl_append, hb]
      simp only [List.foldl_cons, List.foldl_nil, packVoxel, hv, List.length_append,
        List.length_singleton]
    · intro i
      rcases Nat.lt_trichotomy i offs.length with hlt | heq | hgt
      · have hne : ¬ offs.length = i := by omega
        have hb' : (if v ≠ 0 then b ||| (1 <<< offs.length) else b).testBit i = b.testBit i := by
          split
          · rw [Nat.testBit_or, hbit]; simp [hne]
          · rfl
        rw [hb', hbits i, List.getElem?_append_left hlt]
      · subst heq
        have hlast : (offs ++ [o])[offs.length]? = some o := by simp
        rw [hlast]
        have hex : (∃ o', some o = some o' ∧ data.getD o' 0 ≠ 0) ↔ v ≠ 0 := by
          constructor
          · rintro ⟨o', h1, h2⟩
            cases h1
            rwa [hgetD] at h2
          · intro h
            exact ⟨o, rfl, by rwa [hgetD]⟩
        rw [hex]
        by_cases hv0 : v = 0
        · simp [hv0, hfalse _ (le_refl _)]
        · simp [hv0, Nat.testBit_or, hbit]
      · have hne : ¬ offs.length = i := by omega
        have hnone' : (offs ++ [o])[i]? = none := by
          apply List.getElem?_eq_none
          simp only [List.length_append, List.length_singleton]; omega
        have hb' : (if v ≠ 0 then b ||| (1 <<< offs.length) else b).testBit i = false := by
          split
          · rw [Nat.testBit_or, hbit, hfalse i (le_of_lt hgt)]; simp [hne]
          · exact hfalse i (le_of_lt hgt)
        rw [hb', hnone']
        simp

theorem voxelOffset_le (WIDTH HEIGHT start i : Nat) (hi : i < 64) :
    voxelOffset WIDTH HEIGHT start i ≤ start + 3 + 3 * WIDTH + 3 * WIDTH * HEIGHT := by
  unfold voxelOffset
  have h1 : i % 4 ≤ 3 := by omega
  have h2 : i / 4 % 4 ≤ 3 := by omega
  have h3 : i / 16 ≤ 3 := by omega
  have h4 : i / 4 % 4 * WIDTH ≤ 3 * WIDTH := Nat.mul_le_mul_right _ h2
  have h5 : i / 16 * WIDTH * HEIGHT ≤ 3 * WIDTH * HEIGHT :=
    Nat.mul_le_mul_right _ (Nat.mul_le_mul_right _ h3)
  omega

/-- The fingerprint of an in-bounds block exists, and its bits are the voxels of the block. -/
theorem extract_block_spec (WIDTH HEIGHT : Nat) (data : List Nat) (start : Nat)
    (hin : blockInBounds WIDTH HEIGHT data start) :
    ∃ block, extract_block WIDTH HEIGHT data start = some block ∧
      ∀ i, block.testBit i = true ↔
        (i < 64 ∧ data.getD (voxelOffset WIDTH HEIGHT start i) 0 ≠ 0) := by
  have hall : ∀ o ∈ (List.range 64).map (voxelOffset WIDTH HEIGHT start), o < data.length := by
    intro o ho
    obtain ⟨i, hi, rfl⟩ := List.mem_map.mp ho
    have := voxelOffset_le WIDTH HEIGHT start i (List.mem_range.mp hi)
    unfold blockInBounds at hin
    omega
  obtain ⟨b, hb, hbits⟩ := packVoxel_fold data _ hall
  refine ⟨b, ?_, ?_⟩
  · rw [extract_block_flat, hb]; rfl
  · intro i
    rw [hbits i]
    by_cases hi : i < 64
    · have : ((List.range 64).map (voxelOffset WIDTH HEIGHT start))[i]? =
          some (voxelOffset WIDTH HEIGHT start i) := by
        rw [List.getElem?_map, List.getElem?_range hi]; rfl
      rw [this]
      simp [hi]
    · have : ((List.range 64).map (voxelOffset WIDTH HEIGHT start))[i]? = none := by
        apply List.getElem?_eq_none
        simp; omega
      rw [this]
      simp [hi]

/-! ## C3: bit `i` of the fingerprint is voxel `i` of the traversal -/

/-- C3: for every voxel buffer and every in-bounds block start, `extract_block` returns a
fingerprint whose bit `i`, for `i` in `[0, 64)`, is set exactly when the voxel at
`data[start + x + y * WIDTH + z * WIDTH * HEIGHT]` is non-zero, where `x = i mod 4`,
`y = (i / 4) mod 4`, `z = i / 16`; no other bit is set, so the value fits 64 bits. -/
theorem extract_block_bit_iff_voxel (WIDTH HEIGHT : Nat) (data : List Nat) (start : Nat)
    (hin : blockInBounds WIDTH HEIGHT data start) :
    ∃ block, extract_block WIDTH HEIGHT data start = some block ∧
      (∀ i, i < 64 → (block.testBit i = true ↔
        data.getD (start + i % 4 + (i / 4 % 4) * WIDTH + (i / 16) * WIDTH * HEIGHT) 0 ≠ 0)) ∧
      (∀ i, 64 ≤ i → block.testBit i = false) ∧
      block < 2 ^ 64 := by
  obtain ⟨b, hb, hbits⟩ := extract_block_spec WIDTH HEIGHT data start hin
  have hhigh : ∀ i, 64 ≤ i → b.testBit i = false := by
    intro i hi
    cases hc : b.testBit i with
    | false => rfl
    | true => have := ((hbits i).mp hc).1; omega
  refine ⟨b, hb, ?_, hhigh, Nat.lt_pow_two_of_testBit b hhigh⟩
  intro i hi
  rw [hbits i]
  simp only [voxelOffset, hi, true_and]

theorem extract_block_bit_iff_voxel_witness :
    blockInBounds 4 4 oddVoxelsGrid 0 ∧
    extract_block 4 4 oddVoxelsGrid 0 = some 0xAAAAAAAAAAAAAAAA ∧
    ∃ block, extract_block 4 4 oddVoxelsGrid 0 = some block ∧
      (∀ i, i < 64 → (block.testBit i = true ↔
        oddVoxelsGrid.getD (0 + i % 4 + (i / 4 % 4) * 4 + (i / 16) * 4 * 4) 0 ≠ 0)) ∧
      (∀ i, 64 ≤ i → block.testBit i = false) ∧
      block < 2 ^ 64 :=
  ⟨by decide, by decide, extract_block_bit_iff_voxel 4 4 oddVoxelsGrid 0 (by decide)⟩

/-! ## C4: equal fingerprints, equal voxel patterns -/

/-- C4: with cube edge 4, for any two grids and in-bounds block starts, `extract_block`
returns two fingerprints, and they are equal if and only if the two blocks have the same
zero/non-zero voxel at each of the 64 positions of the traversal. -/
theorem extract_block_eq_iff_same_pattern (WIDTH₁ HEIGHT₁ WIDTH₂ HEIGHT₂ : Nat)
    (data₁ data₂ : List Nat) (start₁ start₂ : Nat)
    (h₁ : blockInBounds WIDTH₁ HEIGHT₁ data₁ start₁)
    (h₂ : blockInBounds WIDTH₂ HEIGHT₂ data₂ start₂) :
    ∃ b₁ b₂, extract_block WIDTH₁ HEIGHT₁ data₁ start₁ = some b₁ ∧
      extract_block WIDTH₂ HEIGHT₂ data₂ start₂ = some b₂ ∧
      (b₁ = b₂ ↔ ∀ i, i < 64 →
        (data₁.getD (voxelOffset WIDTH₁ HEIGHT₁ start₁ i) 0 ≠ 0 ↔
          data₂.getD (voxelOffset WIDTH₂ HEIGHT₂ start₂ i) 0 ≠ 0)) := by
  obtain ⟨b₁, hb₁, hbits₁⟩ := extract_block_spec WIDTH₁ HEIGHT₁ data₁ start₁ h₁
  obtain ⟨b₂, hb₂, hbits₂⟩ := extract_block_spec WIDTH₂ HEIGHT₂ data₂ start₂ h₂
  refine ⟨b₁, b₂, hb₁, hb₂, ?_, ?_⟩
  · intro heq i hi
    have e₁ := hbits₁ i
    have e₂ := hbits₂ i
    rw [heq] at e₁
    constructor
    · intro hv
      exact (e₂.mp (e₁.mpr ⟨hi, hv⟩)).2
    · intro hv
      exact (e₁.mp (e₂.mpr ⟨hi, hv⟩)).2
  · intro hpat
    apply Nat.eq_of_testBit_eq
    intro i
    have hiff : b₁.testBit i = true ↔ b₂.testBit i = true := by
      rw [hbits₁ i, hbits₂ i]
      constructor
      · rintro ⟨hi, hv⟩
        exact ⟨hi, (hpat i hi).mp hv⟩
      · rintro ⟨hi, hv⟩
        exact ⟨hi, (hpat i hi).mpr hv⟩
    cases h1 : b₁.testBit i <;> cases h2 : b₂.testBit i <;> simp_all

set_option maxRecDepth 100000 in
theorem extract_block_eq_iff_same_pattern_witness :
    blockInBounds 8 4 twoBlockGrid 0 ∧ blockInBounds 8 4 twoBlockGrid 4 ∧
    extract_block 8 4 twoBlockGrid 0 = extract_block 8 4 twoBlockGrid 4 ∧
    ∃ b₁ b₂, extract_block 8 4 twoBlockGrid 0 = some b₁ ∧
      extract_block 8 4 twoBlockGrid 4 = some b₂ ∧
      (b₁ = b₂ ↔ ∀ i, i < 64 →
        (twoBlockGrid.getD (voxelOffset 8 4 0 i) 0 ≠ 0 ↔
          twoBlockGrid.getD (voxelOffset 8 4 4 i) 0 ≠ 0)) :=
  ⟨by decide, by decide, by decide,
    extract_block_eq_iff_same_pattern 8 4 8 4 twoBlockGrid twoBlockGrid 0 4
      (by decide) (by decide)⟩

/-! ## The ranges of the threaded driver -/

theorem startIndex_mono (n T : Nat) {i j : Nat} (h : i ≤ j) :
    startIndex n T i ≤ startIndex n T j :=
  Nat.mul_le_mul_right _ h

theorem startIndex_last_le (n T : Nat) : startIndex n T (T - 1) ≤ n := by
  unfold startIndex blockPerThread
  calc (T - 1) * (n / T) ≤ T * (n / T) := Nat.mul_le_mul_right _ (Nat.sub_le T 1)
    _ ≤ n := Nat.mul_div_le n T

theorem endIndex_eq_start_succ (n T i : Nat) (h : i + 1 < T) :
    endIndex n T i = startIndex n T (i + 1) := by
  unfold endIndex startIndex
  rw [if_neg (by omega)]

theorem endIndex_last (n T : Nat) : endIndex n T (T - 1) = n := by
  unfold endIndex
  rw [if_pos rfl]

theorem startIndex_le_endIndex (n T i : Nat) (hT : 1 ≤ T) (hi : i < T) :
    startIndex n T i ≤ endIndex n T i := by
  by_cases h : i + 1 < T
  · rw [endIndex_eq_start_succ n T i h]
    exact startIndex_mono n T (Nat.le_succ i)
  · have : i = T - 1 := by omega
    rw [this, endIndex_last]
    exact startIndex_last_le n T

theorem endIndex_le_startIndex (n T : Nat) {i j : Nat} (hij : i < j) (hj : j < T) :
    endIndex n T i ≤ startIndex n T j := by
  rw [endIndex_eq_start_succ n T i (by omega)]
  exact startIndex_mono n T hij

theorem endIndex_le_count (n T i : Nat) (hT : 1 ≤ T) (hi : i < T) : endIndex n T i ≤ n := by
  by_cases h : i + 1 < T
  · calc endIndex n T i ≤ startIndex n T (T - 1) := endIndex_le_startIndex n T (by omega) (by omega)
      _ ≤ n := startIndex_last_le n T
  · have : i = T - 1 := by omega
    rw [this, endIndex_last]

theorem exists_range_of_lt (n T k : Nat) (hT : 1 ≤ T) (hk : k < n) :
    ∃ i, i < T ∧ inRange n T i k := by
  by_cases hlast : startIndex n T (T - 1) ≤ k
  · exact ⟨T - 1, by omega, hlast, by rw [endIndex_last]; exact hk⟩
  · have hlt : k < (T - 1) * (n / T) := by
      simpa [startIndex, blockPerThread] using hlast
    have hq : 0 < n / T := by
      rcases Nat.eq_zero_or_pos (n / T) with h0 | h0
      · rw [h0] at hlt; omega
      · exact h0
    have hi : k / (n / T) < T - 1 := (Nat.div_lt_iff_lt_mul hq).mpr hlt
    refine ⟨k / (n / T), by omega, ?_, ?_⟩
    · show k / (n / T) * (n / T) ≤ k
      exact Nat.div_mul_le_self k (n / T)
    · rw [endIndex_eq_start_succ n T _ (by omega)]
      show k < (k / (n / T) + 1) * (n / T)
      rw [Nat.mul_comm]; exact Nat.lt_mul_div_succ k hq

/-! ## C5: the ranges partition `[0, blockCount)` -/

/-- C5: for every `blockCount` and every `workerCount ≥ 1` the ranges of the threaded driver
are ordered by increasing start, each range ends where the next one starts, the first starts
at 0 and the last ends at `blockCount`, they are pairwise disjoint and their union is
`[0, blockCount)`; with one worker the range is `[0, blockCount)`. -/
theorem thread_ranges_partition (blockCount workerCount : Nat) (hw : 1 ≤ workerCount) :
    startIndex blockCount workerCount 0 = 0 ∧
    endIndex blockCount workerCount (workerCount - 1) = blockCount ∧
    (∀ i, i + 1 < workerCount →
      endIndex blockCount workerCount i = startIndex blockCount workerCount (i + 1)) ∧
    (∀ i, i < workerCount →
      startIndex blockCount workerCount i ≤ endIndex blockCount workerCount i) ∧
    (∀ i j, i < j → j < workerCount →
      startIndex blockCount workerCount i ≤ startIndex blockCount workerCount j) ∧
    (∀ i j, i < workerCount → j < workerCount → i ≠ j →
      ∀ k, ¬ (inRange blockCount workerCount i k ∧ inRange blockCount workerCount j k)) ∧
    (∀ k, k < blockCount ↔ ∃ i, i < workerCount ∧ inRange blockCount workerCount i k) ∧
    (workerCount = 1 →
      startIndex blockCount workerCount 0 = 0 ∧ endIndex blockCount workerCount 0 = blockCount) := by
  refine ⟨by simp [startIndex], endIndex_last _ _, endIndex_eq_start_succ _ _,
    fun i hi => startIndex_le_endIndex _ _ i hw hi,
    fun i j hij _ => startIndex_mono _ _ (le_of_lt hij), ?_, ?_, ?_⟩
  · intro i j hi hj hij k hk
    obtain ⟨⟨hi1, hi2⟩, hj1, hj2⟩ := hk
    rcases Nat.lt_or_gt_of_ne hij with h | h
    · have := endIndex_le_startIndex blockCount workerCount h hj
      omega
    · have := endIndex_le_startIndex blockCount workerCount h hi
      omega
  · intro k
    constructor
    · exact exists_range_of_lt blockCount workerCount k hw
    · rintro ⟨i, hi, _, h2⟩
      exact lt_of_lt_of_le h2 (endIndex_le_count blockCount workerCount i hw hi)
  · intro h1
    subst h1
    exact ⟨by simp [startIndex], endIndex_last _ 1⟩

theorem thread_ranges_partition_witness :
    (1 : Nat) ≤ 4 ∧
    [startIndex 10 4 0, endIndex 10 4 0, startIndex 10 4 1, endIndex 10 4 1,
      startIndex 10 4 2, endIndex 10 4 2, startIndex 10 4 3, endIndex 10 4 3]
      = [0, 2, 2, 4, 4, 6, 6, 10] ∧
    (∀ k, k < 10 ↔ ∃ i, i < 4 ∧ inRange 10 4 i k) :=
  ⟨by decide, by decide, (thread_ranges_partition 10 4 (by decide)).2.2.2.2.2.2.1⟩

/-! ## C6: the total does not depend on the order of the fingerprints -/

theorem duplicatePairs_perm {l₁ l₂ : List Nat} (h : l₁.Perm l₂) :
    duplicatePairs l₁ = duplicatePairs l₂ := by
  rw [duplicatePairs_eq_choose_sum, duplicatePairs_eq_choose_sum, List.toFinset_eq_of_perm _ _ h]
  apply Finset.sum_congr rfl
  intro v _
  rw [h.count_eq]

theorem sequentialTotal_perm {int : Int → Int} (hint : IntReading int) {l₁ l₂ : List Nat}
    (h : l₁.Perm l₂) : sequentialTotal int l₁ = sequentialTotal int l₂ := by
  rw [sequentialTotal_eq hint, sequentialTotal_eq hint, duplicatePairs_perm h]

/-- C6: for every list of fingerprints and every permutation of it, the total accumulated from
the values returned by `insertOrUpdate`, from an empty table, is the same (under the exact
and under the 32-bit reading of `int`), although the individual returned values can differ
between two orders. -/
theorem total_independent_of_order (l₁ l₂ : List Nat) (h : l₁.Perm l₂) :
    sequentialTotal exactInt l₁ = sequentialTotal exactInt l₂ ∧
    sequentialTotal int32 l₁ = sequentialTotal int32 l₂ ∧
    ∃ m₁ m₂ : List Nat, m₁.Perm m₂ ∧
      (callSequence exactInt emptyTable m₁).2 ≠ (callSequence exactInt emptyTable m₂).2 :=
  ⟨sequentialTotal_perm exactInt_reading h, sequentialTotal_perm int32_reading h,
    [1, 1, 2], [1, 2, 1], by decide, by decide⟩

theorem total_independent_of_order_witness :
    [1, 1, 2].Perm [1, 2, 1] ∧
    sequentialTotal exactInt [1, 1, 2] = sequentialTotal exactInt [1, 2, 1] ∧
    (callSequence exactInt emptyTable [1, 1, 2]).2 = [0, 1, 0] ∧
    (callSequence exactInt emptyTable [1, 2, 1]).2 = [0, 0, 1] :=
  ⟨by decide, (total_independent_of_order [1, 1, 2] [1, 2, 1] (by decide)).1,
    by decide, by decide⟩

/-! ## The threaded run: invariant of the interleavings -/

theorem processBlocksStep_some {int : Int → Int} {blocks : List Nat} {T t : Nat}
    {s s' : ThreadState} (h : processBlocksStep int blocks T t s = some s') :
    t < T ∧ s.i t < endIndex blocks.length T t ∧ ∃ b, blocks[s.i t]? = some b ∧
      s' = { hashTable := (insertOrUpdate int s.hashTable b).1,
             pairCount := int (s.pairCount + (insertOrUpdate int s.hashTable b).2),
             i := Function.update s.i t (s.i t + 1) } := by
  unfold processBlocksStep at h
  split at h
  · rename_i hc
    refine ⟨hc.1, hc.2, ?_⟩
    cases hb : blocks[s.i t]? with
    | none => rw [hb] at h; cases h
    | some b =>
      rw [hb] at h
      simp only [Option.some.injEq] at h
      exact ⟨b, rfl, h.symm⟩
  · cases h

theorem take_count_succ (blocks : List Nat) (i b v : Nat) (hb : blocks[i]? = some b) :
    (((blocks.take (i + 1)).count v : Nat) : Int) =
      ((blocks.take i).count v : Nat) + (if b = v then 1 else 0) := by
  rw [List.take_succ, hb, List.count_append]
  by_cases h : b = v
  · simp [h]
  · simp [h, List.count_cons]

theorem sum_update_int (T t : Nat) (ht : t < T) (f : Nat → Nat) (c : Nat) (g : Nat → Nat → Int) :
    (Finset.range T).sum (fun u => g u (Function.update f t c u)) =
      (Finset.range T).sum (fun u => g u (f u)) + (g t c - g t (f t)) := by
  have hmem : t ∈ Finset.range T := Finset.mem_range.mpr ht
  rw [← Finset.add_sum_erase _ _ hmem, ← Finset.add_sum_erase _ (fun u => g u (f u)) hmem]
  have hrest : ((Finset.range T).erase t).sum (fun u => g u (Function.update f t c u)) =
      ((Finset.range T).erase t).sum (fun u => g u (f u)) := by
    apply Finset.sum_congr rfl
    intro u hu
    rw [Function.update_noteq (Finset.ne_of_mem_erase hu)]
  rw [hrest, Function.update_same]
  ring

theorem threadInv_init (int : Int → Int) (blocks : List Nat) (T : Nat) (hT : 1 ≤ T) :
    ThreadInv int blocks T (initThreads blocks.length T) [] := by
  refine ⟨rfl, rfl, ?_, ?_⟩
  · intro t ht
    exact startIndex_le_endIndex _ _ t hT ht
  · intro v
    simp [initThreads]

theorem threadInv_step {int : Int → Int} {blocks : List Nat} {T t : Nat}
    {s s' : ThreadState} {hist : List Nat} (hinv : ThreadInv int blocks T s hist)
    (h : processBlocksStep int blocks T t s = some s') :
    ∃ b, ThreadInv int blocks T s' (hist ++ [b]) := by
  obtain ⟨ht, hlt, b, hb, rfl⟩ := processBlocksStep_some h
  obtain ⟨h1, h2, h3, h4⟩ := hinv
  refine ⟨b, ?_, ?_, ?_, ?_⟩
  · simp only [countLoop_snoc, h1]
  · simp only [countLoop_snoc, h1, h2]
  · intro u hu
    by_cases hut : u = t
    · subst hut
      simp only [Function.update_same]
      omega
    · simp only [Function.update_noteq hut]
      exact h3 u hu
  · intro v
    have hsum := sum_update_int T t ht s.i (s.i t + 1) (fun u c =>
      (((blocks.take c).count v : Nat) : Int) -
        ((blocks.take (startIndex blocks.length T u)).count v : Nat))
    simp only at hsum
    rw [hsum, ← h4 v, take_count_succ blocks (s.i t) b v hb, List.count_append]
    by_cases hbv : b = v
    · simp [hbv]
    · simp [hbv, List.count_cons]

theorem threadInv_run {int : Int → Int} {blocks : List Nat} {T : Nat} (sched : List Nat) :
    ∀ {s s' : ThreadState} {hist : List Nat}, ThreadInv int blocks T s hist →
      runInterleaving int blocks T s sched = some s' →
      ∃ hist', ThreadInv int blocks T s' hist' := by
  induction sched with
  | nil =>
    intro s s' hist hinv h
    simp only [runInterleaving, Option.some.injEq] at h
    subst h
    exact ⟨hist, hinv⟩
  | cons t rest ih =>
    intro s s' hist hinv h
    unfold runInterleaving at h
    cases hstep : processBlocksStep int blocks T t s with
    | none => rw [hstep] at h; cases h
    | some s₁ =>
      rw [hstep] at h
      obtain ⟨b, hinv₁⟩ := threadInv_step hinv hstep
      exact ih hinv₁ h

/-- The blocks of all the ranges together are the blocks of the array. -/
theorem ranges_count_sum (blocks : List Nat) (T : Nat) (hT : 1 ≤ T) (v : Nat) :
    (Finset.range T).sum (fun t =>
      (((blocks.take (endIndex blocks.length T t)).count v : Nat) : Int) -
        ((blocks.take (startIndex blocks.length T t)).count v : Nat)) =
      ((blocks.count v : Nat) : Int) := by
  let bnd : Nat → Nat := fun t => if t < T then startIndex blocks.length T t else blocks.length
  have hterm : ∀ t ∈ Finset.range T,
      (((blocks.take (endIndex blocks.length T t)).count v : Nat) : Int) -
        ((blocks.take (startIndex blocks.length T t)).count v : Nat) =
      (((blocks.take (bnd (t + 1))).count v : Nat) : Int) -
        ((blocks.take (bnd t)).count v : Nat) := by
    intro t ht
    have ht' := Finset.mem_range.mp ht
    have hb : bnd t = startIndex blocks.length T t := by simp [bnd, ht']
    have he : bnd (t + 1) = endIndex blocks.length T t := by
      by_cases h : t + 1 < T
      · simp [bnd, h, endIndex_eq_start_succ _ _ _ h]
      · have ht1 : t = T - 1 := by omega
        simp only [bnd, h, if_false]
        rw [ht1, endIndex_last]
    rw [hb, he]
  rw [Finset.sum_congr rfl hterm,
    Finset.sum_range_sub (fun t => (((blocks.take (bnd t)).count v : Nat) : Int))]
  have h0 : bnd 0 = 0 := by
    have : 0 < T := hT
    simp [bnd, this, startIndex]
  have hlast : bnd T = blocks.length := by simp [bnd]
  rw [h0, hlast, List.take_length]
  simp

theorem threadInv_joined {int : Int → Int} (hint : IntReading int) {blocks : List Nat} {T : Nat}
    (hT : 1 ≤ T) {s : ThreadState} {hist : List Nat} (hinv : ThreadInv int blocks T s hist)
    (hj : allJoined blocks T s) : s.pairCount = sequentialTotal int blocks := by
  obtain ⟨_, h2, h3, h4⟩ := hinv
  have hperm : hist.Perm blocks := by
    rw [List.perm_iff_count]
    intro v
    have hsum := h4 v
    have hcongr : ∀ t ∈ Finset.range T,
        (((blocks.take (s.i t)).count v : Nat) : Int) -
          ((blocks.take (startIndex blocks.length T t)).count v : Nat) =
        (((blocks.take (endIndex blocks.length T t)).count v : Nat) : Int) -
          ((blocks.take (startIndex blocks.length T t)).count v : Nat) := by
      intro t ht
      have ht' := Finset.mem_range.mp ht
      have : s.i t = endIndex blocks.length T t :=
        le_antisymm (h3 t ht') (Nat.le_of_not_lt (hj t ht'))
      rw [this]
    rw [Finset.sum_congr rfl hcongr, ranges_count_sum blocks T hT v] at hsum
    exact_mod_cast hsum
  rw [h2]
  exact sequentialTotal_perm hint hperm

theorem exists_joined_run (int : Int → Int) (blocks : List Nat) (T : Nat) (hT : 1 ≤ T) :
    ∀ (m : Nat) (s : ThreadState),
      (∀ t, t < T → s.i t ≤ endIndex blocks.length T t) →
      (Finset.range T).sum (fun t => endIndex blocks.length T t - s.i t) = m →
      ∃ sched s', runInterleaving int blocks T s sched = some s' ∧ allJoined blocks T s' := by
  intro m
  induction m with
  | zero =>
    intro s _ hm
    refine ⟨[], s, rfl, ?_⟩
    intro t ht
    have := (Finset.sum_eq_zero_iff.mp hm) t (Finset.mem_range.mpr ht)
    omega
  | succ m ih =>
    intro s hbound hm
    have hne : (Finset.range T).sum (fun t => endIndex blocks.length T t - s.i t) ≠ 0 := by
      rw [hm]; exact Nat.succ_ne_zero m
    obtain ⟨t, htmem, htne⟩ := Finset.exists_ne_zero_of_sum_ne_zero hne
    have ht := Finset.mem_range.mp htmem
    have hlt : s.i t < endIndex blocks.length T t := by omega
    have hlen : s.i t < blocks.length :=
      lt_of_lt_of_le hlt (endIndex_le_count blocks.length T t hT ht)
    have hb : blocks[s.i t]? = some blocks[s.i t] := List.getElem?_eq_getElem hlen
    obtain ⟨s₁, hs₁⟩ : ∃ s₁ : ThreadState, s₁ =
        { hashTable := (insertOrUpdate int s.hashTable blocks[s.i t]).1,
          pairCount := int (s.pairCount + (insertOrUpdate int s.hashTable blocks[s.i t]).2),
          i := Function.update s.i t (s.i t + 1) } := ⟨_, rfl⟩
    have hi₁ : s₁.i = Function.update s.i t (s.i t + 1) := by rw [hs₁]
    have hstep : processBlocksStep int blocks T t s = some s₁ := by
      unfold processBlocksStep
      rw [if_pos ⟨ht, hlt⟩, hb, hs₁]
    have hsame : s₁.i t = s.i t + 1 := by rw [hi₁, Function.update_same]
    have hother : ∀ u, u ≠ t → s₁.i u = s.i u := by
      intro u hut
      rw [hi₁, Function.update_noteq hut]
    have hbound₁ : ∀ u, u < T → s₁.i u ≤ endIndex blocks.length T u := by
      intro u hu
      by_cases hut : u = t
      · subst hut
        omega
      · rw [hother u hut]
        exact hbound u hu
    have hm₁ : (Finset.range T).sum (fun u => endIndex blocks.length T u - s₁.i u) = m := by
      have e1 := Finset.add_sum_erase (Finset.range T)
        (fun u => endIndex blocks.length T u - s.i u) htmem
      have e2 := Finset.add_sum_erase (Finset.range T)
        (fun u => endIndex blocks.length T u - s₁.i u) htmem
      have hrest : ((Finset.range T).erase t).sum (fun u => endIndex blocks.length T u - s₁.i u)
          = ((Finset.range T).erase t).sum (fun u => endIndex blocks.length T u - s.i u) := by
        apply Finset.sum_congr rfl
        intro u hu
        rw [hother u (Finset.ne_of_mem_erase hu)]
      simp only at e1 e2
      rw [hrest] at e2
      omega
    obtain ⟨sched, s', hrun, hj⟩ := ih s₁ hbound₁ hm₁
    refine ⟨t :: sched, s', ?_, hj⟩
    simp only [runInterleaving, hstep, hrun]

/-- For every reading of `int`, every fingerprint array and every number of threads, the
threaded program reports the total of the sequential loop whatever the interleaving. -/
theorem threaded_total_eq_sequential {int : Int → Int} (hint : IntReading int)
    (blocks : List Nat) (T : Nat) (hT : 1 ≤ T) :
    threadedTotalIs int blocks T (sequentialTotal int blocks) := by
  constructor
  · exact exists_joined_run int blocks T hT _ (initThreads blocks.length T)
      (threadInv_init int blocks T hT).2.2.1 rfl
  · intro sched s hrun hj
    obtain ⟨hist, hinv⟩ := threadInv_run sched (threadInv_init int blocks T hT) hrun
    exact threadInv_joined hint hT hinv hj

/-! ## C7: the threaded total is the sequential total -/

/-- C7: for every fingerprint array and every worker count `T` in `{1, 2, 4, 8}`, with each
thread on its range of the partition, one shared table, and each step (one `insertOrUpdate`
plus the addition to the shared `pairCount`, under the mutex) atomic: some interleaving runs
all the threads to the end, and every interleaving that does ends with `pairCount` equal to
the total of the sequential loop on the same array.  This holds under the exact and under the
32-bit reading of `int`. -/
theorem threaded_matches_sequential (blocks : List Nat) (T : Nat)
    (hT : T = 1 ∨ T = 2 ∨ T = 4 ∨ T = 8) (int : Int → Int)
    (hint : int = exactInt ∨ int = int32) :
    (∃ sched s, runInterleaving int blocks T (initThreads blocks.length T) sched = some s ∧
      allJoined blocks T s) ∧
    ∀ sched s, runInterleaving int blocks T (initThreads blocks.length T) sched = some s →
      allJoined blocks T s → s.pairCount = sequentialTotal int blocks := by
  have hT1 : 1 ≤ T := by omega
  have hr : IntReading int := by
    rcases hint with h | h
    · rw [h]; exact exactInt_reading
    · rw [h]; exact int32_reading
  exact threaded_total_eq_sequential hr blocks T hT1

theorem threaded_matches_sequential_witness :
    runInterleaving exactInt sampleBlocks 2 (initThreads sampleBlocks.length 2) sampleSchedule
      = some sampleFinal ∧
    allJoined sampleBlocks 2 sampleFinal ∧
    sampleFinal.pairCount = sequentialTotal exactInt sampleBlocks ∧
    sequentialTotal exactInt sampleBlocks = 11 :=
  ⟨rfl, by decide,
    (threaded_matches_sequential sampleBlocks 2 (by decide) exactInt (Or.inl rfl)).2
      sampleSchedule sampleFinal rfl (by decide),
    by decide⟩

/-! ## The distributed total against the sequential total -/

theorem crossPairs_snoc (a b : List Nat) (x : Nat) :
    crossPairs a (b ++ [x]) = crossPairs a b + a.count x := by
  simp [crossPairs]

theorem duplicatePairs_append (a b : List Nat) :
    duplicatePairs (a ++ b) = duplicatePairs a + duplicatePairs b + crossPairs a b := by
  induction b using List.reverseRecOn with
  | nil => simp [duplicatePairs_nil, crossPairs]
  | append_singleton b x ih =>
    rw [← List.append_assoc, duplicatePairs_snoc, ih, duplicatePairs_snoc, crossPairs_snoc,
      List.count_append]
    omega

theorem crossPairs_eq_zero_iff (a b : List Nat) : crossPairs a b = 0 ↔ a.Disjoint b := by
  unfold crossPairs
  rw [List.sum_eq_zero_iff]
  constructor
  · intro h x hxa hxb
    have := h (a.count x) (List.mem_map.mpr ⟨x, hxb, rfl⟩)
    exact (List.count_eq_zero.mp this) hxa
  · intro h c hc
    obtain ⟨x, hxb, rfl⟩ := List.mem_map.mp hc
    exact List.count_eq_zero.mpr (fun hxa => h hxa hxb)

theorem disjoint_flatten_iff (p : List Nat) (ps : List (List Nat)) :
    p.Disjoint ps.flatten ↔ ∀ q ∈ ps, p.Disjoint q := by
  constructor
  · intro h q hq x hxp hxq
    exact h hxp (List.mem_flatten.mpr ⟨q, hq, hxq⟩)
  · intro h x hxp hxf
    obtain ⟨q, hq, hxq⟩ := List.mem_flatten.mp hxf
    exact h q hq hxp hxq

theorem distributedTotal_exact (parts : List (List Nat)) :
    distributedTotal exactInt parts = (((parts.map duplicatePairs).sum : Nat) : Int) := by
  have hfold : ∀ (l : List (List Nat)) (acc : Int),
      (l.map (sequentialTotal exactInt)).foldl (fun g p => exactInt (g + p)) acc =
        acc + (((l.map duplicatePairs).sum : Nat) : Int) := by
    intro l
    induction l with
    | nil => intro acc; simp
    | cons p ps ih =>
      intro acc
      simp only [List.map_cons, List.foldl_cons, List.sum_cons, Nat.cast_add]
      rw [ih, sequentialTotal_eq exactInt_reading]
      simp only [exactInt]
      ring
  unfold distributedTotal
  rw [hfold parts 0, zero_add]

theorem partPairs_le_and_eq_iff (parts : List (List Nat)) :
    (parts.map duplicatePairs).sum ≤ duplicatePairs parts.flatten ∧
    ((parts.map duplicatePairs).sum = duplicatePairs parts.flatten ↔
      parts.Pairwise List.Disjoint) := by
  induction parts with
  | nil => simp [duplicatePairs_nil]
  | cons p ps ih =>
    obtain ⟨hle, heq⟩ := ih
    simp only [List.map_cons, List.sum_cons, List.flatten_cons, duplicatePairs_append,
      List.pairwise_cons]
    refine ⟨by omega, ?_⟩
    rw [← disjoint_flatten_iff, ← crossPairs_eq_zero_iff, ← heq]
    omega

/-! ## The distributed total against the sequential total, on unbounded integers -/

/-- On unbounded integers, the reading of `int` under which the property of C8 holds: for every
list of fingerprints and every split of it into contiguous ranges that cover it, the
distributed total (each range counted on its own fresh table, the counts added) is at most the
sequential total of the whole list, with equality if and only if no fingerprint occurs in two
different ranges; two equal blocks in different ranges count 1 sequentially and 0
distributed. -/
theorem distributed_le_sequential (fps : List Nat) (parts : List (List Nat))
    (hsplit : parts.flatten = fps) :
    distributedTotal exactInt parts ≤ sequentialTotal exactInt fps ∧
    (distributedTotal exactInt parts = sequentialTotal exactInt fps ↔
      parts.Pairwise List.Disjoint) ∧
    ∀ v : Nat, sequentialTotal exactInt [v, v] = 1 ∧ distributedTotal exactInt [[v], [v]] = 0 := by
  subst hsplit
  obtain ⟨hle, heq⟩ := partPairs_le_and_eq_iff parts
  have hseq : sequentialTotal exactInt parts.flatten =
      ((duplicatePairs parts.flatten : Nat) : Int) := sequentialTotal_eq exactInt_reading _
  rw [distributedTotal_exact, hseq]
  refine ⟨by exact_mod_cast hle, ?_, ?_⟩
  · rw [← heq]
    exact Nat.cast_inj
  · intro v
    have h1 : duplicatePairs [v, v] = 1 := by
      have := duplicatePairs_snoc [v] v
      have h0 := duplicatePairs_snoc [] v
      simp [duplicatePairs_nil] at this h0
      omega
    have h2 : duplicatePairs [v] = 0 := by
      have h0 := duplicatePairs_snoc [] v
      simpa [duplicatePairs_nil] using h0
    constructor
    · have := sequentialTotal_eq exactInt_reading [v, v]
      rw [this, h1]; rfl
    · rw [distributedTotal_exact]
      simp [h2]

theorem distributed_le_sequential_witness :
    [[5, 7, 5], [7, 9], [5]].flatten = [5, 7, 5, 7, 9, 5] ∧
    distributedTotal exactInt [[5, 7, 5], [7, 9], [5]] = 1 ∧
    sequentialTotal exactInt [5, 7, 5, 7, 9, 5] = 4 ∧
    distributedTotal exactInt [[5, 7, 5], [7, 9], [5]] ≤ sequentialTotal exactInt [5, 7, 5, 7, 9, 5] :=
  ⟨by decide, by decide, by decide,
    (distributed_le_sequential [5, 7, 5, 7, 9, 5] [[5, 7, 5], [7, 9], [5]] (by decide)).1⟩

/-! ## The block origins -/

theorem originLoop_eq (DIM : Nat) :
    ∀ fuel j, DIM / 4 ≤ j + fuel →
      originLoop DIM fuel (4 * j) = (List.range (DIM / 4 - j)).map (fun k => 4 * (j + k)) := by
  intro fuel
  induction fuel with
  | zero =>
    intro j h
    have : DIM / 4 - j = 0 := by omega
    simp [originLoop, this]
  | succ fuel ih =>
    intro j h
    unfold originLoop
    by_cases hc : ((4 * j : Nat) : Int) ≤ (DIM : Int) - (CUBE_SIZE : Int)
    · have hj : j < DIM / 4 := by
        simp only [CUBE_SIZE] at hc
        omega
      have hlen : DIM / 4 - j = (DIM / 4 - (j + 1)) + 1 := by omega
      rw [if_pos hc, hlen, List.range_succ_eq_map, List.map_cons, List.map_map]
      have hnext : 4 * j + CUBE_SIZE = 4 * (j + 1) := by simp only [CUBE_SIZE]; omega
      rw [hnext, ih (j + 1) (by omega)]
      congr 1
      apply List.map_congr_left
      intro k _
      simp only [Function.comp, Nat.succ_eq_add_one]
      omega
    · have hj : DIM / 4 - j = 0 := by
        simp only [CUBE_SIZE] at hc
        omega
      rw [if_neg hc, hj]
      rfl

/-- The fuel of `origins` is enough: the origins are `0, 4, ..., 4 (DIM / 4 - 1)`. -/
theorem origins_eq (DIM : Nat) : origins DIM = (List.range (DIM / 4)).map (fun k => 4 * k) := by
  have h := originLoop_eq DIM DIM 0 (by omega)
  simpa [origins] using h

theorem origins_length (DIM : Nat) : (origins DIM).length = DIM / CUBE_SIZE := by
  rw [origins_eq]; simp [CUBE_SIZE]

theorem mem_origins {DIM p : Nat} (h : p ∈ origins DIM) : p % 4 = 0 ∧ p + 4 ≤ DIM := by
  rw [origins_eq] at h
  obtain ⟨k, hk, rfl⟩ := List.mem_map.mp h
  have := List.mem_range.mp hk
  omega

/-! ## The all-zero grid -/

theorem origin_inBounds (WIDTH HEIGHT DEPTH : Nat) (data : List Nat)
    (hlen : data.length = WIDTH * HEIGHT * DEPTH) {px py pz : Nat}
    (hx : px + 4 ≤ WIDTH) (hy : py + 4 ≤ HEIGHT) (hz : pz + 4 ≤ DEPTH) :
    blockInBounds WIDTH HEIGHT data (px + py * WIDTH + pz * WIDTH * HEIGHT) := by
  unfold blockInBounds
  rw [hlen]
  have h1 : (py + 4) * WIDTH ≤ HEIGHT * WIDTH := Nat.mul_le_mul_right _ hy
  have h2 : (pz + 4) * (WIDTH * HEIGHT) ≤ DEPTH * (WIDTH * HEIGHT) := Nat.mul_le_mul_right _ hz
  rw [Nat.add_mul] at h1 h2
  have e1 : pz * WIDTH * HEIGHT = pz * (WIDTH * HEIGHT) := Nat.mul_assoc _ _ _
  have e2 : 3 * WIDTH * HEIGHT = 3 * (WIDTH * HEIGHT) := Nat.mul_assoc _ _ _
  have e3 : WIDTH * HEIGHT * DEPTH = DEPTH * (WIDTH * HEIGHT) := Nat.mul_comm _ _
  have e4 : HEIGHT * WIDTH = WIDTH * HEIGHT := Nat.mul_comm _ _
  rw [e1, e2, e3]
  rw [e4] at h1
  omega

theorem extract_block_zeroGrid (WIDTH HEIGHT size start : Nat)
    (hin : blockInBounds WIDTH HEIGHT (zeroGrid size) start) :
    extract_block WIDTH HEIGHT (zeroGrid size) start = some 0 := by
  obtain ⟨b, hb, hbits⟩ := extract_block_spec WIDTH HEIGHT (zeroGrid size) start hin
  have hzero : b = 0 := by
    apply Nat.eq_of_testBit_eq
    intro i
    rw [Nat.zero_testBit]
    cases hc : b.testBit i with
    | false => rfl
    | true =>
      have h := ((hbits i).mp hc).2
      exfalso
      apply h
      unfold zeroGrid
      rw [List.getD_eq_getElem?_getD]
      by_cases hlt : voxelOffset WIDTH HEIGHT start i < size
      · rw [List.getElem?_eq_getElem (by simpa using hlt)]
        simp
      · rw [List.getElem?_eq_none (by simpa using hlt)]
        rfl
  rw [hb, hzero]

theorem storeBlock_fold_zero (WIDTH HEIGHT DEPTH : Nat) (data : List Nat) (pz py : Nat) :
    ∀ (xs acc : List Nat),
      (∀ px ∈ xs, extract_block WIDTH HEIGHT data (px + py * WIDTH + pz * WIDTH * HEIGHT)
        = some 0) →
      acc.length + xs.length ≤ BLOCK_COUNT WIDTH HEIGHT DEPTH →
      xs.foldl (storeBlock WIDTH HEIGHT DEPTH data pz py) (some acc) =
        some (acc ++ List.replicate xs.length 0) := by
  intro xs
  induction xs with
  | nil => intro acc _ _; simp
  | cons px xs ih =>
    intro acc hz hcap
    simp only [List.length_cons] at hcap
    have hlt : acc.length < BLOCK_COUNT WIDTH HEIGHT DEPTH := by omega
    have hstep : storeBlock WIDTH HEIGHT DEPTH data pz py (some acc) px = some (acc ++ [0]) := by
      simp only [storeBlock, hlt, if_true, hz px (List.mem_cons_self _ _)]
    rw [List.foldl_cons, hstep,
      ih (acc ++ [0]) (fun px' h => hz px' (List.mem_cons_of_mem _ h))
        (by simp only [List.length_append, List.length_singleton]; omega)]
    simp [List.replicate_succ]

theorem storeBlock_rows_zero (WIDTH HEIGHT DEPTH : Nat) (data : List Nat) (pz : Nat)
    (xs : List Nat) :
    ∀ (ys acc : List Nat),
      (∀ py ∈ ys, ∀ px ∈ xs,
        extract_block WIDTH HEIGHT data (px + py * WIDTH + pz * WIDTH * HEIGHT) = some 0) →
      acc.length + ys.length * xs.length ≤ BLOCK_COUNT WIDTH HEIGHT DEPTH →
      ys.foldl (fun s py => xs.foldl (storeBlock WIDTH HEIGHT DEPTH data pz py) s) (some acc) =
        some (acc ++ List.replicate (ys.length * xs.length) 0) := by
  intro ys
  induction ys with
  | nil => intro acc _ _; simp
  | cons py ys ih =>
    intro acc hz hcap
    simp only [List.length_cons, Nat.add_mul, Nat.one_mul] at hcap
    rw [List.foldl_cons,
      storeBlock_fold_zero WIDTH HEIGHT DEPTH data pz py xs acc
        (hz py (List.mem_cons_self _ _)) (by omega),
      ih _ (fun py' h => hz py' (List.mem_cons_of_mem _ h))
        (by simp only [List.length_append, List.length_replicate]; omega)]
    simp only [List.length_cons, Nat.add_mul, Nat.one_mul, List.append_assoc]
    rw [Nat.add_comm, List.replicate_add]

theorem storeBlock_layers_zero (WIDTH HEIGHT DEPTH : Nat) (data : List Nat)
    (ys xs : List Nat) :
    ∀ (zs acc : List Nat),
      (∀ pz ∈ zs, ∀ py ∈ ys, ∀ px ∈ xs,
        extract_block WIDTH HEIGHT data (px + py * WIDTH + pz * WIDTH * HEIGHT) = some 0) →
      acc.length + zs.length * (ys.length * xs.length) ≤ BLOCK_COUNT WIDTH HEIGHT DEPTH →
      zs.foldl (fun s pz =>
          ys.foldl (fun s py => xs.foldl (storeBlock WIDTH HEIGHT DEPTH data pz py) s) s)
        (some acc) =
        some (acc ++ List.replicate (zs.length * (ys.length * xs.length)) 0) := by
  intro zs
  induction zs with
  | nil => intro acc _ _; simp
  | cons pz zs ih =>
    intro acc hz hcap
    simp only [List.length_cons, Nat.add_mul, Nat.one_mul] at hcap
    rw [List.foldl_cons,
      storeBlock_rows_zero WIDTH HEIGHT DEPTH data pz xs ys acc
        (hz pz (List.mem_cons_self _ _)) (by omega),
      ih _ (fun pz' h => hz pz' (List.mem_cons_of_mem _ h))
        (by simp only [List.length_append, List.length_replicate]; omega)]
    simp only [List.length_cons, Nat.add_mul, Nat.one_mul, List.append_assoc]
    rw [Nat.add_comm, List.replicate_add]

/-- On the all-zero grid the extraction loops store `BLOCK_COUNT` fingerprints, all 0. -/
theorem extractBlocks_zeroGrid (WIDTH HEIGHT DEPTH : Nat) :
    extractBlocks WIDTH HEIGHT DEPTH (zeroGrid (WIDTH * HEIGHT * DEPTH)) =
      some (List.replicate (BLOCK_COUNT WIDTH HEIGHT DEPTH) 0) := by
  have hcount : (origins DEPTH).length * ((origins HEIGHT).length * (origins WIDTH).length) =
      BLOCK_COUNT WIDTH HEIGHT DEPTH := by
    simp only [origins_length, BLOCK_COUNT]
    rw [Nat.mul_comm (HEIGHT / CUBE_SIZE) (WIDTH / CUBE_SIZE), Nat.mul_comm]
  have h := storeBlock_layers_zero WIDTH HEIGHT DEPTH (zeroGrid (WIDTH * HEIGHT * DEPTH))
    (origins HEIGHT) (origins WIDTH) (origins DEPTH) []
    (fun pz hz py hy px hx =>
      extract_block_zeroGrid WIDTH HEIGHT _ _
        (origin_inBounds WIDTH HEIGHT DEPTH _ (by simp [zeroGrid])
          (mem_origins hx).2 (mem_origins hy).2 (mem_origins hz).2))
    (by rw [hcount]; simp)
  rw [hcount] at h
  simpa [extractBlocks] using h

theorem duplicatePairs_replicate (n v : Nat) :
    duplicatePairs (List.replicate n v) = n * (n - 1) / 2 := by
  have h := duplicatePairs_single_class (List.replicate n v) v
    (fun w hw hne => absurd (List.eq_of_mem_replicate hw) hne)
  rw [h, List.count_replicate_self]

/-! ## C9: the all-zero grid in the sequential program -/

theorem sequentialMain_zeroGrid {int : Int → Int} (hint : IntReading int)
    (WIDTH HEIGHT DEPTH : Nat) :
    sequentialMain int WIDTH HEIGHT DEPTH (zeroGrid (WIDTH * HEIGHT * DEPTH)) =
      some (int ((BLOCK_COUNT WIDTH HEIGHT DEPTH * (BLOCK_COUNT WIDTH HEIGHT DEPTH - 1) / 2
        : Nat) : Int)) := by
  unfold sequentialMain
  rw [extractBlocks_zeroGrid, Option.map_some', sequentialTotal_eq hint,
    duplicatePairs_replicate]

/-- C9: on an all-zero binarized grid `extract_block` returns 0 at every in-bounds block
position, and the pair count the sequential program computes in its 32-bit `int` accumulator
on the all-zero 64x64x64 grid is `BLOCK_COUNT (BLOCK_COUNT - 1) / 2` with `BLOCK_COUNT = 4096`,
that is 8,386,560. -/
theorem zero_grid_pair_count (WIDTH HEIGHT size start : Nat)
    (hin : blockInBounds WIDTH HEIGHT (zeroGrid size) start) :
    extract_block WIDTH HEIGHT (zeroGrid size) start = some 0 ∧
    extractBlocks Sequential.WIDTH Sequential.HEIGHT Sequential.DEPTH
      (zeroGrid (Sequential.WIDTH * Sequential.HEIGHT * Sequential.DEPTH)) =
      some (List.replicate 4096 0) ∧
    sequentialMain int32 Sequential.WIDTH Sequential.HEIGHT Sequential.DEPTH
      (zeroGrid (Sequential.WIDTH * Sequential.HEIGHT * Sequential.DEPTH)) =
      some (((BLOCK_COUNT Sequential.WIDTH Sequential.HEIGHT Sequential.DEPTH *
        (BLOCK_COUNT Sequential.WIDTH Sequential.HEIGHT Sequential.DEPTH - 1) / 2 : Nat) : Int)) ∧
    BLOCK_COUNT Sequential.WIDTH Sequential.HEIGHT Sequential.DEPTH = 4096 ∧
    BLOCK_COUNT Sequential.WIDTH Sequential.HEIGHT Sequential.DEPTH *
      (BLOCK_COUNT Sequential.WIDTH Sequential.HEIGHT Sequential.DEPTH - 1) / 2 = 8386560 := by
  have hbc : BLOCK_COUNT Sequential.WIDTH Sequential.HEIGHT Sequential.DEPTH = 4096 := by decide
  refine ⟨extract_block_zeroGrid WIDTH HEIGHT size start hin, ?_, ?_, hbc, ?_⟩
  · rw [extractBlocks_zeroGrid, hbc]
  · rw [sequentialMain_zeroGrid int32_reading, hbc]
    congr 1
  · rw [hbc]

theorem zero_grid_pair_count_witness :
    blockInBounds 4 4 (zeroGrid 64) 0 ∧
    extract_block 4 4 (zeroGrid 64) 0 = some 0 ∧
    sequentialMain int32 Sequential.WIDTH Sequential.HEIGHT Sequential.DEPTH
      (zeroGrid (Sequential.WIDTH * Sequential.HEIGHT * Sequential.DEPTH)) = some 8386560 :=
  ⟨by decide, (zero_grid_pair_count 4 4 64 0 (by decide)).1,
    (zero_grid_pair_count 4 4 64 0 (by decide)).2.2.1⟩

/-! ## C10: the 32-bit accumulator of the threaded program overflows -/

/-- C10 (violated by the code): the threaded program on the all-zero 1024x1024x314 volume
reports a negative total, not the number of duplicate pairs.  The extraction loops store
5,111,808 fingerprints, all 0, which form 13,065,287,958,528 duplicate pairs; with the `int`
arithmetic wrapping at 32 bits, every interleaving of the 4 threads ends with
`pairCount = -2,555,904`. -/
theorem threaded_zero_volume_overflow :
    extractBlocks Threaded.WIDTH Threaded.HEIGHT Threaded.DEPTH
      (zeroGrid (Threaded.WIDTH * Threaded.HEIGHT * Threaded.DEPTH)) =
      some (List.replicate 5111808 0) ∧
    duplicatePairs (List.replicate 5111808 0) = 13065287958528 ∧
    threadedTotalIs int32 (List.replicate 5111808 0) Threaded.NUM_THREADS (-2555904) := by
  have hbc : BLOCK_COUNT Threaded.WIDTH Threaded.HEIGHT Threaded.DEPTH = 5111808 := by decide
  have hpairs : duplicatePairs (List.replicate 5111808 0) = 13065287958528 := by
    rw [duplicatePairs_replicate]
  refine ⟨?_, hpairs, ?_⟩
  · rw [extractBlocks_zeroGrid, hbc]
  · have h := threaded_total_eq_sequential int32_reading (List.replicate 5111808 0)
      Threaded.NUM_THREADS (by decide)
    rw [sequentialTotal_eq int32_reading, hpairs] at h
    exact h

/-! ## The two readings of `int` agree on the returned values of short runs -/

/-- For a sequence of at most `2^31` calls the values returned under the 32-bit reading of
`int` are those returned under the exact reading: no node count overflows. -/
theorem callSequence_int32_eq_exact (fps : List Nat) (hlen : fps.length ≤ 2147483648) :
    (callSequence int32 emptyTable fps).2 = (callSequence exactInt emptyTable fps).2 := by
  apply List.ext_getElem?
  intro k
  by_cases hk : k < fps.length
  · rw [callSequence_ret int32_reading emptyTable fps k hk,
      callSequence_ret exactInt_reading emptyTable fps k hk, countOf_emptyTable]
    have hle : (fps.take k).count fps[k] ≤ k := by
      have h1 := List.count_le_length fps[k] (fps.take k)
      rw [List.length_take] at h1
      omega
    simp only [exactInt, zero_add]
    rw [int32_of_range (by omega) (by omega)]
  · rw [List.getElem?_eq_none (by rw [callSequence_length]; omega),
      List.getElem?_eq_none (by rw [callSequence_length]; omega)]

/-! ## C12, C13: the lengths of the ranges -/

theorem rangeLength_inner (n T i : Nat) (h : i + 1 < T) : rangeLength n T i = n / T := by
  unfold rangeLength
  rw [endIndex_eq_start_succ n T i h]
  simp only [startIndex, blockPerThread, Nat.add_mul, Nat.one_mul]
  exact Nat.add_sub_cancel_left _ _

theorem rangeLength_last (n T : Nat) (hT : 1 ≤ T) : rangeLength n T (T - 1) = n / T + n % T := by
  unfold rangeLength
  rw [endIndex_last]
  simp only [startIndex, blockPerThread]
  have h2 := Nat.div_add_mod n T
  have h1 : (T - 1) * (n / T) + n / T = T * (n / T) := by
    obtain ⟨k, rfl⟩ : ∃ k, T = k + 1 := ⟨T - 1, by omega⟩
    rw [Nat.add_sub_cancel, Nat.add_mul, Nat.one_mul]
  generalize n / T = q at h1 h2 ⊢
  generalize n % T = r at h2 ⊢
  generalize (T - 1) * q = a at h1 ⊢
  generalize T * q = b at h1 h2
  omega

/-- C12: for every `blockCount` and every `workerCount ≥ 1`, every range of the threaded
driver's split except the last holds exactly `blockCount / workerCount` block indices, and the
last range holds `blockCount / workerCount + blockCount mod workerCount`; in every range
`startIndex ≤ endIndex`, so the number of indices is `endIndex - startIndex`. -/
theorem range_lengths (blockCount workerCount : Nat) (hw : 1 ≤ workerCount) :
    (∀ i, i + 1 < workerCount →
      rangeLength blockCount workerCount i = blockCount / workerCount) ∧
    rangeLength blockCount workerCount (workerCount - 1) =
      blockCount / workerCount + blockCount % workerCount ∧
    (∀ i, i < workerCount →
      startIndex blockCount workerCount i ≤ endIndex blockCount workerCount i) :=
  ⟨rangeLength_inner blockCount workerCount, rangeLength_last blockCount workerCount hw,
    fun i hi => startIndex_le_endIndex blockCount workerCount i hw hi⟩

theorem range_lengths_witness :
    (1 : Nat) ≤ 4 ∧
    [rangeLength 10 4 0, rangeLength 10 4 1, rangeLength 10 4 2, rangeLength 10 4 3]
      = [2, 2, 2, 4] ∧
    rangeLength 10 4 (4 - 1) = 10 / 4 + 10 % 4 :=
  ⟨by decide, by decide, (range_lengths 10 4 (by decide)).2.1⟩

/-- C13 fails as stated: with 7 blocks and 4 workers the ranges hold 1, 1, 1 and 4 indices, so
two lengths differ by 3. -/
theorem range_lengths_uneven :
    ¬ (∀ blockCount workerCount : Nat, 1 ≤ workerCount →
      ∀ i j, i < workerCount → j < workerCount →
        rangeLength blockCount workerCount i ≤ rangeLength blockCount workerCount j + 1) := by
  intro h
  have := h 7 4 (by decide) 3 0 (by decide) (by decide)
  revert this
  decide

/-- C13 as amended: for every `blockCount` and every `workerCount ≥ 1`, all the ranges but the
last have the same length `blockCount / workerCount`, the last one is longer by
`blockCount mod workerCount`, so the lengths of two ranges differ by at most
`blockCount mod workerCount`, which is less than `workerCount`. -/
theorem range_lengths_differ_by_remainder (blockCount workerCount : Nat)
    (hw : 1 ≤ workerCount) :
    (∀ i j, i < workerCount → j < workerCount →
      rangeLength blockCount workerCount i ≤
        rangeLength blockCount workerCount j + blockCount % workerCount) ∧
    (∀ i j, i + 1 < workerCount → j + 1 < workerCount →
      rangeLength blockCount workerCount i = rangeLength blockCount workerCount j) ∧
    (∀ i, i + 1 < workerCount →
      rangeLength blockCount workerCount (workerCount - 1) =
        rangeLength blockCount workerCount i + blockCount % workerCount) ∧
    blockCount % workerCount < workerCount := by
  have hlen : ∀ i, i < workerCount →
      (rangeLength blockCount workerCount i = blockCount / workerCount ∨
        rangeLength blockCount workerCount i =
          blockCount / workerCount + blockCount % workerCount) := by
    intro i hi
    by_cases h : i + 1 < workerCount
    · exact Or.inl (rangeLength_inner _ _ i h)
    · have : i = workerCount - 1 := by omega
      rw [this]
      exact Or.inr (rangeLength_last _ _ hw)
  refine ⟨?_, ?_, ?_, Nat.mod_lt _ hw⟩
  · intro i j hi hj
    rcases hlen i hi with h1 | h1 <;> rcases hlen j hj with h2 | h2 <;> omega
  · intro i j hi hj
    rw [rangeLength_inner _ _ i hi, rangeLength_inner _ _ j hj]
  · intro i hi
    rw [rangeLength_inner _ _ i hi, rangeLength_last _ _ hw]

theorem range_lengths_differ_by_remainder_witness :
    (1 : Nat) ≤ 4 ∧ 7 % 4 = 3 ∧
    rangeLength 7 4 3 = 4 ∧ rangeLength 7 4 0 = 1 ∧
    (∀ i j, i < 4 → j < 4 → rangeLength 7 4 i ≤ rangeLength 7 4 j + 7 % 4) :=
  ⟨by decide, by decide, by decide, by decide,
    (range_lengths_differ_by_remainder 7 4 (by decide)).1⟩

/-! ## The extraction loops on any grid -/

theorem extract_block_eq_fingerprintAt (WIDTH HEIGHT : Nat) (data : List Nat) (start : Nat)
    (hin : blockInBounds WIDTH HEIGHT data start) :
    extract_block WIDTH HEIGHT data start = some (fingerprintAt WIDTH HEIGHT data start) := by
  obtain ⟨b, hb, _⟩ := extract_block_spec WIDTH HEIGHT data start hin
  simp [fingerprintAt, hb]

theorem storeBlock_fold (WIDTH HEIGHT DEPTH : Nat) (data : List Nat) (pz py : Nat) :
    ∀ (xs acc : List Nat),
      (∀ px ∈ xs, blockInBounds WIDTH HEIGHT data (px + py * WIDTH + pz * WIDTH * HEIGHT)) →
      acc.length + xs.length ≤ BLOCK_COUNT WIDTH HEIGHT DEPTH →
      xs.foldl (storeBlock WIDTH HEIGHT DEPTH data pz py) (some acc) =
        some (acc ++ xs.map (fun px =>
          fingerprintAt WIDTH HEIGHT data (blockStart WIDTH HEIGHT (px, py, pz)))) := by
  intro xs
  induction xs with
  | nil => intro acc _ _; simp
  | cons px xs ih =>
    intro acc hin hcap
    simp only [List.length_cons] at hcap
    have hlt : acc.length < BLOCK_COUNT WIDTH HEIGHT DEPTH := by omega
    have hstep : storeBlock WIDTH HEIGHT DEPTH data pz py (some acc) px =
        some (acc ++ [fingerprintAt WIDTH HEIGHT data (blockStart WIDTH HEIGHT (px, py, pz))]) := by
      simp only [storeBlock, hlt, if_true,
        extract_block_eq_fingerprintAt _ _ _ _ (hin px (List.mem_cons_self _ _)), blockStart]
    rw [List.foldl_cons, hstep,
      ih _ (fun px' h => hin px' (List.mem_cons_of_mem _ h))
        (by simp only [List.length_append, List.length_singleton]; omega)]
    simp

theorem storeBlock_rows (WIDTH HEIGHT DEPTH : Nat) (data : List Nat) (pz : Nat)
    (xs : List Nat) :
    ∀ (ys acc : List Nat),
      (∀ py ∈ ys, ∀ px ∈ xs,
        blockInBounds WIDTH HEIGHT data (px + py * WIDTH + pz * WIDTH * HEIGHT)) →
      acc.length + ys.length * xs.length ≤ BLOCK_COUNT WIDTH HEIGHT DEPTH →
      ys.foldl (fun s py => xs.foldl (storeBlock WIDTH HEIGHT DEPTH data pz py) s) (some acc) =
        some (acc ++ ys.flatMap (fun py => xs.map (fun px =>
          fingerprintAt WIDTH HEIGHT data (blockStart WIDTH HEIGHT (px, py, pz))))) := by
  intro ys
  induction ys with
  | nil => intro acc _ _; simp
  | cons py ys ih =>
    intro acc hin hcap
    simp only [List.length_cons, Nat.add_mul, Nat.one_mul] at hcap
    rw [List.foldl_cons,
      storeBlock_fold WIDTH HEIGHT DEPTH data pz py xs acc
        (hin py (List.mem_cons_self _ _)) (by omega),
      ih _ (fun py' h => hin py' (List.mem_cons_of_mem _ h))
        (by simp only [List.length_append, List.length_map]; omega)]
    simp

theorem flatMap_map_length {α : Type} (ys xs : List Nat) (f : Nat → Nat → α) :
    (ys.flatMap (fun py => xs.map (f py))).length = ys.length * xs.length := by
  induction ys with
  | nil => simp
  | cons y ys ih =>
    simp only [List.flatMap_cons, List.length_append, List.length_map, ih, List.length_cons]
    rw [Nat.add_mul, Nat.one_mul, Nat.add_comm]

theorem loopOrigins_cons (pz : Nat) (zs ys xs : List Nat) :
    loopOrigins (pz :: zs) ys xs =
      ys.flatMap (fun py => xs.map (fun px => (px, py, pz))) ++ loopOrigins zs ys xs := by
  simp [loopOrigins]

theorem storeBlock_layers (WIDTH HEIGHT DEPTH : Nat) (data : List Nat) (ys xs : List Nat) :
    ∀ (zs acc : List Nat),
      (∀ pz ∈ zs, ∀ py ∈ ys, ∀ px ∈ xs,
        blockInBounds WIDTH HEIGHT data (px + py * WIDTH + pz * WIDTH * HEIGHT)) →
      acc.length + zs.length * (ys.length * xs.length) ≤ BLOCK_COUNT WIDTH HEIGHT DEPTH →
      zs.foldl (fun s pz =>
          ys.foldl (fun s py => xs.foldl (storeBlock WIDTH HEIGHT DEPTH data pz py) s) s)
        (some acc) =
        some (acc ++ (loopOrigins zs ys xs).map (fun o =>
          fingerprintAt WIDTH HEIGHT data (blockStart WIDTH HEIGHT o))) := by
  intro zs
  induction zs with
  | nil => intro acc _ _; simp [loopOrigins]
  | cons pz zs ih =>
    intro acc hin hcap
    simp only [List.length_cons, Nat.add_mul, Nat.one_mul] at hcap
    have hlen := flatMap_map_length ys xs (fun py px =>
      fingerprintAt WIDTH HEIGHT data (blockStart WIDTH HEIGHT (px, py, pz)))
    have hmap : (ys.flatMap (fun py => xs.map (fun px => (px, py, pz)))).map (fun o =>
        fingerprintAt WIDTH HEIGHT data (blockStart WIDTH HEIGHT o)) =
        ys.flatMap (fun py => xs.map (fun px =>
          fingerprintAt WIDTH HEIGHT data (blockStart WIDTH HEIGHT (px, py, pz)))) := by
      rw [List.map_flatMap]
      simp only [List.map_map]
      rfl
    rw [List.foldl_cons,
      storeBlock_rows WIDTH HEIGHT DEPTH data pz xs ys acc
        (hin pz (List.mem_cons_self _ _)) (by omega),
      ih _ (fun pz' h => hin pz' (List.mem_cons_of_mem _ h))
        (by rw [List.length_append, hlen]; omega),
      loopOrigins_cons, List.map_append, hmap, List.append_assoc]

theorem loopOrigins_length (zs ys xs : List Nat) :
    (loopOrigins zs ys xs).length = zs.length * (ys.length * xs.length) := by
  induction zs with
  | nil => simp [loopOrigins]
  | cons z zs ihz =>
    rw [loopOrigins_cons, List.length_append, ihz,
      flatMap_map_length ys xs (fun py px => (px, py, z)), List.length_cons, Nat.add_mul,
      Nat.one_mul, Nat.add_comm]

theorem mem_loopOrigins {zs ys xs : List Nat} {o : Nat × Nat × Nat} :
    o ∈ loopOrigins zs ys xs ↔ o.1 ∈ xs ∧ o.2.1 ∈ ys ∧ o.2.2 ∈ zs := by
  obtain ⟨px, py, pz⟩ := o
  simp only [loopOrigins, List.mem_flatMap, List.mem_map, Prod.mk.injEq]
  constructor
  · rintro ⟨z, hz, y, hy, x, hx, rfl, rfl, rfl⟩
    exact ⟨hx, hy, hz⟩
  · rintro ⟨hx, hy, hz⟩
    exact ⟨pz, hz, py, hy, px, hx, rfl, rfl, rfl⟩

/-! ## The order of the block origins -/

theorem getElem?_flatMap_of_length {α β : Type} (g : α → List β) (b : Nat) (hb : 0 < b) :
    ∀ (l : List α), (∀ a ∈ l, (g a).length = b) →
      ∀ i, (l.flatMap g)[i]? = (l[i / b]?).bind (fun a => (g a)[i % b]?) := by
  intro l
  induction l with
  | nil => intro _ i; simp
  | cons a l ih =>
    intro hg i
    have ha : (g a).length = b := hg a (List.mem_cons_self _ _)
    rw [List.flatMap_cons]
    by_cases hi : i < b
    · rw [List.getElem?_append_left (by omega), Nat.div_eq_of_lt hi, Nat.mod_eq_of_lt hi]
      simp
    · have hle : b ≤ i := Nat.le_of_not_lt hi
      rw [List.getElem?_append_right (by omega), ha,
        ih (fun a' h => hg a' (List.mem_cons_of_mem _ h)) (i - b),
        Nat.div_eq_sub_div hb hle, Nat.mod_eq_sub_mod hle]
      simp

theorem origins_getElem? (DIM k : Nat) (hk : k < DIM / 4) : (origins DIM)[k]? = some (4 * k) := by
  rw [origins_eq, List.getElem?_map, List.getElem?_range hk]
  rfl

theorem blockOrigins_length (WIDTH HEIGHT DEPTH : Nat) :
    (blockOrigins WIDTH HEIGHT DEPTH).length = BLOCK_COUNT WIDTH HEIGHT DEPTH := by
  unfold blockOrigins
  rw [loopOrigins_length, origins_length, origins_length, origins_length]
  unfold BLOCK_COUNT
  rw [Nat.mul_comm (HEIGHT / CUBE_SIZE) (WIDTH / CUBE_SIZE), Nat.mul_comm]

theorem blockOrigins_getElem? (WIDTH HEIGHT DEPTH i : Nat)
    (hi : i < BLOCK_COUNT WIDTH HEIGHT DEPTH) :
    (blockOrigins WIDTH HEIGHT DEPTH)[i]? = some (originOfIndex WIDTH HEIGHT i) := by
  simp only [BLOCK_COUNT, CUBE_SIZE] at hi
  have hxy : 0 < HEIGHT / 4 * (WIDTH / 4) := by
    rcases Nat.eq_zero_or_pos (HEIGHT / 4 * (WIDTH / 4)) with h | h
    · rw [Nat.mul_comm (WIDTH / 4), h] at hi; simp at hi
    · exact h
  have hx : 0 < WIDTH / 4 := Nat.pos_of_mul_pos_left hxy
  have hz : i / (HEIGHT / 4 * (WIDTH / 4)) < DEPTH / 4 := by
    rw [Nat.div_lt_iff_lt_mul hxy, Nat.mul_comm (DEPTH / 4), Nat.mul_comm (HEIGHT / 4)]
    exact hi
  have hy : i % (HEIGHT / 4 * (WIDTH / 4)) / (WIDTH / 4) < HEIGHT / 4 := by
    rw [Nat.div_lt_iff_lt_mul hx]
    exact Nat.mod_lt _ hxy
  have hxm : i % (HEIGHT / 4 * (WIDTH / 4)) % (WIDTH / 4) < WIDTH / 4 := Nat.mod_lt _ hx
  unfold blockOrigins loopOrigins
  rw [getElem?_flatMap_of_length _ (HEIGHT / 4 * (WIDTH / 4)) hxy (origins DEPTH)
      (fun pz _ => by
        rw [flatMap_map_length (origins HEIGHT) (origins WIDTH) (fun py px => (px, py, pz)),
          origins_length, origins_length]; rfl),
    origins_getElem? DEPTH _ hz, Option.some_bind,
    getElem?_flatMap_of_length _ (WIDTH / 4) hx (origins HEIGHT)
      (fun py _ => by rw [List.length_map, origins_length]; rfl),
    origins_getElem? HEIGHT _ hy, Option.some_bind, List.getElem?_map,
    origins_getElem? WIDTH _ hxm, Option.map_some']
  simp only [originOfIndex, Nat.mul_comm (HEIGHT / 4) (WIDTH / 4), Nat.mod_mul_right_mod,
    Nat.mod_mul_right_div_self]

/-! ## The extraction loops on a grid of `WIDTH * HEIGHT * DEPTH` voxels -/

theorem mem_blockOrigins {WIDTH HEIGHT DEPTH : Nat} {o : Nat × Nat × Nat}
    (h : o ∈ blockOrigins WIDTH HEIGHT DEPTH) :
    (o.1 % 4 = 0 ∧ o.1 + 4 ≤ WIDTH) ∧ (o.2.1 % 4 = 0 ∧ o.2.1 + 4 ≤ HEIGHT) ∧
      (o.2.2 % 4 = 0 ∧ o.2.2 + 4 ≤ DEPTH) := by
  obtain ⟨hx, hy, hz⟩ := mem_loopOrigins.mp h
  exact ⟨mem_origins hx, mem_origins hy, mem_origins hz⟩

/-- The extraction loops succeed on every grid of `WIDTH * HEIGHT * DEPTH` voxels and store the
fingerprints of the visited origins, in the order of the visits. -/
theorem extractBlocks_eq (WIDTH HEIGHT DEPTH : Nat) (data : List Nat)
    (hlen : data.length = WIDTH * HEIGHT * DEPTH) :
    extractBlocks WIDTH HEIGHT DEPTH data =
      some ((blockOrigins WIDTH HEIGHT DEPTH).map (fun o =>
        fingerprintAt WIDTH HEIGHT data (blockStart WIDTH HEIGHT o))) := by
  have hcap : ([] : List Nat).length +
      (origins DEPTH).length * ((origins HEIGHT).length * (origins WIDTH).length) ≤
      BLOCK_COUNT WIDTH HEIGHT DEPTH := by
    rw [← loopOrigins_length]
    have := blockOrigins_length WIDTH HEIGHT DEPTH
    unfold blockOrigins at this
    rw [this]
    simp
  have h := storeBlock_layers WIDTH HEIGHT DEPTH data (origins HEIGHT) (origins WIDTH)
    (origins DEPTH) []
    (fun pz hz py hy px hx =>
      origin_inBounds WIDTH HEIGHT DEPTH data hlen
        (mem_origins hx).2 (mem_origins hy).2 (mem_origins hz).2)
    hcap
  simpa [extractBlocks, blockOrigins] using h

theorem linearIndex_originOfIndex (WIDTH HEIGHT i : Nat) :
    linearIndex WIDTH HEIGHT (originOfIndex WIDTH HEIGHT i) = i := by
  simp only [linearIndex, originOfIndex, Nat.mul_div_cancel_left _ (by decide : 0 < 4)]
  conv_rhs =>
    rw [← Nat.mod_add_div i (WIDTH / 4), ← Nat.mod_add_div (i / (WIDTH / 4)) (HEIGHT / 4),
      Nat.div_div_eq_div_mul]
  ring

theorem originOfIndex_linearIndex {WIDTH HEIGHT DEPTH : Nat} {o : Nat × Nat × Nat}
    (h : o ∈ blockOrigins WIDTH HEIGHT DEPTH) :
    originOfIndex WIDTH HEIGHT (linearIndex WIDTH HEIGHT o) = o ∧
      linearIndex WIDTH HEIGHT o < BLOCK_COUNT WIDTH HEIGHT DEPTH := by
  obtain ⟨px, py, pz⟩ := o
  obtain ⟨⟨hx0, hx⟩, ⟨hy0, hy⟩, hz0, hz⟩ := mem_blockOrigins h
  simp only at hx0 hx hy0 hy hz0 hz
  obtain ⟨kx, rfl⟩ : ∃ kx, px = 4 * kx := ⟨px / 4, by omega⟩
  obtain ⟨ky, rfl⟩ : ∃ ky, py = 4 * ky := ⟨py / 4, by omega⟩
  obtain ⟨kz, rfl⟩ : ∃ kz, pz = 4 * kz := ⟨pz / 4, by omega⟩
  have hkx : kx < WIDTH / 4 := by omega
  have hky : ky < HEIGHT / 4 := by omega
  have hkz : kz < DEPTH / 4 := by omega
  have hnx : 0 < WIDTH / 4 := by omega
  have hny : 0 < HEIGHT / 4 := by omega
  simp only [linearIndex, originOfIndex, Nat.mul_div_cancel_left _ (by decide : 0 < 4)]
  have e : kx + ky * (WIDTH / 4) + kz * (WIDTH / 4) * (HEIGHT / 4) =
      kx + (ky + kz * (HEIGHT / 4)) * (WIDTH / 4) := by ring
  have h1 : (kx + (ky + kz * (HEIGHT / 4)) * (WIDTH / 4)) % (WIDTH / 4) = kx := by
    rw [Nat.add_mul_mod_self_right, Nat.mod_eq_of_lt hkx]
  have h2 : (kx + (ky + kz * (HEIGHT / 4)) * (WIDTH / 4)) / (WIDTH / 4) =
      ky + kz * (HEIGHT / 4) := by
    rw [Nat.add_mul_div_right _ _ hnx, Nat.div_eq_of_lt hkx, Nat.zero_add]
  have h3 : (ky + kz * (HEIGHT / 4)) % (HEIGHT / 4) = ky := by
    rw [Nat.add_mul_mod_self_right, Nat.mod_eq_of_lt hky]
  have h4 : (ky + kz * (HEIGHT / 4)) / (HEIGHT / 4) = kz := by
    rw [Nat.add_mul_div_right _ _ hny, Nat.div_eq_of_lt hky, Nat.zero_add]
  constructor
  · rw [e, h1, ← Nat.div_div_eq_div_mul, h2, h3, h4]
  · unfold BLOCK_COUNT CUBE_SIZE
    have hA : kx + ky * (WIDTH / 4) + 1 ≤ (WIDTH / 4) * (HEIGHT / 4) := by
      have : (ky + 1) * (WIDTH / 4) ≤ (HEIGHT / 4) * (WIDTH / 4) := Nat.mul_le_mul_right _ hky
      rw [Nat.add_mul, Nat.one_mul, Nat.mul_comm (HEIGHT / 4)] at this
      omega
    have hB : (kz + 1) * ((WIDTH / 4) * (HEIGHT / 4)) ≤ (DEPTH / 4) * ((WIDTH / 4) * (HEIGHT / 4)) :=
      Nat.mul_le_mul_right _ hkz
    rw [Nat.add_mul, Nat.one_mul, Nat.mul_comm (DEPTH / 4)] at hB
    rw [Nat.mul_assoc kz]
    omega

/-! ## C17: the linear block index -/

/-- C17: for every `WIDTH`, `HEIGHT`, `DEPTH ≥ 4` (cube edge 4) and every grid of
`WIDTH * HEIGHT * DEPTH` voxels, the extraction loops of the sequential and the threaded driver
store exactly `BLOCK_COUNT = (WIDTH/4) (HEIGHT/4) (DEPTH/4) > 0` fingerprints; the fingerprint
of the block with origin `(px, py, pz)` is stored at index
`px/4 + (py/4) (WIDTH/4) + (pz/4) (WIDTH/4) (HEIGHT/4)`; the map from the visited origins to the
indices below `BLOCK_COUNT` is a bijection, and the `i`-th visited origin is the one with `px`
varying fastest. -/
theorem extraction_linear_index (WIDTH HEIGHT DEPTH : Nat)
    (hW : 4 ≤ WIDTH) (hH : 4 ≤ HEIGHT) (hD : 4 ≤ DEPTH)
    (data : List Nat) (hlen : data.length = WIDTH * HEIGHT * DEPTH) :
    ∃ blocks, extractBlocks WIDTH HEIGHT DEPTH data = some blocks ∧
      blocks.length = BLOCK_COUNT WIDTH HEIGHT DEPTH ∧
      BLOCK_COUNT WIDTH HEIGHT DEPTH = (WIDTH / 4) * (HEIGHT / 4) * (DEPTH / 4) ∧
      0 < BLOCK_COUNT WIDTH HEIGHT DEPTH ∧
      (∀ o ∈ blockOrigins WIDTH HEIGHT DEPTH,
        linearIndex WIDTH HEIGHT o < BLOCK_COUNT WIDTH HEIGHT DEPTH ∧
        (blocks[linearIndex WIDTH HEIGHT o]?) =
          extract_block WIDTH HEIGHT data (blockStart WIDTH HEIGHT o)) ∧
      (∀ i, i < BLOCK_COUNT WIDTH HEIGHT DEPTH →
        ∃ o ∈ blockOrigins WIDTH HEIGHT DEPTH, linearIndex WIDTH HEIGHT o = i ∧
          ∀ o' ∈ blockOrigins WIDTH HEIGHT DEPTH, linearIndex WIDTH HEIGHT o' = i → o' = o) ∧
      (∀ i, i < BLOCK_COUNT WIDTH HEIGHT DEPTH →
        (blockOrigins WIDTH HEIGHT DEPTH)[i]? =
          some (4 * (i % (WIDTH / 4)), 4 * (i / (WIDTH / 4) % (HEIGHT / 4)),
            4 * (i / ((WIDTH / 4) * (HEIGHT / 4))))) := by
  have hpos : 0 < BLOCK_COUNT WIDTH HEIGHT DEPTH := by
    unfold BLOCK_COUNT CUBE_SIZE
    have h1 : 0 < WIDTH / 4 := by omega
    have h2 : 0 < HEIGHT / 4 := by omega
    have h3 : 0 < DEPTH / 4 := by omega
    exact Nat.mul_pos (Nat.mul_pos h1 h2) h3
  refine ⟨_, extractBlocks_eq WIDTH HEIGHT DEPTH data hlen, ?_, rfl, hpos, ?_, ?_, ?_⟩
  · rw [List.length_map, blockOrigins_length]
  · intro o ho
    obtain ⟨hinv, hlt⟩ := originOfIndex_linearIndex ho
    obtain ⟨⟨_, hx⟩, ⟨_, hy⟩, _, hz⟩ := mem_blockOrigins ho
    refine ⟨hlt, ?_⟩
    rw [List.getElem?_map, blockOrigins_getElem? _ _ _ _ hlt, hinv, Option.map_some']
    exact (extract_block_eq_fingerprintAt _ _ _ _
      (origin_inBounds WIDTH HEIGHT DEPTH data hlen hx hy hz)).symm
  · intro i hi
    have hget := blockOrigins_getElem? WIDTH HEIGHT DEPTH i hi
    refine ⟨originOfIndex WIDTH HEIGHT i, List.getElem?_mem hget,
      linearIndex_originOfIndex WIDTH HEIGHT i, ?_⟩
    intro o' ho' hidx
    rw [← hidx]
    exact (originOfIndex_linearIndex ho').1.symm
  · intro i hi
    exact blockOrigins_getElem? WIDTH HEIGHT DEPTH i hi

set_option maxRecDepth 100000 in
theorem extraction_linear_index_witness :
    (4 : Nat) ≤ 8 ∧ (4 : Nat) ≤ 4 ∧ twoBlockGrid.length = 8 * 4 * 4 ∧
    blockOrigins 8 4 4 = [(0, 0, 0), (4, 0, 0)] ∧
    ∃ blocks, extractBlocks 8 4 4 twoBlockGrid = some blocks ∧ blocks.length = BLOCK_COUNT 8 4 4 :=
  ⟨by decide, by decide, by decide, by decide,
    (extraction_linear_index 8 4 4 (by decide) (by decide) (by decide) twoBlockGrid
      (by decide)).elim (fun blocks h => ⟨blocks, h.1, h.2.1⟩)⟩

/-! ## C18: the reads and the writes of the extraction loops stay in bounds -/

theorem blockOrigins_offset_lt (WIDTH HEIGHT DEPTH : Nat) {o : Nat × Nat × Nat}
    (ho : o ∈ blockOrigins WIDTH HEIGHT DEPTH) {x y z : Nat} (hx : x < 4) (hy : y < 4)
    (hz : z < 4) :
    blockStart WIDTH HEIGHT o + x + y * WIDTH + z * WIDTH * HEIGHT < WIDTH * HEIGHT * DEPTH := by
  obtain ⟨⟨_, hx'⟩, ⟨_, hy'⟩, _, hz'⟩ := mem_blockOrigins ho
  have hin := origin_inBounds WIDTH HEIGHT DEPTH (List.replicate (WIDTH * HEIGHT * DEPTH) 0)
    (List.length_replicate _ _) hx' hy' hz'
  unfold blockInBounds at hin
  rw [List.length_replicate] at hin
  have h1 : y * WIDTH ≤ 3 * WIDTH := Nat.mul_le_mul_right _ (by omega)
  have h2 : z * WIDTH * HEIGHT ≤ 3 * WIDTH * HEIGHT :=
    Nat.mul_le_mul_right _ (Nat.mul_le_mul_right _ (by omega))
  unfold blockStart
  omega

/-- C18: in the sequential driver (64x64x64) and in the threaded driver (1024x1024x314), for
every block origin visited by the extraction loops and every `(x, y, z)` in `[0,4)^3`, the
offset `start + x + y * WIDTH + z * WIDTH * HEIGHT` read by `extract_block` is below
`WIDTH * HEIGHT * DEPTH`; the loops make `BLOCK_COUNT` writes, the `k`-th at
`blockIndex = k < BLOCK_COUNT`, so that on every grid of that size the extraction has a result
with `BLOCK_COUNT` fingerprints. -/
theorem drivers_stay_in_bounds (o : Nat × Nat × Nat) (x y z : Nat)
    (hx : x < 4) (hy : y < 4) (hz : z < 4) :
    (o ∈ blockOrigins Sequential.WIDTH Sequential.HEIGHT Sequential.DEPTH →
      blockStart Sequential.WIDTH Sequential.HEIGHT o + x + y * Sequential.WIDTH
          + z * Sequential.WIDTH * Sequential.HEIGHT
        < Sequential.WIDTH * Sequential.HEIGHT * Sequential.DEPTH) ∧
    (o ∈ blockOrigins Threaded.WIDTH Threaded.HEIGHT Threaded.DEPTH →
      blockStart Threaded.WIDTH Threaded.HEIGHT o + x + y * Threaded.WIDTH
          + z * Threaded.WIDTH * Threaded.HEIGHT
        < Threaded.WIDTH * Threaded.HEIGHT * Threaded.DEPTH) ∧
    (blockOrigins Sequential.WIDTH Sequential.HEIGHT Sequential.DEPTH).length =
      BLOCK_COUNT Sequential.WIDTH Sequential.HEIGHT Sequential.DEPTH ∧
    (blockOrigins Threaded.WIDTH Threaded.HEIGHT Threaded.DEPTH).length =
      BLOCK_COUNT Threaded.WIDTH Threaded.HEIGHT Threaded.DEPTH ∧
    (∀ data : List Nat,
      data.length = Sequential.WIDTH * Sequential.HEIGHT * Sequential.DEPTH →
      ∃ blocks, extractBlocks Sequential.WIDTH Sequential.HEIGHT Sequential.DEPTH data =
          some blocks ∧
        blocks.length = BLOCK_COUNT Sequential.WIDTH Sequential.HEIGHT Sequential.DEPTH) ∧
    (∀ data : List Nat,
      data.length = Threaded.WIDTH * Threaded.HEIGHT * Threaded.DEPTH →
      ∃ blocks, extractBlocks Threaded.WIDTH Threaded.HEIGHT Threaded.DEPTH data =
          some blocks ∧
        blocks.length = BLOCK_COUNT Threaded.WIDTH Threaded.HEIGHT Threaded.DEPTH) := by
  refine ⟨fun ho => blockOrigins_offset_lt _ _ _ ho hx hy hz,
    fun ho => blockOrigins_offset_lt _ _ _ ho hx hy hz,
    blockOrigins_length _ _ _, blockOrigins_length _ _ _, ?_, ?_⟩
  · intro data hlen
    exact ⟨_, extractBlocks_eq _ _ _ data hlen, by rw [List.length_map, blockOrigins_length]⟩
  · intro data hlen
    exact ⟨_, extractBlocks_eq _ _ _ data hlen, by rw [List.length_map, blockOrigins_length]⟩

theorem drivers_stay_in_bounds_witness :
    (3 : Nat) < 4 ∧
    (60, 60, 60) ∈ blockOrigins Sequential.WIDTH Sequential.HEIGHT Sequential.DEPTH ∧
    blockStart Sequential.WIDTH Sequential.HEIGHT (60, 60, 60) + 3 + 3 * Sequential.WIDTH
        + 3 * Sequential.WIDTH * Sequential.HEIGHT = 262143 ∧
    blockStart Sequential.WIDTH Sequential.HEIGHT (60, 60, 60) + 3 + 3 * Sequential.WIDTH
        + 3 * Sequential.WIDTH * Sequential.HEIGHT
      < Sequential.WIDTH * Sequential.HEIGHT * Sequential.DEPTH :=
  ⟨by decide, mem_loopOrigins.mpr ⟨by decide, by decide, by decide⟩, by decide,
    (drivers_stay_in_bounds (60, 60, 60) 3 3 3 (by decide) (by decide) (by decide)).1
      (mem_loopOrigins.mpr ⟨by decide, by decide, by decide⟩)⟩

/-! ## The voxels outside the whole blocks -/

theorem fingerprintAt_congr (WIDTH HEIGHT : Nat) (data₁ data₂ : List Nat) (start : Nat)
    (h₁ : blockInBounds WIDTH HEIGHT data₁ start) (h₂ : blockInBounds WIDTH HEIGHT data₂ start)
    (hv : ∀ i, i < 64 → data₁.getD (voxelOffset WIDTH HEIGHT start i) 0 =
      data₂.getD (voxelOffset WIDTH HEIGHT start i) 0) :
    fingerprintAt WIDTH HEIGHT data₁ start = fingerprintAt WIDTH HEIGHT data₂ start := by
  obtain ⟨b₁, hb₁, hbits₁⟩ := extract_block_spec WIDTH HEIGHT data₁ start h₁
  obtain ⟨b₂, hb₂, hbits₂⟩ := extract_block_spec WIDTH HEIGHT data₂ start h₂
  have hfp₁ : fingerprintAt WIDTH HEIGHT data₁ start = b₁ := by simp [fingerprintAt, hb₁]
  have hfp₂ : fingerprintAt WIDTH HEIGHT data₂ start = b₂ := by simp [fingerprintAt, hb₂]
  rw [hfp₁, hfp₂]
  apply Nat.eq_of_testBit_eq
  intro i
  have hiff : b₁.testBit i = true ↔ b₂.testBit i = true := by
    rw [hbits₁ i, hbits₂ i]
    constructor
    · rintro ⟨hi, h⟩
      exact ⟨hi, by rwa [← hv i hi]⟩
    · rintro ⟨hi, h⟩
      exact ⟨hi, by rwa [hv i hi]⟩
  cases h1 : b₁.testBit i <;> cases h2 : b₂.testBit i <;> simp_all

/-- Two grids that agree on the voxels `(x, y, z)` with `x < 4 (WIDTH/4)`, `y < 4 (HEIGHT/4)`,
`z < 4 (DEPTH/4)` give the same list of fingerprints. -/
theorem extractBlocks_congr (WIDTH HEIGHT DEPTH : Nat) (data₁ data₂ : List Nat)
    (h₁ : data₁.length = WIDTH * HEIGHT * DEPTH) (h₂ : data₂.length = WIDTH * HEIGHT * DEPTH)
    (hagree : ∀ x y z, x < 4 * (WIDTH / 4) → y < 4 * (HEIGHT / 4) → z < 4 * (DEPTH / 4) →
      data₁.getD (x + y * WIDTH + z * WIDTH * HEIGHT) 0 =
        data₂.getD (x + y * WIDTH + z * WIDTH * HEIGHT) 0) :
    extractBlocks WIDTH HEIGHT DEPTH data₁ = extractBlocks WIDTH HEIGHT DEPTH data₂ := by
  rw [extractBlocks_eq _ _ _ data₁ h₁, extractBlocks_eq _ _ _ data₂ h₂]
  apply congrArg some
  apply List.map_congr_left
  intro o ho
  obtain ⟨⟨hx0, hx⟩, ⟨hy0, hy⟩, hz0, hz⟩ := mem_blockOrigins ho
  apply fingerprintAt_congr
  · exact origin_inBounds WIDTH HEIGHT DEPTH data₁ h₁ hx hy hz
  · exact origin_inBounds WIDTH HEIGHT DEPTH data₂ h₂ hx hy hz
  · intro i hi
    have e : voxelOffset WIDTH HEIGHT (blockStart WIDTH HEIGHT o) i =
        (o.1 + i % 4) + (o.2.1 + i / 4 % 4) * WIDTH + (o.2.2 + i / 16) * WIDTH * HEIGHT := by
      unfold voxelOffset blockStart
      ring
    rw [e]
    exact hagree _ _ _ (by omega) (by omega) (by omega)

/-! ## C11: a dimension that is not a multiple of the cube edge -/

theorem getD_zeros_append (a : Nat) (l : List Nat) (i : Nat) (hi : i < a) :
    (List.replicate a 0 ++ l).getD i 0 = 0 := by
  rw [List.getD_eq_getElem?_getD, List.getElem?_append_left (by simpa using hi),
    List.getElem?_eq_getElem (by simpa using hi)]
  simp

theorem getD_zeroGrid (size i : Nat) : (zeroGrid size).getD i 0 = 0 := by
  unfold zeroGrid
  rw [List.getD_eq_getElem?_getD]
  by_cases hlt : i < size
  · rw [List.getElem?_eq_getElem (by simpa using hlt)]
    simp
  · rw [List.getElem?_eq_none (by simpa using hlt)]
    rfl

/-- C11 fails as stated: the threaded program is compiled with `DEPTH = 314`, not a multiple
of `CUBE_SIZE = 4`, and nothing rejects it.  On the grid whose 312 first layers are 0 and whose
two trailing layers are 1, the extraction completes with 5,111,808 fingerprints, all 0 (the
trailing voxels are in no block), and the run ends with a pair count. -/
theorem indivisible_depth_not_rejected :
    Threaded.DEPTH % CUBE_SIZE ≠ 0 ∧
    trailingOnesGrid.length = Threaded.WIDTH * Threaded.HEIGHT * Threaded.DEPTH ∧
    extractBlocks Threaded.WIDTH Threaded.HEIGHT Threaded.DEPTH trailingOnesGrid =
      some (List.replicate 5111808 0) ∧
    threadedTotalIs exactInt (List.replicate 5111808 0) Threaded.NUM_THREADS
      13065287958528 := by
  have hlen : trailingOnesGrid.length = Threaded.WIDTH * Threaded.HEIGHT * Threaded.DEPTH := by
    rw [trailingOnesGrid, List.length_append, List.length_replicate, List.length_replicate]
    decide
  have hbc : BLOCK_COUNT Threaded.WIDTH Threaded.HEIGHT Threaded.DEPTH = 5111808 := by decide
  refine ⟨by decide, hlen, ?_, ?_⟩
  · rw [extractBlocks_congr Threaded.WIDTH Threaded.HEIGHT Threaded.DEPTH trailingOnesGrid
        (zeroGrid (Threaded.WIDTH * Threaded.HEIGHT * Threaded.DEPTH)) hlen
        (by simp [zeroGrid]) ?_, extractBlocks_zeroGrid, hbc]
    intro x y z hx hy hz
    rw [getD_zeroGrid, trailingOnesGrid]
    apply getD_zeros_append
    simp only [Threaded.WIDTH, Threaded.HEIGHT, Threaded.DEPTH] at hx hy hz ⊢
    omega
  · have h := threaded_total_eq_sequential exactInt_reading (List.replicate 5111808 0)
      Threaded.NUM_THREADS (by decide)
    rw [sequentialTotal_eq exactInt_reading, duplicatePairs_replicate] at h
    exact h

/-- C11 as amended: no configuration is rejected.  For every `WIDTH`, `HEIGHT`, `DEPTH` and
every grid of `WIDTH * HEIGHT * DEPTH` voxels the extraction completes with
`(WIDTH/4) (HEIGHT/4) (DEPTH/4)` fingerprints and the sequential run ends with a pair count;
only the voxels `(x, y, z)` with `x < 4 (WIDTH/4)`, `y < 4 (HEIGHT/4)`, `z < 4 (DEPTH/4)` are
in a block: two grids that agree on them give the same fingerprints and the same pair count,
whatever the voxels of the trailing partial layers. -/
theorem partial_layers_left_out (WIDTH HEIGHT DEPTH : Nat) (data₁ data₂ : List Nat)
    (h₁ : data₁.length = WIDTH * HEIGHT * DEPTH) (h₂ : data₂.length = WIDTH * HEIGHT * DEPTH)
    (hagree : ∀ x, x < 4 * (WIDTH / 4) → ∀ y, y < 4 * (HEIGHT / 4) →
      ∀ z, z < 4 * (DEPTH / 4) →
        data₁.getD (x + y * WIDTH + z * WIDTH * HEIGHT) 0 =
          data₂.getD (x + y * WIDTH + z * WIDTH * HEIGHT) 0) :
    ∃ blocks, extractBlocks WIDTH HEIGHT DEPTH data₁ = some blocks ∧
      extractBlocks WIDTH HEIGHT DEPTH data₂ = some blocks ∧
      blocks.length = (WIDTH / 4) * (HEIGHT / 4) * (DEPTH / 4) ∧
      sequentialMain exactInt WIDTH HEIGHT DEPTH data₁ =
        some (sequentialTotal exactInt blocks) ∧
      sequentialMain exactInt WIDTH HEIGHT DEPTH data₂ =
        some (sequentialTotal exactInt blocks) := by
  have hc := extractBlocks_congr WIDTH HEIGHT DEPTH data₁ data₂ h₁ h₂
    (fun x y z hx hy hz => hagree x hx y hy z hz)
  have he := extractBlocks_eq WIDTH HEIGHT DEPTH data₁ h₁
  refine ⟨_, he, by rw [← hc, he], ?_, ?_, ?_⟩
  · rw [List.length_map, blockOrigins_length]; rfl
  · rw [sequentialMain, he]; rfl
  · rw [sequentialMain, ← hc, he]; rfl

theorem partial_layers_left_out_witness :
    smallZeroGrid.length = 4 * 4 * 6 ∧ smallTrailingGrid.length = 4 * 4 * 6 ∧
    smallZeroGrid ≠ smallTrailingGrid ∧
    extractBlocks 4 4 6 smallTrailingGrid = some [0] ∧
    ∃ blocks, extractBlocks 4 4 6 smallZeroGrid = some blocks ∧
      extractBlocks 4 4 6 smallTrailingGrid = some blocks ∧
      blocks.length = (4 / 4) * (4 / 4) * (6 / 4) :=
  ⟨by decide, by decide, by decide, by decide,
    (partial_layers_left_out 4 4 6 smallZeroGrid smallTrailingGrid (by decide) (by decide)
      (by decide)).elim (fun blocks h => ⟨blocks, h.1, h.2.1, h.2.2.1⟩)⟩

/-! ## The extraction loops when a read fails -/

theorem packVoxel_fold_none (data : List Nat) (offs : List Nat) :
    offs.foldl (packVoxel data) none = none := by
  induction offs with
  | nil => rfl
  | cons o offs ih => rw [List.foldl_cons]; exact ih

theorem extract_block_none (WIDTH HEIGHT : Nat) (data : List Nat) (start : Nat)
    (hge : data.length ≤ start) : extract_block WIDTH HEIGHT data start = none := by
  have hr : List.range 64 = 0 :: (List.range 63).map Nat.succ := List.range_succ_eq_map 63
  have h0 : voxelOffset WIDTH HEIGHT start 0 = start := by simp [voxelOffset]
  have hp : packVoxel data (some (0, 0)) start = none := by
    simp only [packVoxel, List.getElem?_eq_none hge]
  rw [extract_block_flat, hr, List.map_cons, List.foldl_cons, h0, hp, packVoxel_fold_none]
  rfl

theorem storeBlock_fold_none (WIDTH HEIGHT DEPTH : Nat) (data : List Nat) (pz py : Nat)
    (xs : List Nat) : xs.foldl (storeBlock WIDTH HEIGHT DEPTH data pz py) none = none := by
  induction xs with
  | nil => rfl
  | cons x xs ih => rw [List.foldl_cons]; exact ih

theorem storeBlock_rows_none (WIDTH HEIGHT DEPTH : Nat) (data : List Nat) (pz : Nat)
    (ys xs : List Nat) :
    ys.foldl (fun s py => xs.foldl (storeBlock WIDTH HEIGHT DEPTH data pz py) s) none = none := by
  induction ys with
  | nil => rfl
  | cons y ys ih => rw [List.foldl_cons, storeBlock_fold_none]; exact ih

theorem storeBlock_of_read_none (WIDTH HEIGHT DEPTH : Nat) (data : List Nat) (pz py px : Nat)
    (s : Option (List Nat))
    (h : extract_block WIDTH HEIGHT data (px + py * WIDTH + pz * WIDTH * HEIGHT) = none) :
    storeBlock WIDTH HEIGHT DEPTH data pz py s px = none := by
  cases s with
  | none => rfl
  | some blocks =>
    simp only [storeBlock, h]
    split <;> rfl

/-- A layer `pz` whose blocks start beyond the buffer leaves the extraction without result. -/
theorem layer_beyond_buffer (WIDTH HEIGHT DEPTH : Nat) (data : List Nat) (pz : Nat)
    (hW : 4 ≤ WIDTH) (hH : 4 ≤ HEIGHT) (hge : data.length ≤ pz * WIDTH * HEIGHT)
    (s : Option (List Nat)) :
    (origins HEIGHT).foldl (fun s py =>
      (origins WIDTH).foldl (storeBlock WIDTH HEIGHT DEPTH data pz py) s) s = none := by
  obtain ⟨y, ys, hy⟩ : ∃ y ys, origins HEIGHT = y :: ys := by
    cases h : origins HEIGHT with
    | nil =>
      have := origins_length HEIGHT
      rw [h] at this
      simp only [List.length_nil, CUBE_SIZE] at this
      omega
    | cons y ys => exact ⟨y, ys, rfl⟩
  obtain ⟨x, xs, hx⟩ : ∃ x xs, origins WIDTH = x :: xs := by
    cases h : origins WIDTH with
    | nil =>
      have := origins_length WIDTH
      rw [h] at this
      simp only [List.length_nil, CUBE_SIZE] at this
      omega
    | cons x xs => exact ⟨x, xs, rfl⟩
  rw [hy, hx, List.foldl_cons, List.foldl_cons,
    storeBlock_of_read_none _ _ _ _ _ _ _ _
      (extract_block_none _ _ _ _ (by omega)),
    storeBlock_fold_none]
  rw [← hx]
  exact storeBlock_rows_none _ _ _ _ _ _ _

/-! ## The block start of the distributed program -/

theorem rankBlockStart_eq (px py pz : Nat) (hx : px < 1024) (hy : py < 1024)
    (hz : pz % 4096 < 2048) :
    rankBlockStart 1024 1024 px py pz = px + py * 1024 + (pz % 4096) * 1024 * 1024 := by
  unfold rankBlockStart toSizeT int32
  push_cast
  omega

theorem rankBlockStart_ge (px py pz : Nat) (hx : px < 1024) (hy : py < 1024)
    (hz : 2048 ≤ pz % 4096) :
    18446744071562067968 ≤ rankBlockStart 1024 1024 px py pz := by
  unfold rankBlockStart toSizeT int32
  push_cast
  omega

/-! ## The number of fingerprints the nested loops of a rank store -/

theorem foldl_length_of_step (BC k : Nat) (step : Option (List Nat) → Nat → Option (List Nat))
    (hstep : ∀ s x r, step s x = some r →
      ∃ acc, s = some acc ∧ r.length = acc.length + k ∧ (acc.length ≤ BC → r.length ≤ BC)) :
    ∀ (xs : List Nat) (s : Option (List Nat)) (r : List Nat), xs.foldl step s = some r →
      ∃ acc, s = some acc ∧ r.length = acc.length + xs.length * k ∧
        (acc.length ≤ BC → r.length ≤ BC) := by
  intro xs
  induction xs with
  | nil =>
    intro s r h
    exact ⟨r, h, by simp, fun hle => hle⟩
  | cons x xs ih =>
    intro s r h
    rw [List.foldl_cons] at h
    obtain ⟨acc', h1, h2, h3⟩ := ih _ r h
    obtain ⟨acc, h4, h5, h6⟩ := hstep s x acc' h1
    refine ⟨acc, h4, ?_, fun hle => h3 (h6 hle)⟩
    rw [h2, h5, List.length_cons, Nat.add_mul, Nat.one_mul]
    omega

theorem rankStoreBlock_some {WIDTH HEIGHT DEPTH : Nat} {data : List Nat} {pz py px : Nat}
    {s : Option (List Nat)} {r : List Nat}
    (h : rankStoreBlock WIDTH HEIGHT DEPTH data pz py s px = some r) :
    ∃ acc, s = some acc ∧ r.length = acc.length + 1 ∧
      (acc.length ≤ BLOCK_COUNT WIDTH HEIGHT DEPTH → r.length ≤ BLOCK_COUNT WIDTH HEIGHT DEPTH) := by
  cases s with
  | none => simp [rankStoreBlock] at h
  | some acc =>
    simp only [rankStoreBlock] at h
    split at h
    · rename_i hlt
      cases hb : extract_block WIDTH HEIGHT data (rankBlockStart WIDTH HEIGHT px py pz) with
      | none => rw [hb] at h; cases h
      | some b =>
        rw [hb] at h
        simp only [Option.some.injEq] at h
        have hl : r.length = acc.length + 1 := by rw [← h]; simp
        exact ⟨acc, rfl, hl, fun _ => by omega⟩
    · cases h

theorem rankLayers_length (BC P rank : Nat) :
    (rankLayers BC P rank).length = endBlock BC P rank - startBlock BC P rank := by
  simp [rankLayers]

theorem rankOrigins_length (WIDTH HEIGHT DEPTH P rank : Nat) :
    (rankOrigins WIDTH HEIGHT DEPTH P rank).length =
      (endBlock (BLOCK_COUNT WIDTH HEIGHT DEPTH) P rank -
        startBlock (BLOCK_COUNT WIDTH HEIGHT DEPTH) P rank) * ((HEIGHT / 4) * (WIDTH / 4)) := by
  unfold rankOrigins
  rw [loopOrigins_length, rankLayers_length, origins_length, origins_length]
  rfl

/-- A rank whose extraction has a result stored one fingerprint per visited origin, and no more
than the `BLOCK_COUNT` entries of `blocks`. -/
theorem rankExtractBlocks_length (WIDTH HEIGHT DEPTH P rank : Nat) (data blocks : List Nat)
    (h : rankExtractBlocks WIDTH HEIGHT DEPTH P rank data = some blocks) :
    blocks.length = (rankOrigins WIDTH HEIGHT DEPTH P rank).length ∧
      blocks.length ≤ BLOCK_COUNT WIDTH HEIGHT DEPTH := by
  have hinner : ∀ pz py, ∀ s x r,
      rankStoreBlock WIDTH HEIGHT DEPTH data pz py s x = some r →
      ∃ acc, s = some acc ∧ r.length = acc.length + 1 ∧
        (acc.length ≤ BLOCK_COUNT WIDTH HEIGHT DEPTH →
          r.length ≤ BLOCK_COUNT WIDTH HEIGHT DEPTH) :=
    fun pz py s x r hr => rankStoreBlock_some hr
  have hrow : ∀ pz, ∀ s py r,
      (origins WIDTH).foldl (rankStoreBlock WIDTH HEIGHT DEPTH data pz py) s = some r →
      ∃ acc, s = some acc ∧ r.length = acc.length + (origins WIDTH).length * 1 ∧
        (acc.length ≤ BLOCK_COUNT WIDTH HEIGHT DEPTH →
          r.length ≤ BLOCK_COUNT WIDTH HEIGHT DEPTH) :=
    fun pz s py r hr => foldl_length_of_step _ 1 _ (hinner pz py) _ s r hr
  have hlayer : ∀ s pz r,
      (origins HEIGHT).foldl (fun s py =>
        (origins WIDTH).foldl (rankStoreBlock WIDTH HEIGHT DEPTH data pz py) s) s = some r →
      ∃ acc, s = some acc ∧
        r.length = acc.length + (origins HEIGHT).length * ((origins WIDTH).length * 1) ∧
        (acc.length ≤ BLOCK_COUNT WIDTH HEIGHT DEPTH →
          r.length ≤ BLOCK_COUNT WIDTH HEIGHT DEPTH) :=
    fun s pz r hr => foldl_length_of_step _ _ _ (hrow pz) _ s r hr
  obtain ⟨acc, h1, h2, h3⟩ := foldl_length_of_step _ _ _ hlayer _ _ _ h
  simp only [Option.some.injEq] at h1
  subst h1
  refine ⟨?_, h3 (Nat.zero_le _)⟩
  rw [h2, rankOrigins, loopOrigins_length]
  simp

/-- A rank that visits more origins than `blocks` has entries writes past the array. -/
theorem rankExtractBlocks_overflow (WIDTH HEIGHT DEPTH P rank : Nat) (data : List Nat)
    (h : BLOCK_COUNT WIDTH HEIGHT DEPTH < (rankOrigins WIDTH HEIGHT DEPTH P rank).length) :
    rankExtractBlocks WIDTH HEIGHT DEPTH P rank data = none := by
  cases hr : rankExtractBlocks WIDTH HEIGHT DEPTH P rank data with
  | none => rfl
  | some blocks =>
    obtain ⟨h1, h2⟩ := rankExtractBlocks_length _ _ _ _ _ _ _ hr
    omega

/-! ## The block starts of a rank inside and outside the volume -/

theorem rankStoreBlock_eq_storeBlock (data : List Nat) (pz py px : Nat)
    (s : Option (List Nat)) (hx : px < 1024) (hy : py < 1024) (hz : pz % 4096 < 2048) :
    rankStoreBlock Distributed.WIDTH Distributed.HEIGHT Distributed.DEPTH data pz py s px =
      storeBlock Distributed.WIDTH Distributed.HEIGHT Distributed.DEPTH data (pz % 4096) py
        s px := by
  have h : rankBlockStart Distributed.WIDTH Distributed.HEIGHT px py pz =
      px + py * Distributed.WIDTH + pz % 4096 * Distributed.WIDTH * Distributed.HEIGHT :=
    rankBlockStart_eq px py pz hx hy hz
  unfold rankStoreBlock storeBlock
  rw [h]

theorem rank_layer_eq (data : List Nat) (pz : Nat) (hz : pz % 4096 < 2048)
    (s : Option (List Nat)) :
    (origins Distributed.HEIGHT).foldl (fun s py =>
      (origins Distributed.WIDTH).foldl
        (rankStoreBlock Distributed.WIDTH Distributed.HEIGHT Distributed.DEPTH data pz py) s) s =
    (origins Distributed.HEIGHT).foldl (fun s py =>
      (origins Distributed.WIDTH).foldl
        (storeBlock Distributed.WIDTH Distributed.HEIGHT Distributed.DEPTH data (pz % 4096) py)
        s) s := by
  apply List.foldl_ext
  intro s' py hpy
  apply List.foldl_ext
  intro s'' px hpx
  have hx := (mem_origins hpx).2
  have hy := (mem_origins hpy).2
  simp only [Distributed.WIDTH, Distributed.HEIGHT] at hx hy
  exact rankStoreBlock_eq_storeBlock data pz py px s'' (by omega) (by omega) hz

theorem rank_layers_eq (data : List Nat) :
    ∀ (zs : List Nat) (s : Option (List Nat)), (∀ pz ∈ zs, pz % 4096 < 2048) →
      zs.foldl (fun s pz =>
        (origins Distributed.HEIGHT).foldl (fun s py =>
          (origins Distributed.WIDTH).foldl
            (rankStoreBlock Distributed.WIDTH Distributed.HEIGHT Distributed.DEPTH data pz py)
            s) s) s =
      (zs.map (fun pz => pz % 4096)).foldl (fun s pz =>
        (origins Distributed.HEIGHT).foldl (fun s py =>
          (origins Distributed.WIDTH).foldl
            (storeBlock Distributed.WIDTH Distributed.HEIGHT Distributed.DEPTH data pz py)
            s) s) s := by
  intro zs
  induction zs with
  | nil => intro s _; simp only [List.foldl_nil, List.map_nil]
  | cons z zs ih =>
    intro s hz
    rw [List.foldl_cons, List.map_cons, List.foldl_cons,
      rank_layer_eq data z (hz z (List.mem_cons_self _ _)) s,
      ih _ (fun pz h => hz pz (List.mem_cons_of_mem _ h))]

theorem mem_rankLayers {BC P rank pz : Nat} (h : pz ∈ rankLayers BC P rank) :
    startBlock BC P rank ≤ pz ∧ pz < endBlock BC P rank := by
  simp only [rankLayers, List.mem_range'_1] at h
  omega

/-- A rank with at most 78 layers, all of whose block starts land inside the volume once the
`int` arithmetic has wrapped, completes its extraction on every grid and stores
`65536 (endBlock - startBlock)` fingerprints. -/
theorem rankExtractBlocks_completes (P rank : Nat) (data : List Nat)
    (hlen : data.length = Distributed.WIDTH * Distributed.HEIGHT * Distributed.DEPTH)
    (hn : endBlock 5111808 P rank - startBlock 5111808 P rank ≤ 78)
    (hz : ∀ pz, startBlock 5111808 P rank ≤ pz → pz < endBlock 5111808 P rank →
      pz % 4096 + 4 ≤ Distributed.DEPTH) :
    ∃ blocks,
      rankExtractBlocks Distributed.WIDTH Distributed.HEIGHT Distributed.DEPTH P rank data
        = some blocks ∧
      blocks.length = (endBlock 5111808 P rank - startBlock 5111808 P rank) * 65536 := by
  have hbc : BLOCK_COUNT Distributed.WIDTH Distributed.HEIGHT Distributed.DEPTH = 5111808 := by
    decide
  have hzs : ∀ pz ∈ rankLayers 5111808 P rank, pz % 4096 + 4 ≤ Distributed.DEPTH :=
    fun pz hpz => hz pz (mem_rankLayers hpz).1 (mem_rankLayers hpz).2
  have hD : Distributed.DEPTH = 314 := rfl
  have hfold := rank_layers_eq data (rankLayers 5111808 P rank) (some [])
    (fun pz hpz => by have := hzs pz hpz; omega)
  have hstore := storeBlock_layers Distributed.WIDTH Distributed.HEIGHT Distributed.DEPTH data
    (origins Distributed.HEIGHT) (origins Distributed.WIDTH)
    ((rankLayers 5111808 P rank).map (fun pz => pz % 4096)) []
    (fun pz hpz py hpy px hpx => by
      obtain ⟨z, hzmem, rfl⟩ := List.mem_map.mp hpz
      exact origin_inBounds _ _ Distributed.DEPTH data hlen
        (mem_origins hpx).2 (mem_origins hpy).2 (hzs z hzmem))
    (by
      rw [List.length_map, rankLayers_length, origins_length, origins_length, hbc]
      have h1 : Distributed.HEIGHT / CUBE_SIZE * (Distributed.WIDTH / CUBE_SIZE) = 65536 := by
        decide
      rw [h1]
      simp only [List.length_nil]
      omega)
  refine ⟨(loopOrigins ((rankLayers 5111808 P rank).map (fun pz => pz % 4096))
      (origins Distributed.HEIGHT) (origins Distributed.WIDTH)).map (fun o =>
        fingerprintAt Distributed.WIDTH Distributed.HEIGHT data
          (blockStart Distributed.WIDTH Distributed.HEIGHT o)), ?_, ?_⟩
  · unfold rankExtractBlocks
    rw [hbc, hfold, hstore]
    rfl
  · rw [List.length_map, loopOrigins_length, List.length_map, rankLayers_length,
      origins_length, origins_length]
    rfl

/-! ## A layer of a rank whose blocks start outside the buffer -/

theorem rankStoreBlock_fold_none (WIDTH HEIGHT DEPTH : Nat) (data : List Nat) (pz py : Nat)
    (xs : List Nat) : xs.foldl (rankStoreBlock WIDTH HEIGHT DEPTH data pz py) none = none := by
  induction xs with
  | nil => rfl
  | cons x xs ih => rw [List.foldl_cons]; exact ih

theorem rankStoreBlock_rows_none (WIDTH HEIGHT DEPTH : Nat) (data : List Nat) (pz : Nat)
    (ys xs : List Nat) :
    ys.foldl (fun s py => xs.foldl (rankStoreBlock WIDTH HEIGHT DEPTH data pz py) s) none
      = none := by
  induction ys with
  | nil => rfl
  | cons y ys ih => rw [List.foldl_cons, rankStoreBlock_fold_none]; exact ih

theorem rankStoreBlock_of_read_none (WIDTH HEIGHT DEPTH : Nat) (data : List Nat)
    (pz py px : Nat) (s : Option (List Nat))
    (h : extract_block WIDTH HEIGHT data (rankBlockStart WIDTH HEIGHT px py pz) = none) :
    rankStoreBlock WIDTH HEIGHT DEPTH data pz py s px = none := by
  cases s with
  | none => rfl
  | some blocks =>
    simp only [rankStoreBlock, h]
    split <;> rfl

/-- A layer `pz` whose `int` block start is negative: converted to `size_t` it is at least
`2^64 - 2^31`, beyond the buffer, and the extraction is left without result. -/
theorem rank_layer_beyond_buffer (data : List Nat) (pz : Nat)
    (hge : data.length ≤ 18446744071562067968) (hz : 2048 ≤ pz % 4096)
    (s : Option (List Nat)) :
    (origins Distributed.HEIGHT).foldl (fun s py =>
      (origins Distributed.WIDTH).foldl
        (rankStoreBlock Distributed.WIDTH Distributed.HEIGHT Distributed.DEPTH data pz py) s) s
      = none := by
  obtain ⟨y, ys, hy⟩ : ∃ y ys, origins Distributed.HEIGHT = y :: ys := by
    cases h : origins Distributed.HEIGHT with
    | nil =>
      have := origins_length Distributed.HEIGHT
      rw [h] at this
      exact absurd this (by decide)
    | cons y ys => exact ⟨y, ys, rfl⟩
  obtain ⟨x, xs, hx⟩ : ∃ x xs, origins Distributed.WIDTH = x :: xs := by
    cases h : origins Distributed.WIDTH with
    | nil =>
      have := origins_length Distributed.WIDTH
      rw [h] at this
      exact absurd this (by decide)
    | cons x xs => exact ⟨x, xs, rfl⟩
  have hxm : x + 4 ≤ Distributed.WIDTH := (mem_origins (by rw [hx]; exact List.mem_cons_self _ _)).2
  have hym : y + 4 ≤ Distributed.HEIGHT :=
    (mem_origins (by rw [hy]; exact List.mem_cons_self _ _)).2
  simp only [Distributed.WIDTH, Distributed.HEIGHT] at hxm hym
  have hstart : 18446744071562067968 ≤
      rankBlockStart Distributed.WIDTH Distributed.HEIGHT x y pz :=
    rankBlockStart_ge x y pz (by omega) (by omega) hz
  rw [hy, hx, List.foldl_cons, List.foldl_cons,
    rankStoreBlock_of_read_none _ _ _ _ _ _ _ _
      (extract_block_none _ _ _ _ (le_trans hge hstart)),
    rankStoreBlock_fold_none]
  rw [← hx]
  exact rankStoreBlock_rows_none _ _ _ _ _ _ _

/-! ## The last rank of the distributed program -/

theorem startBlock_last_lt (BC P : Nat) (hBC : 0 < BC) (hP : 1 ≤ P) :
    startBlock BC P (P - 1) < BC := by
  unfold startBlock blocksPerProcess
  have h2 := Nat.div_add_mod BC P
  have h1 : (P - 1) * (BC / P) + BC / P = P * (BC / P) := by
    obtain ⟨k, rfl⟩ : ∃ k, P = k + 1 := ⟨P - 1, by omega⟩
    rw [Nat.add_sub_cancel, Nat.add_mul, Nat.one_mul]
  rcases Nat.eq_zero_or_pos (BC / P) with h0 | h0
  · rw [h0, Nat.mul_zero]; exact hBC
  · generalize BC / P = q at h1 h2 h0 ⊢
    generalize BC % P = r at h2
    generalize (P - 1) * q = a at h1 ⊢
    generalize P * q = b at h1 h2
    omega

theorem endBlock_last (BC P : Nat) : endBlock BC P (P - 1) = BC := by
  unfold endBlock
  rw [if_pos rfl]

/-- In the distributed program the last rank always runs `pz` up to `BLOCK_COUNT - 1`, whose
`int` block start is negative: its extraction has no result, whatever the number of processes
and the grid. -/
theorem last_rank_out_of_bounds (P : Nat) (hP : 1 ≤ P) (data : List Nat)
    (hlen : data.length = Distributed.WIDTH * Distributed.HEIGHT * Distributed.DEPTH) :
    rankExtractBlocks Distributed.WIDTH Distributed.HEIGHT Distributed.DEPTH P (P - 1) data
      = none := by
  have hbc : BLOCK_COUNT Distributed.WIDTH Distributed.HEIGHT Distributed.DEPTH = 5111808 := by
    decide
  have hs := startBlock_last_lt 5111808 P (by decide) hP
  obtain ⟨c, hc⟩ : ∃ c, 5111808 - startBlock 5111808 P (P - 1) = c + 1 :=
    ⟨5111808 - startBlock 5111808 P (P - 1) - 1, by omega⟩
  unfold rankExtractBlocks rankLayers
  rw [hbc, endBlock_last, hc, List.range'_concat, List.foldl_append, List.foldl_cons,
    List.foldl_nil]
  apply rank_layer_beyond_buffer
  · rw [hlen]
    decide
  · omega

theorem zero_mem_origins (DIM : Nat) (h : 4 ≤ DIM) : 0 ∈ origins DIM := by
  rw [origins_eq]
  exact List.mem_map.mpr ⟨0, List.mem_range.mpr (by omega), rfl⟩

/-! ## C14: the origins handed to `extract_block` by the distributed program -/

/-- C14 (violated by the code): with a single process, rank 0 of the distributed program runs
`pz` over `0, 1, ..., BLOCK_COUNT - 1` in steps of 1.  It hands `extract_block` origins whose
`pz` is not a multiple of 4 (`pz = 1`) or with `pz + 4 > DEPTH` (`pz = 311`), it visits
`5111808 * 65536` origins for a `blocks` array of `BLOCK_COUNT = 5111808` entries, and its
extraction has no result: it leaves the buffers. -/
theorem single_process_out_of_bounds :
    BLOCK_COUNT Distributed.WIDTH Distributed.HEIGHT Distributed.DEPTH = 5111808 ∧
    (0, 0, 1) ∈ rankOrigins Distributed.WIDTH Distributed.HEIGHT Distributed.DEPTH 1 0 ∧
    (0, 0, 311) ∈ rankOrigins Distributed.WIDTH Distributed.HEIGHT Distributed.DEPTH 1 0 ∧
    ¬ (311 + 4 ≤ Distributed.DEPTH) ∧
    (rankOrigins Distributed.WIDTH Distributed.HEIGHT Distributed.DEPTH 1 0).length =
      5111808 * 65536 ∧
    rankExtractBlocks Distributed.WIDTH Distributed.HEIGHT Distributed.DEPTH 1 0
      (zeroGrid (Distributed.WIDTH * Distributed.HEIGHT * Distributed.DEPTH)) = none := by
  have hbc : BLOCK_COUNT Distributed.WIDTH Distributed.HEIGHT Distributed.DEPTH = 5111808 := by
    decide
  have hs : startBlock 5111808 1 0 = 0 := by decide
  have he : endBlock 5111808 1 0 = 5111808 := by decide
  have hmem : ∀ pz, pz < 5111808 →
      (0, 0, pz) ∈ rankOrigins Distributed.WIDTH Distributed.HEIGHT Distributed.DEPTH 1 0 := by
    intro pz hpz
    refine mem_loopOrigins.mpr ⟨zero_mem_origins _ (by decide), zero_mem_origins _ (by decide), ?_⟩
    simp only [rankLayers, hbc, hs, he, List.mem_range'_1]
    omega
  have hcount : (rankOrigins Distributed.WIDTH Distributed.HEIGHT Distributed.DEPTH 1 0).length =
      5111808 * 65536 := by
    rw [rankOrigins_length, hbc, hs, he]
    decide
  refine ⟨hbc, hmem 1 (by decide), hmem 311 (by decide), by decide, hcount, ?_⟩
  apply rankExtractBlocks_overflow
  rw [hcount, hbc]
  decide

/-! ## C15: the work of a rank against its declared range -/

/-- A rank whose layers and blocks are all inside the volume: with 5,111,808 processes rank 5
handles the single layer `pz = 5` and stores 65,536 fingerprints. -/
theorem rank_extraction_example :
    rankExtractBlocks Distributed.WIDTH Distributed.HEIGHT Distributed.DEPTH 5111808 5
      (zeroGrid (Distributed.WIDTH * Distributed.HEIGHT * Distributed.DEPTH)) =
      some (List.replicate 65536 0) := by
  have hl : rankLayers (BLOCK_COUNT Distributed.WIDTH Distributed.HEIGHT Distributed.DEPTH)
      5111808 5 = [5] := by decide
  have hfold := rank_layers_eq
    (zeroGrid (Distributed.WIDTH * Distributed.HEIGHT * Distributed.DEPTH)) [5] (some [])
    (fun pz hpz => by rw [List.mem_singleton.mp hpz]; decide)
  have h := storeBlock_layers_zero Distributed.WIDTH Distributed.HEIGHT Distributed.DEPTH
    (zeroGrid (Distributed.WIDTH * Distributed.HEIGHT * Distributed.DEPTH))
    (origins Distributed.HEIGHT) (origins Distributed.WIDTH) [5] []
    (fun pz hz py hy px hx =>
      extract_block_zeroGrid _ _ _ _
        (origin_inBounds _ _ Distributed.DEPTH _ (by simp [zeroGrid])
          (mem_origins hx).2 (mem_origins hy).2
          (by rw [List.mem_singleton.mp hz]; decide)))
    (by rw [origins_length, origins_length]; decide)
  rw [origins_length, origins_length] at h
  unfold rankExtractBlocks
  rw [hl, hfold]
  simp only [List.map_cons, List.map_nil]
  rw [show (5 : Nat) % 4096 = 5 from rfl, h]
  rfl

/-- C15 fails as stated: with more processes than blocks (5,111,809 processes for 5,111,808
blocks) rank 0 has the empty range `[0, 0)`: it hands nothing to `extract_block`, its
extraction completes with no fingerprint, and its work is equal to the length of its declared
range. -/
theorem empty_rank_range_matches :
    endBlock (BLOCK_COUNT Distributed.WIDTH Distributed.HEIGHT Distributed.DEPTH) 5111809 0 -
      startBlock (BLOCK_COUNT Distributed.WIDTH Distributed.HEIGHT Distributed.DEPTH)
        5111809 0 = 0 ∧
    rankOrigins Distributed.WIDTH Distributed.HEIGHT Distributed.DEPTH 5111809 0 = [] ∧
    (∀ data, rankExtractBlocks Distributed.WIDTH Distributed.HEIGHT Distributed.DEPTH
      5111809 0 data = some []) ∧
    ¬ (∀ P rank : Nat, 1 ≤ P → rank < P →
      (rankOrigins Distributed.WIDTH Distributed.HEIGHT Distributed.DEPTH P rank).length ≠
        endBlock (BLOCK_COUNT Distributed.WIDTH Distributed.HEIGHT Distributed.DEPTH) P rank -
          startBlock (BLOCK_COUNT Distributed.WIDTH Distributed.HEIGHT Distributed.DEPTH)
            P rank) := by
  have hzero : endBlock (BLOCK_COUNT Distributed.WIDTH Distributed.HEIGHT Distributed.DEPTH)
        5111809 0 -
      startBlock (BLOCK_COUNT Distributed.WIDTH Distributed.HEIGHT Distributed.DEPTH)
        5111809 0 = 0 := by decide
  have hl : rankLayers (BLOCK_COUNT Distributed.WIDTH Distributed.HEIGHT Distributed.DEPTH)
      5111809 0 = [] := by decide
  refine ⟨hzero, ?_, ?_, ?_⟩
  · unfold rankOrigins
    rw [hl]
    rfl
  · intro data
    unfold rankExtractBlocks
    rw [hl]
    rfl
  · intro h
    apply h 5111809 0 (by decide) (by decide)
    rw [rankOrigins_length, hzero, Nat.zero_mul]

/-- C15 as amended: in the distributed program, for every process count `P ≥ 1` and every
rank, the loops hand `(endBlock - startBlock) * (HEIGHT/4) * (WIDTH/4)` origins to
`extract_block`, and an extraction that completes has stored that many fingerprints.  The
extraction completes, on every grid, when the range has at most 78 layers and every `pz` of it
has `pz mod 4096 + 4 ≤ DEPTH` (the `int` block start wraps, so that `pz` acts modulo 4096);
with more than 78 layers the rank writes past its `blocks` array and has no result.  The number
of origins differs from the length `endBlock - startBlock` of the declared range as soon as the
range is not empty, which is the case of every rank when `P ≤ BLOCK_COUNT` and of the last
rank always. -/
theorem rank_work_mismatch (P rank : Nat) (hP : 1 ≤ P) :
    (rankOrigins Distributed.WIDTH Distributed.HEIGHT Distributed.DEPTH P rank).length =
      (endBlock (BLOCK_COUNT Distributed.WIDTH Distributed.HEIGHT Distributed.DEPTH) P rank -
        startBlock (BLOCK_COUNT Distributed.WIDTH Distributed.HEIGHT Distributed.DEPTH) P rank)
        * (Distributed.HEIGHT / 4) * (Distributed.WIDTH / 4) ∧
    (∀ data blocks,
      rankExtractBlocks Distributed.WIDTH Distributed.HEIGHT Distributed.DEPTH P rank data
        = some blocks →
      blocks.length =
        (endBlock (BLOCK_COUNT Distributed.WIDTH Distributed.HEIGHT Distributed.DEPTH) P rank -
          startBlock (BLOCK_COUNT Distributed.WIDTH Distributed.HEIGHT Distributed.DEPTH) P rank)
          * (Distributed.HEIGHT / 4) * (Distributed.WIDTH / 4)) ∧
    (endBlock (BLOCK_COUNT Distributed.WIDTH Distributed.HEIGHT Distributed.DEPTH) P rank -
        startBlock (BLOCK_COUNT Distributed.WIDTH Distributed.HEIGHT Distributed.DEPTH) P rank
        ≤ 78 →
      (∀ pz,
        startBlock (BLOCK_COUNT Distributed.WIDTH Distributed.HEIGHT Distributed.DEPTH) P rank
          ≤ pz →
        pz < endBlock (BLOCK_COUNT Distributed.WIDTH Distributed.HEIGHT Distributed.DEPTH)
          P rank →
        pz % 4096 + 4 ≤ Distributed.DEPTH) →
      ∀ data, data.length = Distributed.WIDTH * Distributed.HEIGHT * Distributed.DEPTH →
        ∃ blocks,
          rankExtractBlocks Distributed.WIDTH Distributed.HEIGHT Distributed.DEPTH P rank data
            = some blocks ∧
          blocks.length =
            (endBlock (BLOCK_COUNT Distributed.WIDTH Distributed.HEIGHT Distributed.DEPTH)
                P rank -
              startBlock (BLOCK_COUNT Distributed.WIDTH Distributed.HEIGHT Distributed.DEPTH)
                P rank)
              * (Distributed.HEIGHT / 4) * (Distributed.WIDTH / 4)) ∧
    (78 < endBlock (BLOCK_COUNT Distributed.WIDTH Distributed.HEIGHT Distributed.DEPTH) P rank -
        startBlock (BLOCK_COUNT Distributed.WIDTH Distributed.HEIGHT Distributed.DEPTH) P rank →
      ∀ data,
        rankExtractBlocks Distributed.WIDTH Distributed.HEIGHT Distributed.DEPTH P rank data
          = none) ∧
    (startBlock (BLOCK_COUNT Distributed.WIDTH Distributed.HEIGHT Distributed.DEPTH) P rank <
        endBlock (BLOCK_COUNT Distributed.WIDTH Distributed.HEIGHT Distributed.DEPTH) P rank →
      (rankOrigins Distributed.WIDTH Distributed.HEIGHT Distributed.DEPTH P rank).length ≠
        endBlock (BLOCK_COUNT Distributed.WIDTH Distributed.HEIGHT Distributed.DEPTH) P rank -
          startBlock (BLOCK_COUNT Distributed.WIDTH Distributed.HEIGHT Distributed.DEPTH)
            P rank) ∧
    (P ≤ BLOCK_COUNT Distributed.WIDTH Distributed.HEIGHT Distributed.DEPTH ∨ rank = P - 1 →
      startBlock (BLOCK_COUNT Distributed.WIDTH Distributed.HEIGHT Distributed.DEPTH) P rank <
        endBlock (BLOCK_COUNT Distributed.WIDTH Distributed.HEIGHT Distributed.DEPTH) P rank) := by
  have hbc : BLOCK_COUNT Distributed.WIDTH Distributed.HEIGHT Distributed.DEPTH = 5111808 := by
    decide
  have hlen := rankOrigins_length Distributed.WIDTH Distributed.HEIGHT Distributed.DEPTH P rank
  have hmul : Distributed.HEIGHT / 4 * (Distributed.WIDTH / 4) = 65536 := by decide
  have hH : Distributed.HEIGHT / 4 = 256 := by decide
  have hW : Distributed.WIDTH / 4 = 256 := by decide
  rw [hbc] at hlen ⊢
  rw [hmul] at hlen
  rw [hH, hW]
  refine ⟨by rw [hlen]; omega, ?_, ?_, ?_, ?_, ?_⟩
  · intro data blocks h
    have := (rankExtractBlocks_length _ _ _ _ _ _ _ h).1
    rw [this, hlen]
    omega
  · intro hn hz data hdata
    obtain ⟨blocks, h1, h2⟩ := rankExtractBlocks_completes P rank data hdata hn hz
    exact ⟨blocks, h1, by rw [h2]; omega⟩
  · intro hn data
    apply rankExtractBlocks_overflow
    rw [hlen, hbc]
    omega
  · intro hlt
    rw [hlen]
    omega
  · intro h
    by_cases hlast : rank = P - 1
    · rw [hlast, endBlock_last]
      exact startBlock_last_lt 5111808 P (by decide) hP
    · have hPle : P ≤ 5111808 := by
        rcases h with h | h
        · exact h
        · exact absurd h hlast
      have hq : 0 < 5111808 / P := Nat.div_pos hPle (by omega)
      unfold endBlock
      rw [if_neg hlast]
      unfold blocksPerProcess
      omega

theorem rank_work_mismatch_witness :
    (1 : Nat) ≤ 65536 ∧
    startBlock (BLOCK_COUNT Distributed.WIDTH Distributed.HEIGHT Distributed.DEPTH) 65536 2048
      = 159744 ∧
    endBlock (BLOCK_COUNT Distributed.WIDTH Distributed.HEIGHT Distributed.DEPTH) 65536 2048
      = 159822 ∧
    (rankOrigins Distributed.WIDTH Distributed.HEIGHT Distributed.DEPTH 65536 2048).length =
      78 * 256 * 256 ∧
    (∃ blocks,
      rankExtractBlocks Distributed.WIDTH Distributed.HEIGHT Distributed.DEPTH 65536 2048
        (zeroGrid (Distributed.WIDTH * Distributed.HEIGHT * Distributed.DEPTH)) = some blocks ∧
      blocks.length = 78 * 256 * 256) := by
  have hs : startBlock (BLOCK_COUNT Distributed.WIDTH Distributed.HEIGHT Distributed.DEPTH)
      65536 2048 = 159744 := by decide
  have he : endBlock (BLOCK_COUNT Distributed.WIDTH Distributed.HEIGHT Distributed.DEPTH)
      65536 2048 = 159822 := by decide
  have h := rank_work_mismatch 65536 2048 (by decide)
  refine ⟨by decide, hs, he, h.1, ?_⟩
  exact h.2.2.1 (by decide)
    (fun pz h1 h2 => by
      rw [hs] at h1
      rw [he] at h2
      show pz % 4096 + 4 ≤ 314
      omega)
    (zeroGrid (Distributed.WIDTH * Distributed.HEIGHT * Distributed.DEPTH))
    (by simp [zeroGrid])

/-! ## The effect of `insertOrUpdate` on the chains -/

theorem scanChain_none_keys {int : Int → Int} {bv : Nat} {chain : List HashNode}
    (h : scanChain int bv chain = none) : bv ∉ chainKeys chain := by
  induction chain with
  | nil => simp [chainKeys]
  | cons c rest ih =>
    unfold scanChain at h
    by_cases hc : c.blockValue = bv
    · simp [hc] at h
    · simp only [hc, if_false] at h
      cases hs : scanChain int bv rest with
      | none =>
        have := ih hs
        simp only [chainKeys, List.map_cons, List.mem_cons, not_or] at this ⊢
        exact ⟨fun e => hc e.symm, this⟩
      | some p => rw [hs] at h; simp at h

theorem scanChain_some_keys {int : Int → Int} {bv : Nat} {chain chain' : List HashNode}
    {r : Int} (h : scanChain int bv chain = some (chain', r)) :
    bv ∈ chainKeys chain ∧ chainKeys chain' = chainKeys chain := by
  induction chain generalizing chain' r with
  | nil => simp [scanChain] at h
  | cons c rest ih =>
    unfold scanChain at h
    by_cases hc : c.blockValue = bv
    · simp only [hc, if_true, Option.some.injEq, Prod.mk.injEq] at h
      obtain ⟨h1, _⟩ := h
      subst h1
      simp [chainKeys, hc]
    · simp only [hc, if_false] at h
      cases hs : scanChain int bv rest with
      | none => rw [hs] at h; simp at h
      | some p =>
        obtain ⟨n', r'⟩ := p
        rw [hs] at h
        simp only [Option.some.injEq, Prod.mk.injEq] at h
        obtain ⟨h1, _⟩ := h
        subst h1
        obtain ⟨ih1, ih2⟩ := ih hs
        simp only [chainKeys, List.map_cons, List.mem_cons] at ih1 ih2 ⊢
        exact ⟨Or.inr ih1, by rw [ih2]⟩

theorem scanChain_some_sum {bv : Nat} {chain chain' : List HashNode} {r : Int}
    (h : scanChain exactInt bv chain = some (chain', r)) :
    (chain'.map (fun node => node.count)).sum = (chain.map (fun node => node.count)).sum + 1 := by
  induction chain generalizing chain' r with
  | nil => simp [scanChain] at h
  | cons c rest ih =>
    unfold scanChain at h
    by_cases hc : c.blockValue = bv
    · simp only [hc, if_true, Option.some.injEq, Prod.mk.injEq] at h
      obtain ⟨h1, _⟩ := h
      subst h1
      simp only [List.map_cons, List.sum_cons, exactInt]
      ring
    · simp only [hc, if_false] at h
      cases hs : scanChain exactInt bv rest with
      | none => rw [hs] at h; simp at h
      | some p =>
        obtain ⟨n', r'⟩ := p
        rw [hs] at h
        simp only [Option.some.injEq, Prod.mk.injEq] at h
        obtain ⟨h1, _⟩ := h
        subst h1
        simp only [List.map_cons, List.sum_cons, ih hs]
        ring

theorem insertOrUpdate_other_bucket (int : Int → Int) (t : HashTable) (fp h : Nat)
    (hne : h ≠ hashFunction fp) : (insertOrUpdate int t fp).1 h = t h := by
  cases hs : scanChain int fp (t (hashFunction fp)) with
  | none => rw [insertOrUpdate_of_none hs]; exact Function.update_noteq hne _ _
  | some p =>
    obtain ⟨c, r⟩ := p
    rw [insertOrUpdate_of_some hs]; exact Function.update_noteq hne _ _

theorem chainKeys_insertOrUpdate_absent (int : Int → Int) (t : HashTable) (fp : Nat)
    (habs : ¬ present t fp) :
    (insertOrUpdate int t fp).1 (hashFunction fp) = createNode fp :: t (hashFunction fp) := by
  cases hs : scanChain int fp (t (hashFunction fp)) with
  | none =>
    rw [insertOrUpdate_of_none hs]
    simp only [Function.update_same]
  | some p =>
    obtain ⟨c, r⟩ := p
    exact absurd (scanChain_some_keys hs).1 habs

theorem chainKeys_insertOrUpdate_present (int : Int → Int) (t : HashTable) (fp : Nat)
    (hpres : present t fp) :
    chainKeys ((insertOrUpdate int t fp).1 (hashFunction fp)) =
      chainKeys (t (hashFunction fp)) := by
  cases hs : scanChain int fp (t (hashFunction fp)) with
  | none => exact absurd hpres (scanChain_none_keys hs)
  | some p =>
    obtain ⟨c, r⟩ := p
    rw [insertOrUpdate_of_some hs]
    simp only [Function.update_same]
    exact (scanChain_some_keys hs).2

/-- The fingerprints of every chain after a call: the new fingerprint is put in front of the
chain of its bucket when it has no entry, and nothing else changes. -/
theorem chainKeys_insertOrUpdate (int : Int → Int) (t : HashTable) (fp h : Nat) :
    chainKeys ((insertOrUpdate int t fp).1 h) =
      if h = hashFunction fp ∧ ¬ present t fp then fp :: chainKeys (t h)
      else chainKeys (t h) := by
  by_cases hb : h = hashFunction fp
  · subst hb
    by_cases hp : present t fp
    · rw [if_neg (by simp [hp]), chainKeys_insertOrUpdate_present int t fp hp]
    · rw [if_pos ⟨rfl, hp⟩, chainKeys_insertOrUpdate_absent int t fp hp]
      rfl
  · rw [if_neg (by simp [hb]), insertOrUpdate_other_bucket int t fp h hb]

/-! ## Sums over the buckets -/

theorem sum_bucket_change {M : Type} [AddCommMonoid M] (t t' : HashTable) (j : Nat)
    (hj : j < HASH_SIZE) (g : List HashNode → M) (hother : ∀ h, h ≠ j → t' h = t h) :
    (Finset.range HASH_SIZE).sum (fun h => g (t' h)) + g (t j) =
      (Finset.range HASH_SIZE).sum (fun h => g (t h)) + g (t' j) := by
  have hmem : j ∈ Finset.range HASH_SIZE := Finset.mem_range.mpr hj
  rw [← Finset.add_sum_erase _ (fun h => g (t' h)) hmem,
    ← Finset.add_sum_erase _ (fun h => g (t h)) hmem]
  have hrest : ((Finset.range HASH_SIZE).erase j).sum (fun h => g (t' h)) =
      ((Finset.range HASH_SIZE).erase j).sum (fun h => g (t h)) := by
    apply Finset.sum_congr rfl
    intro h hh
    rw [hother h (Finset.ne_of_mem_erase hh)]
  rw [hrest]
  simp only [add_comm, add_left_comm]

theorem hashFunction_lt (v : Nat) : hashFunction v < HASH_SIZE :=
  Nat.mod_lt _ (by decide)

theorem chainKeys_length (chain : List HashNode) : (chainKeys chain).length = chain.length := by
  simp [chainKeys]

theorem chainCount_of_not_mem {bv : Nat} {chain : List HashNode} (h : bv ∉ chainKeys chain) :
    chainCount bv chain = 0 := by
  induction chain with
  | nil => rfl
  | cons c rest ih =>
    simp only [chainKeys, List.map_cons, List.mem_cons, not_or] at h
    have hc : ¬ c.blockValue = bv := fun e => h.1 e.symm
    simp only [chainCount, hc, if_false]
    exact ih h.2

theorem scanChain_some_mem {int : Int → Int} {bv : Nat} {chain chain' : List HashNode}
    {r : Int} (h : scanChain int bv chain = some (chain', r)) (node : HashNode)
    (hne : node.blockValue ≠ bv) : node ∈ chain' ↔ node ∈ chain := by
  induction chain generalizing chain' r with
  | nil => simp [scanChain] at h
  | cons c rest ih =>
    unfold scanChain at h
    by_cases hc : c.blockValue = bv
    · simp only [hc, if_true, Option.some.injEq, Prod.mk.injEq] at h
      obtain ⟨h1, _⟩ := h
      subst h1
      simp only [List.mem_cons]
      constructor
      · rintro (e | e)
        · exact absurd (by rw [e]) hne
        · exact Or.inr e
      · rintro (e | e)
        · exact absurd (by rw [e]; exact hc) hne
        · exact Or.inr e
    · simp only [hc, if_false] at h
      cases hs : scanChain int bv rest with
      | none => rw [hs] at h; simp at h
      | some p =>
        obtain ⟨n', r'⟩ := p
        rw [hs] at h
        simp only [Option.some.injEq, Prod.mk.injEq] at h
        obtain ⟨h1, _⟩ := h
        subst h1
        simp only [List.mem_cons, ih hs]

theorem insertOrUpdate_mem_other (int : Int → Int) (t : HashTable) (fp h : Nat)
    (node : HashNode) (hne : node.blockValue ≠ fp) :
    node ∈ (insertOrUpdate int t fp).1 h ↔ node ∈ t h := by
  by_cases hb : h = hashFunction fp
  · subst hb
    cases hs : scanChain int fp (t (hashFunction fp)) with
    | none =>
      rw [insertOrUpdate_of_none hs]
      simp only [Function.update_same, List.mem_cons]
      constructor
      · rintro (e | e)
        · exact absurd (by rw [e]; rfl) hne
        · exact e
      · exact Or.inr
    | some p =>
      obtain ⟨c, r⟩ := p
      rw [insertOrUpdate_of_some hs]
      simp only [Function.update_same]
      exact scanChain_some_mem hs node hne
  · rw [insertOrUpdate_other_bucket int t fp h hb]

theorem entryCount_insertOrUpdate (int : Int → Int) (t : HashTable) (fp : Nat) :
    entryCount (insertOrUpdate int t fp).1 =
      entryCount t + (if present t fp then 0 else 1) := by
  have h := sum_bucket_change t (insertOrUpdate int t fp).1 (hashFunction fp)
    (hashFunction_lt fp) (fun chain => chain.length)
    (fun h hne => insertOrUpdate_other_bucket int t fp h hne)
  unfold entryCount
  by_cases hp : present t fp
  · have hk := chainKeys_insertOrUpdate_present int t fp hp
    have hl : ((insertOrUpdate int t fp).1 (hashFunction fp)).length =
        (t (hashFunction fp)).length := by
      rw [← chainKeys_length, hk, chainKeys_length]
    rw [if_pos hp]
    simp only at h
    omega
  · rw [chainKeys_insertOrUpdate_absent int t fp hp] at h
    rw [if_neg hp]
    simp only [List.length_cons] at h
    omega

/-! ## C19: what one call of `insertOrUpdate` changes -/

/-- C19: for every table and every fingerprint `fp`, `insertOrUpdate(table, fp)` leaves the
stored count of every other fingerprint unchanged, leaves every node of another fingerprint in
its chain and adds none, removes no entry, adds exactly one entry (with count 1) when `fp` had
none, and otherwise keeps the entries of every chain and adds exactly 1 to the count of
`fp`. -/
theorem insertOrUpdate_frame (t : HashTable) (fp : Nat) :
    (∀ v, v ≠ fp → countOf (insertOrUpdate exactInt t fp).1 v = countOf t v) ∧
    (∀ h node, node.blockValue ≠ fp →
      (node ∈ (insertOrUpdate exactInt t fp).1 h ↔ node ∈ t h)) ∧
    (∀ h v, v ∈ chainKeys (t h) → v ∈ chainKeys ((insertOrUpdate exactInt t fp).1 h)) ∧
    (¬ present t fp →
      entryCount (insertOrUpdate exactInt t fp).1 = entryCount t + 1 ∧
      countOf (insertOrUpdate exactInt t fp).1 fp = 1) ∧
    (present t fp →
      entryCount (insertOrUpdate exactInt t fp).1 = entryCount t ∧
      (∀ h, chainKeys ((insertOrUpdate exactInt t fp).1 h) = chainKeys (t h)) ∧
      countOf (insertOrUpdate exactInt t fp).1 fp = countOf t fp + 1) := by
  refine ⟨?_, ?_, ?_, ?_, ?_⟩
  · intro v hv
    rw [countOf_insertOrUpdate exactInt_reading, if_neg hv]
  · intro h node hne
    exact insertOrUpdate_mem_other exactInt t fp h node hne
  · intro h v hv
    rw [chainKeys_insertOrUpdate]
    split
    · exact List.mem_cons_of_mem _ hv
    · exact hv
  · intro habs
    refine ⟨by rw [entryCount_insertOrUpdate, if_neg habs], ?_⟩
    rw [countOf_insertOrUpdate exactInt_reading, if_pos rfl]
    have : countOf t fp = 0 := chainCount_of_not_mem habs
    rw [this]
    rfl
  · intro hpres
    refine ⟨by rw [entryCount_insertOrUpdate, if_pos hpres, Nat.add_zero], ?_, ?_⟩
    · intro h
      rw [chainKeys_insertOrUpdate, if_neg (by simp [hpres])]
    · rw [countOf_insertOrUpdate exactInt_reading, if_pos rfl]
      rfl

theorem insertOrUpdate_frame_witness :
    present sampleTable 5 ∧ ¬ present sampleTable 9 ∧
    countOf sampleTable 5 = 1 ∧
    countOf (insertOrUpdate exactInt sampleTable 5).1 5 = countOf sampleTable 5 + 1 ∧
    entryCount (insertOrUpdate exactInt sampleTable 5).1 = entryCount sampleTable ∧
    entryCount (insertOrUpdate exactInt sampleTable 9).1 = entryCount sampleTable + 1 ∧
    countOf (insertOrUpdate exactInt sampleTable 9).1 9 = 1 :=
  ⟨by decide, by decide, by decide,
    ((insertOrUpdate_frame sampleTable 5).2.2.2.2 (by decide)).2.2,
    ((insertOrUpdate_frame sampleTable 5).2.2.2.2 (by decide)).1,
    ((insertOrUpdate_frame sampleTable 9).2.2.2.1 (by decide)).1,
    ((insertOrUpdate_frame sampleTable 9).2.2.2.1 (by decide)).2⟩

/-! ## The invariant of the table -/

theorem ledgerAfter_snoc (l : List Nat) (x : Nat) :
    ledgerAfter (l ++ [x]) = (insertOrUpdate exactInt (ledgerAfter l) x).1 := by
  simp [ledgerAfter, callSequence_append, callSequence]

theorem ledger_keys (fps : List Nat) :
    (∀ h k, k ∈ chainKeys (ledgerAfter fps h) → hashFunction k = h ∧ k ∈ fps) ∧
    (∀ h, (chainKeys (ledgerAfter fps h)).Nodup) ∧
    (∀ fp, fp ∈ fps → present (ledgerAfter fps) fp) := by
  induction fps using List.reverseRecOn with
  | nil =>
    refine ⟨?_, ?_, ?_⟩
    · intro h k hk
      simp [ledgerAfter, callSequence, emptyTable, chainKeys] at hk
    · intro h
      simp [ledgerAfter, callSequence, emptyTable, chainKeys]
    · intro fp hfp
      simp at hfp
  | append_singleton l x ih =>
    obtain ⟨ih1, ih2, ih3⟩ := ih
    rw [ledgerAfter_snoc]
    refine ⟨?_, ?_, ?_⟩
    · intro h k hk
      rw [chainKeys_insertOrUpdate] at hk
      split at hk
      · rename_i hc
        rcases List.mem_cons.mp hk with e | e
        · subst e
          exact ⟨hc.1.symm, by simp⟩
        · exact ⟨(ih1 h k e).1, List.mem_append_left _ (ih1 h k e).2⟩
      · exact ⟨(ih1 h k hk).1, List.mem_append_left _ (ih1 h k hk).2⟩
    · intro h
      rw [chainKeys_insertOrUpdate]
      split
      · rename_i hc
        refine List.nodup_cons.mpr ⟨?_, ih2 h⟩
        intro hmem
        apply hc.2
        unfold present
        rw [← hc.1]
        exact hmem
      · exact ih2 h
    · intro fp hfp
      unfold present
      rw [chainKeys_insertOrUpdate]
      rcases List.mem_append.mp hfp with hl | hx
      · have := ih3 fp hl
        split
        · exact List.mem_cons_of_mem _ this
        · exact this
      · have hfx : fp = x := by simpa using hx
        subst hfx
        by_cases hp : present (ledgerAfter l) fp
        · rw [if_neg (by simp [hp])]
          exact hp
        · rw [if_pos ⟨rfl, hp⟩]
          exact List.mem_cons_self _ _

theorem chainCount_of_mem_nodup {chain : List HashNode} (hnd : (chainKeys chain).Nodup)
    {node : HashNode} (hmem : node ∈ chain) : chainCount node.blockValue chain = node.count := by
  induction chain with
  | nil => cases hmem
  | cons c rest ih =>
    simp only [chainKeys, List.map_cons, List.nodup_cons] at hnd
    rcases List.mem_cons.mp hmem with e | e
    · subst e
      simp [chainCount]
    · have hk : node.blockValue ∈ rest.map (fun n => n.blockValue) :=
        List.mem_map.mpr ⟨node, e, rfl⟩
      have hne : ¬ c.blockValue = node.blockValue := by
        intro heq
        apply hnd.1
        rw [heq]
        exact hk
      simp only [chainCount, hne, if_false]
      exact ih hnd.2 e

theorem totalCount_insertOrUpdate (t : HashTable) (fp : Nat) :
    totalCount (insertOrUpdate exactInt t fp).1 = totalCount t + 1 := by
  have h := sum_bucket_change t (insertOrUpdate exactInt t fp).1 (hashFunction fp)
    (hashFunction_lt fp) (fun chain => (chain.map (fun node => node.count)).sum)
    (fun h hne => insertOrUpdate_other_bucket exactInt t fp h hne)
  have hj : (((insertOrUpdate exactInt t fp).1 (hashFunction fp)).map
      (fun node => node.count)).sum =
      ((t (hashFunction fp)).map (fun node => node.count)).sum + 1 := by
    cases hs : scanChain exactInt fp (t (hashFunction fp)) with
    | none =>
      rw [insertOrUpdate_of_none hs]
      simp only [Function.update_same, List.map_cons, List.sum_cons, createNode]
      ring
    | some p =>
      obtain ⟨c, r⟩ := p
      rw [insertOrUpdate_of_some hs]
      simp only [Function.update_same]
      exact scanChain_some_sum hs
  unfold totalCount
  simp only at h
  rw [hj] at h
  linarith

theorem totalCount_ledgerAfter (fps : List Nat) :
    totalCount (ledgerAfter fps) = (fps.length : Int) := by
  induction fps using List.reverseRecOn with
  | nil => simp [totalCount, ledgerAfter, callSequence, emptyTable]
  | append_singleton l x ih =>
    rw [ledgerAfter_snoc, totalCount_insertOrUpdate, ih]
    simp

theorem countOf_ledgerAfter (fps : List Nat) (v : Nat) :
    countOf (ledgerAfter fps) v = (fps.count v : Int) := by
  have h := countOf_callSequence exactInt_reading emptyTable fps v
  simpa [exactInt, countOf_emptyTable, ledgerAfter] using h

theorem nodesWith_ledgerAfter (fps : List Nat) (fp : Nat) :
    nodesWith (ledgerAfter fps) fp = if fp ∈ fps then 1 else 0 := by
  obtain ⟨h1, h2, h3⟩ := ledger_keys fps
  unfold nodesWith
  rw [Finset.sum_eq_single (hashFunction fp)]
  · by_cases hmem : fp ∈ fps
    · rw [if_pos hmem]
      exact List.count_eq_one_of_mem (h2 _) (h3 fp hmem)
    · rw [if_neg hmem]
      exact List.count_eq_zero.mpr (fun hk => hmem (h1 _ fp hk).2)
  · intro h _ hne
    exact List.count_eq_zero.mpr (fun hk => hne (h1 h fp hk).1.symm)
  · intro hnot
    exact absurd (Finset.mem_range.mpr (hashFunction_lt fp)) hnot

/-! ## C16: the invariant of the ledger -/

/-- C16: after any sequence of `insertOrUpdate` calls from the empty table, every observed
fingerprint is held by exactly one node, in the chain of bucket `fingerprint mod 10007`, a
bucket index below 10007; the count of a node is the number of times its fingerprint was
observed, hence at least 1; no chain holds a fingerprint twice; a fingerprint that was not
observed has no node; and the counts add up to the number of calls. -/
theorem ledger_invariant (fps : List Nat) :
    (∀ fp, fp ∈ fps →
      nodesWith (ledgerAfter fps) fp = 1 ∧ present (ledgerAfter fps) fp ∧
      hashFunction fp = fp % 10007 ∧ hashFunction fp < 10007) ∧
    (∀ fp, fp ∉ fps →
      nodesWith (ledgerAfter fps) fp = 0 ∧
      ∀ h node, node ∈ ledgerAfter fps h → node.blockValue ≠ fp) ∧
    (∀ h node, node ∈ ledgerAfter fps h →
      h = hashFunction node.blockValue ∧ node.blockValue ∈ fps ∧
      node.count = (fps.count node.blockValue : Int) ∧ 1 ≤ node.count) ∧
    (∀ h, (chainKeys (ledgerAfter fps h)).Nodup) ∧
    totalCount (ledgerAfter fps) = (fps.length : Int) := by
  obtain ⟨h1, h2, h3⟩ := ledger_keys fps
  have hkey : ∀ h node, node ∈ ledgerAfter fps h →
      node.blockValue ∈ chainKeys (ledgerAfter fps h) :=
    fun h node hn => List.mem_map.mpr ⟨node, hn, rfl⟩
  refine ⟨?_, ?_, ?_, h2, totalCount_ledgerAfter fps⟩
  · intro fp hfp
    refine ⟨by rw [nodesWith_ledgerAfter, if_pos hfp], h3 fp hfp, rfl, hashFunction_lt fp⟩
  · intro fp hfp
    refine ⟨by rw [nodesWith_ledgerAfter, if_neg hfp], ?_⟩
    intro h node hn heq
    apply hfp
    rw [← heq]
    exact (h1 h _ (hkey h node hn)).2
  · intro h node hn
    obtain ⟨hb, hmem⟩ := h1 h _ (hkey h node hn)
    have hc : node.count = (fps.count node.blockValue : Int) := by
      rw [← countOf_ledgerAfter, countOf, hb]
      exact (chainCount_of_mem_nodup (h2 h) hn).symm
    refine ⟨hb.symm, hmem, hc, ?_⟩
    rw [hc]
    have : 0 < fps.count node.blockValue := List.count_pos_iff.mpr hmem
    exact_mod_cast this

theorem ledger_invariant_witness :
    (5 : Nat) ∈ [5, 7, 5, 10012] ∧
    ledgerAfter [5, 7, 5, 10012] 5 =
      [{ blockValue := 10012, count := 1 }, { blockValue := 5, count := 2 }] ∧
    nodesWith (ledgerAfter [5, 7, 5, 10012]) 5 = 1 ∧
    totalCount (ledgerAfter [5, 7, 5, 10012]) = 4 :=
  ⟨by decide, by decide,
    ((ledger_invariant [5, 7, 5, 10012]).1 5 (by decide)).1,
    (ledger_invariant [5, 7, 5, 10012]).2.2.2.2⟩

/-! ## C8: the distributed total against the sequential total in 32-bit `int` -/

theorem distributedTotal_eq {int : Int → Int} (hint : IntReading int)
    (parts : List (List Nat)) :
    distributedTotal int parts = int (((parts.map duplicatePairs).sum : Nat) : Int) := by
  have hfold : ∀ (l : List (List Nat)) (acc : Int), int acc = acc →
      (l.map (sequentialTotal int)).foldl (fun g p => int (g + p)) acc =
        int (acc + (((l.map duplicatePairs).sum : Nat) : Int)) := by
    intro l
    induction l with
    | nil => intro acc hacc; simp [hacc]
    | cons p ps ih =>
      intro acc hacc
      simp only [List.map_cons, List.foldl_cons, List.sum_cons, Nat.cast_add]
      rw [ih _ (hint.idem _), sequentialTotal_eq hint, hint.add_right, hint.add_left]
      congr 1
      ring
  unfold distributedTotal
  rw [hfold parts 0 hint.zero, zero_add]

/-- While nothing overflows, the 32-bit programs satisfy the property of C8: when the number of
duplicate pairs of the whole list is below `2^31`, the distributed total is at most the
sequential total, with equality if and only if no fingerprint occurs in two ranges. -/
theorem distributed_le_sequential_int32 (fps : List Nat) (parts : List (List Nat))
    (hsplit : parts.flatten = fps) (hsmall : duplicatePairs fps < 2147483648) :
    distributedTotal int32 parts ≤ sequentialTotal int32 fps ∧
    (distributedTotal int32 parts = sequentialTotal int32 fps ↔
      parts.Pairwise List.Disjoint) := by
  subst hsplit
  obtain ⟨hle, heq⟩ := partPairs_le_and_eq_iff parts
  rw [distributedTotal_eq int32_reading, sequentialTotal_eq int32_reading,
    int32_of_range (by omega) (by omega), int32_of_range (by omega) (by omega)]
  refine ⟨by exact_mod_cast hle, ?_⟩
  rw [← heq]
  exact Nat.cast_inj

/-- C8 (violated by the code): in the 32-bit `int` of `pairCount` and of the `MPI_INT`
reduction the distributed total can exceed the sequential one.  For 65,537 equal fingerprints
split into ranges of 32,768 and 32,769, the sequential count 2,147,516,416 wraps to
-2,147,450,880 while the distributed total is 1,073,741,824; for 131,072 equal fingerprints
split into two ranges of 65,536 both totals are -65,536 although the ranges share their
fingerprint. -/
theorem distributed_exceeds_sequential_overflow :
    [List.replicate 32768 0, List.replicate 32769 0].flatten = List.replicate 65537 0 ∧
    sequentialTotal int32 (List.replicate 65537 0) = -2147450880 ∧
    distributedTotal int32 [List.replicate 32768 0, List.replicate 32769 0] = 1073741824 ∧
    ¬ (distributedTotal int32 [List.replicate 32768 0, List.replicate 32769 0] ≤
      sequentialTotal int32 (List.replicate 65537 0)) ∧
    [List.replicate 65536 0, List.replicate 65536 0].flatten = List.replicate 131072 0 ∧
    distributedTotal int32 [List.replicate 65536 0, List.replicate 65536 0] =
      sequentialTotal int32 (List.replicate 131072 0) ∧
    ¬ [List.replicate 65536 0, List.replicate 65536 0].Pairwise List.Disjoint := by
  have hflat : ∀ a b : Nat, [List.replicate a 0, List.replicate b 0].flatten =
      List.replicate (a + b) 0 := by
    intro a b
    rw [List.flatten_cons, List.flatten_cons, List.flatten_nil, List.append_nil,
      List.replicate_add]
  have hseq1 : sequentialTotal int32 (List.replicate 65537 0) = -2147450880 := by
    rw [sequentialTotal_eq int32_reading, duplicatePairs_replicate]
    decide
  have hdist1 : distributedTotal int32 [List.replicate 32768 0, List.replicate 32769 0]
      = 1073741824 := by
    rw [distributedTotal_eq int32_reading]
    simp only [List.map_cons, List.map_nil, List.sum_cons, List.sum_nil,
      duplicatePairs_replicate]
    decide
  have hseq2 : sequentialTotal int32 (List.replicate 131072 0) = -65536 := by
    rw [sequentialTotal_eq int32_reading, duplicatePairs_replicate]
    decide
  have hdist2 : distributedTotal int32 [List.replicate 65536 0, List.replicate 65536 0]
      = -65536 := by
    rw [distributedTotal_eq int32_reading]
    simp only [List.map_cons, List.map_nil, List.sum_cons, List.sum_nil,
      duplicatePairs_replicate]
    decide
  refine ⟨hflat 32768 32769, hseq1, hdist1, ?_, hflat 65536 65536, ?_, ?_⟩
  · rw [hseq1, hdist1]
    decide
  · rw [hseq2, hdist2]
  · intro h
    have hd := (List.pairwise_cons.mp h).1 (List.replicate 65536 0) (List.mem_singleton.mpr rfl)
    have hmem : (0 : Nat) ∈ List.replicate 65536 0 :=
      List.mem_replicate.mpr ⟨by decide, rfl⟩
    exact hd hmem hmem

/-! ## The block start in `int` and in the naturals -/

/-- While `px + py * WIDTH + pz * WIDTH * HEIGHT` is below `2^31` the `int` computation of the
block start does not wrap: it is the natural number used by `storeBlock`. -/
theorem rankBlockStart_of_small (WIDTH HEIGHT px py pz : Nat)
    (h : px + py * WIDTH + pz * WIDTH * HEIGHT < 2147483648) :
    rankBlockStart WIDTH HEIGHT px py pz = px + py * WIDTH + pz * WIDTH * HEIGHT := by
  have hcast : (px : Int) + (py : Int) * (WIDTH : Int) + (pz : Int) * (WIDTH : Int) * (HEIGHT : Int)
      = ((px + py * WIDTH + pz * WIDTH * HEIGHT : Nat) : Int) := by
    push_cast
    ring
  unfold rankBlockStart
  rw [hcast]
  generalize px + py * WIDTH + pz * WIDTH * HEIGHT = v at h
  unfold toSizeT int32
  omega

/-- In the extraction loops of the sequential and the threaded `main`, whose volume has fewer
than `2^31` voxels, every block start computed in `int` is the one of `storeBlock`: the two
loop bodies agree. -/
theorem storeBlock_eq_rankStoreBlock (WIDTH HEIGHT DEPTH : Nat) (data : List Nat)
    (hsize : WIDTH * HEIGHT * DEPTH < 2147483648) {px py pz : Nat}
    (ho : (px, py, pz) ∈ blockOrigins WIDTH HEIGHT DEPTH) (s : Option (List Nat)) :
    storeBlock WIDTH HEIGHT DEPTH data pz py s px =
      rankStoreBlock WIDTH HEIGHT DEPTH data pz py s px := by
  have hlt := blockOrigins_offset_lt WIDTH HEIGHT DEPTH ho (x := 0) (y := 0) (z := 0)
    (by decide) (by decide) (by decide)
  simp only [blockStart, Nat.zero_mul, Nat.add_zero] at hlt
  unfold storeBlock rankStoreBlock
  rw [rankBlockStart_of_small WIDTH HEIGHT px py pz (by omega)]

end BlockSimilarityFinder
